import Mathlib

/-!
Shallow embedding of `src/file_system.py` (a FAT-based RAM-disk virtual
filesystem) and verification of the frozen claims about it.

Modelling conventions, mirroring the Python source:

* Python dict node objects are modelled by an append-only arena
  (`FS.nodes : List Node`); a Python reference to a node dict becomes a
  `Nat` index into the arena, so the aliasing between the directory tree
  and the open-file table is represented faithfully.  The root node is
  always at index 0 (`self.root`).
* `free_map`, `fat` and the RAM disk `_disk_mem` are modelled as total
  functions from indices; the Python lists have fixed lengths
  `NUM_BLOCKS` / `DISK_SIZE` and all verified behaviour only reads them
  inside those bounds.  List indexing `fat[b]` with a Python `int` `b`
  is modelled by `fatGet`, which reproduces Python semantics (including
  negative indices) via `b % NUM_BLOCKS`.
* Byte strings (`bytes`) are modelled by `Bytes` (a length plus a
  content function); Python slicing/`ljust` is reproduced exactly on
  this representation.  `write_file` receives the already UTF-8 encoded
  payload, since every claim speaks about the encoded bytes.
* Python `while` loops over the FAT are written with an explicit fuel
  of `NUM_BLOCKS + 1`; exhausted fuel corresponds to a Python infinite
  loop.  A function result of `none` at the operation level means the
  Python operation does not complete normally (an uncaught exception
  such as `KeyError`, or an infinite loop); a result of
  `some (s, .error e)` is a normally completed operation that printed
  the error message classified by `e`.
* Error messages are classified by the inductive `Err` rather than by
  their literal text: `.diskFull` is `"Error: Disk full."`,
  `.notOpen` is `"Error: File not open."`, and so on.
* The open-file table stores `{pos, node}`; `pos` is written once (0)
  and never read anywhere in the source, so only the node reference is
  carried.
-/

namespace VFS

/-- `DISK_SIZE = 1024 * 1024` from the source. -/
def DISK_SIZE : Nat := 1024 * 1024

/-- `BLOCK_SIZE = 512` from the source. -/
def BLOCK_SIZE : Nat := 512

/-- `NUM_BLOCKS = DISK_SIZE // BLOCK_SIZE` from the source. -/
def NUM_BLOCKS : Nat := DISK_SIZE / BLOCK_SIZE

/-- Pointwise update of a total function, modelling `xs[i] = v` on a Python list. -/
def upd {α : Type} (f : Nat → α) (i : Nat) (v : α) : Nat → α :=
  fun j => if j = i then v else f j

/-- Python list index arithmetic: index `b` (possibly negative) into a list of
length `NUM_BLOCKS`; Python resolves in-range negative indices as `b + NUM_BLOCKS`,
which coincides with `b % NUM_BLOCKS` for `-NUM_BLOCKS ≤ b < NUM_BLOCKS`. -/
def intIdx (b : Int) : Nat := (b % (NUM_BLOCKS : Int)).toNat

/-- `self.fat[b]` for a Python integer index `b`. -/
def fatGet (fat : Nat → Int) (b : Int) : Int := fat (intIdx b)

/-- A byte string: its length and its contents (byte value at each
position below `len`). -/
structure Bytes where
  len : Nat
  byteAt : Nat → Nat

/-- Python slice `d[off : off + amt]`. -/
def Bytes.slice (d : Bytes) (off amt : Nat) : Bytes :=
  ⟨min amt (d.len - off), fun j => d.byteAt (off + j)⟩

/-- The byte list denoted by a `Bytes` value. -/
def Bytes.toList (d : Bytes) : List Nat :=
  (List.range d.len).map d.byteAt

/-- The empty byte string `b""`. -/
def emptyBytes : Bytes := ⟨0, fun _ => 0⟩

/-- Payload of a directory or file node: `{"type": "dir", "children": ...}`
carries the children mapping (name to arena index, in insertion order);
`{"type": "file", ...}` carries `size` and `first_block`. -/
inductive NodeData where
  | dir (children : List (String × Nat))
  | file (size : Nat) (first_block : Int)
deriving DecidableEq

/-- One node dict: its `name` attribute and its tagged payload. -/
structure Node where
  name : String
  data : NodeData
deriving DecidableEq

/-- Placeholder returned when an arena index is looked up out of range;
on the states the development works with, all stored indices are in
range (Python references are never dangling). -/
def dummyNode : Node := ⟨"", .dir []⟩

/-- The whole in-memory state of the `FileSystem` object. -/
structure FS where
  nodes : List Node
  current_path : List String
  free_map : Nat → Bool
  fat : Nat → Int
  oft : List (String × Nat)
  disk : Nat → Nat

/-- `node["children"][k]` / `k in node["children"]`: ordered-dict lookup. -/
def lookupA {α : Type} : List (String × α) → String → Option α
  | [], _ => none
  | (k', v) :: rest, k => if k' = k then some v else lookupA rest k

/-- Python dict assignment `d[k] = v`: replace in place if the key is
present, otherwise append at the end (insertion order). -/
def dictSet {α : Type} : List (String × α) → String → α → List (String × α)
  | [], k, v => [(k, v)]
  | (k', v') :: rest, k, v =>
    if k' = k then (k, v) :: rest else (k', v') :: dictSet rest k v

/-- Python dict `d.pop(k, None)`: drop the entry with key `k` if present. -/
def removeA {α : Type} : List (String × α) → String → List (String × α)
  | [], _ => []
  | (k', v') :: rest, k => if k' = k then rest else (k', v') :: removeA rest k

/-- Dereference an arena index in an arena. -/
def getN (ns : List Node) (id : Nat) : Node := ns.getD id dummyNode

/-- Dereference an arena index. -/
def getNode (s : FS) (id : Nat) : Node := getN s.nodes id

/-- Overwrite the node stored at an arena index (a mutation of the
corresponding Python dict, visible through every reference to it). -/
def setNode (s : FS) (id : Nat) (nd : Node) : FS :=
  {s with nodes := s.nodes.set id nd}

/-- Replace the `children` mapping of the node at `id`, keeping its name. -/
def setChildren (s : FS) (id : Nat) (cs : List (String × Nat)) : FS :=
  setNode s id ⟨(getNode s id).name, .dir cs⟩

/-- The children mapping of the node at `id` (empty for a file node; only
used where the node is known to be a directory). -/
def childrenOfD (s : FS) (id : Nat) : List (String × Nat) :=
  match (getNode s id).data with
  | .dir cs => cs
  | .file _ _ => []

/-- Append a fresh node to the arena, returning its index (a fresh Python
dict and the reference to it). -/
def addNode (s : FS) (nd : Node) : FS × Nat :=
  ({s with nodes := s.nodes ++ [nd]}, s.nodes.length)

/-- Error message classification for the `print` calls in the source. -/
inductive Err where
  | alreadyExists
  | notFound
  | notADirectory
  | isDirectory
  | notEmpty
  | notOpen
  | alreadyOpen
  | diskFull
  | invalidDestination
deriving DecidableEq

/-- `FileSystem._get_current_dir_node`, as the walk it performs:
`node = node["children"][part]` for each part.  `none` models the
`KeyError` raised when a part is missing or an intermediate node is a
file dict (which has no `"children"` key). -/
def walkPath (s : FS) : Nat → List String → Option Nat
  | id, [] => some id
  | id, p :: rest =>
    match (getNode s id).data with
    | .file _ _ => none
    | .dir cs =>
      match lookupA cs p with
      | none => none
      | some cid => walkPath s cid rest

/-- The arena index of the current working directory node. -/
def getCurrentDirId (s : FS) : Option Nat := walkPath s 0 s.current_path

/-- Python `path.strip("/")` on the character list. -/
def stripSlash (cs : List Char) : List Char :=
  ((cs.dropWhile (fun c => c = '/')).reverse.dropWhile (fun c => c = '/')).reverse

/-- Python `str.split("/")`: note `"".split("/") == [""]` and inner empty
components are kept. -/
def splitSlash : List Char → List (List Char)
  | [] => [[]]
  | c :: rest =>
    if c = '/' then [] :: splitSlash rest
    else
      match splitSlash rest with
      | [] => [[c]]
      | p :: ps => (c :: p) :: ps

/-- Does the path start with a slash (`path.startswith("/")`)? -/
def startsWithSlash : List Char → Bool
  | '/' :: _ => true
  | _ => false

/-- The possible results of `FileSystem._resolve_path`: Python returns
`(None, "/")`, `(None, ".")`, `(None, None)`, or `(node, target_name)`. -/
inductive RPRes where
  | rootTok
  | curTok
  | failTok
  | found (pid : Nat) (name : String)
deriving DecidableEq

/-- The `for part in parts[:-1]` walk of `_resolve_path`.  Outer `none` is
a crash (`node["children"]` on a file dict); `some none` is the
`return None, None` branch. -/
def resolveWalk (s : FS) : Nat → List (List Char) → Option (Option Nat)
  | id, [] => some (some id)
  | id, p :: rest =>
    match (getNode s id).data with
    | .file _ _ => none
    | .dir cs =>
      match lookupA cs (String.mk p) with
      | some cid =>
        match (getNode s cid).data with
        | .dir _ => resolveWalk s cid rest
        | .file _ _ => some none
      | none => some none

/-- `FileSystem._resolve_path`. -/
def resolvePath (s : FS) (path : String) : Option RPRes :=
  let parts : List (List Char) :=
    if path = "/" then [] else splitSlash (stripSlash path.data)
  if startsWithSlash path.data then
    if parts = [] then some .rootTok
    else
      match resolveWalk s 0 parts.dropLast with
      | none => none
      | some none => some .failTok
      | some (some nid) => some (.found nid (String.mk (parts.getLastD [])))
  else
    match getCurrentDirId s with
    | none => none
    | some cur =>
      if path = "" ∨ path = "." then some .curTok
      else
        match resolveWalk s cur parts.dropLast with
        | none => none
        | some none => some .failTok
        | some (some nid) => some (.found nid (String.mk (parts.getLastD [])))

/-- `free_indices = [i for i, ok in enumerate(self.free_map) if ok]`. -/
def freeIndices (s : FS) : List Nat :=
  (List.range NUM_BLOCKS).filter (fun i => s.free_map i)

/-- Number of free blocks. -/
def freeCount (s : FS) : Nat := (freeIndices s).length

/-- First loop of `_allocate_blocks`: mark each allocated index used and
set its FAT entry to `-1`. -/
def markAlloc (s : FS) (allocated : List Nat) : FS :=
  allocated.foldl
    (fun t idx => {t with free_map := upd t.free_map idx false, fat := upd t.fat idx (-1)}) s

/-- Second loop of `_allocate_blocks`:
`for i in range(len(allocated) - 1): fat[allocated[i]] = allocated[i+1]`,
rendered as a fold over the list of consecutive pairs. -/
def linkChain (s : FS) (allocated : List Nat) : FS :=
  (allocated.zip allocated.tail).foldl
    (fun t ab => {t with fat := upd t.fat ab.1 ((ab.2 : Nat) : Int)}) s

/-- `FileSystem._allocate_blocks`; `none` is the Python `return None`. -/
def allocateBlocks (s : FS) (n : Nat) : Option (FS × List Nat) :=
  let fi := freeIndices s
  if fi.length < n then none
  else
    let allocated := fi.take n
    some (linkChain (markAlloc s allocated) allocated, allocated)

/-- The `while self.fat[curr] != -1: curr = self.fat[curr]` walk of
`_extend_chain`, with fuel; `none` means the loop does not terminate
within the fuel. -/
def findTail (fat : Nat → Int) : Nat → Int → Option Int
  | 0, curr => if fatGet fat curr = -1 then some curr else none
  | fuel + 1, curr =>
    if fatGet fat curr = -1 then some curr else findTail fat fuel (fatGet fat curr)

/-- `FileSystem._extend_chain`.  Outer `none` models a non-terminating
tail walk; `some (s, none)` is the Python `return None` (allocation
failed, including the `if not new_blocks` check which is also taken by
an empty list); `some (s, some fb)` is a successful extension. -/
def extendChain (s : FS) (first_block : Int) (num_new : Nat) : Option (FS × Option Int) :=
  match allocateBlocks s num_new with
  | none => some (s, none)
  | some (s1, new_blocks) =>
    match new_blocks with
    | [] => some (s1, none)
    | nb0 :: _ =>
      if first_block = -1 then some (s1, some ((nb0 : Nat) : Int))
      else
        match findTail s1.fat (NUM_BLOCKS + 1) first_block with
        | none => none
        | some tailB =>
          some ({s1 with fat := upd s1.fat (intIdx tailB) ((nb0 : Nat) : Int)}, some first_block)

/-- The `while b != -1 and b != -2` loop of `_get_block_chain`, with fuel. -/
def getChainAux (fat : Nat → Int) : Nat → Int → Option (List Int)
  | 0, b => if b = -1 ∨ b = -2 then some [] else none
  | fuel + 1, b =>
    if b = -1 ∨ b = -2 then some []
    else (getChainAux fat fuel (fatGet fat b)).map (fun c => b :: c)

/-- `FileSystem._get_block_chain`. -/
def getBlockChain (s : FS) (first_block : Int) : Option (List Int) :=
  getChainAux s.fat (NUM_BLOCKS + 1) first_block

/-- `FileSystem._write_block`: `data[:BLOCK_SIZE].ljust(BLOCK_SIZE, b"\x00")`
written at byte offset `b * BLOCK_SIZE`. -/
def writeBlock (s : FS) (b : Int) (data : Bytes) : FS :=
  let start := intIdx b * BLOCK_SIZE
  {s with disk := fun j =>
    if start ≤ j ∧ j < start + BLOCK_SIZE then
      (if j - start < min data.len BLOCK_SIZE then data.byteAt (j - start) else 0)
    else s.disk j}

/-- The `while b != -1` loop of `_free_chain`, with fuel: read the
successor, mark the block free, reset its FAT entry and zero its bytes. -/
def freeChainAux : Nat → FS → Int → Option FS
  | 0, s, b => if b = -1 then some s else none
  | fuel + 1, s, b =>
    if b = -1 then some s
    else
      let nxt := fatGet s.fat b
      let bn := intIdx b
      let s1 := {s with free_map := upd s.free_map bn true, fat := upd s.fat bn (-2)}
      let s2 := writeBlock s1 b emptyBytes
      freeChainAux fuel s2 nxt

/-- `FileSystem._free_chain`. -/
def freeChain (s : FS) (first_block : Int) : Option FS :=
  freeChainAux (NUM_BLOCKS + 1) s first_block

/-- `FileSystem.mkdir`. -/
def mkdir (s : FS) (dirname : String) : Option (FS × Except Err Unit) :=
  match getCurrentDirId s with
  | none => none
  | some pid =>
    match (getNode s pid).data with
    | .file _ _ => none
    | .dir cs =>
      match lookupA cs dirname with
      | some _ => some (s, .error .alreadyExists)
      | none =>
        let (s1, nid) := addNode s ⟨dirname, .dir []⟩
        some (setChildren s1 pid (dictSet cs dirname nid), .ok ())

/-- `FileSystem.cd`. -/
def cd (s : FS) (dirname : String) : Option (FS × Except Err Unit) :=
  if dirname = ".." then some ({s with current_path := s.current_path.dropLast}, .ok ())
  else if dirname = "/" then some ({s with current_path := []}, .ok ())
  else
    match getCurrentDirId s with
    | none => none
    | some pid =>
      match (getNode s pid).data with
      | .file _ _ => none
      | .dir cs =>
        match lookupA cs dirname with
        | none => some (s, .error .notFound)
        | some cid =>
          match (getNode s cid).data with
          | .dir _ => some ({s with current_path := s.current_path ++ [dirname]}, .ok ())
          | .file _ _ => some (s, .error .notADirectory)

/-- `FileSystem.ls`: pure; returns the listed children.  `none` models
the `KeyError` raised by `_get_current_dir_node` on a dangling
`current_path`. -/
def ls (s : FS) : Option (List (String × Node)) :=
  match getCurrentDirId s with
  | none => none
  | some pid =>
    match (getNode s pid).data with
    | .file _ _ => none
    | .dir cs => some (cs.map (fun kc => (kc.1, getNode s kc.2)))

/-- `FileSystem.create_file`. -/
def create_file (s : FS) (filename : String) : Option (FS × Except Err Unit) :=
  match getCurrentDirId s with
  | none => none
  | some pid =>
    match (getNode s pid).data with
    | .file _ _ => none
    | .dir cs =>
      match lookupA cs filename with
      | some _ => some (s, .error .alreadyExists)
      | none =>
        let (s1, nid) := addNode s ⟨filename, .file 0 (-1)⟩
        some (setChildren s1 pid (dictSet cs filename nid), .ok ())

/-- `FileSystem.open_file`. -/
def open_file (s : FS) (filename : String) : Option (FS × Except Err Unit) :=
  match getCurrentDirId s with
  | none => none
  | some pid =>
    match (getNode s pid).data with
    | .file _ _ => none
    | .dir cs =>
      match lookupA cs filename with
      | none => some (s, .error .notFound)
      | some cid =>
        match (getNode s cid).data with
        | .dir _ => some (s, .error .isDirectory)
        | .file _ _ =>
          match lookupA s.oft filename with
          | some _ => some (s, .error .alreadyOpen)
          | none => some ({s with oft := s.oft ++ [(filename, cid)]}, .ok ())

/-- `FileSystem.close_file`. -/
def close_file (s : FS) (filename : String) : Option (FS × Except Err Unit) :=
  match lookupA s.oft filename with
  | some _ => some ({s with oft := removeA s.oft filename}, .ok ())
  | none => some (s, .error .notOpen)

/-- `blocks_needed = math.ceil(total_len / BLOCK_SIZE)`, clamped to 1
when it is 0. -/
def blocksNeeded (L : Nat) : Nat :=
  if (L + BLOCK_SIZE - 1) / BLOCK_SIZE = 0 then 1 else (L + BLOCK_SIZE - 1) / BLOCK_SIZE

/-- The `for b in current_chain` loop of `write_file`: blocks past the
payload are zeroed, the others receive successive `BLOCK_SIZE` slices. -/
def writeLoop (data : Bytes) : FS → List Int → Nat → Nat → FS
  | s, [], _, _ => s
  | s, b :: rest, offset, remaining =>
    if remaining = 0 then
      writeLoop data (writeBlock s b emptyBytes) rest offset remaining
    else
      let chunk := data.slice offset BLOCK_SIZE
      writeLoop data (writeBlock s b chunk) rest (offset + chunk.len) (remaining - chunk.len)

/-- Update only the `size`/`first_block` fields of the file node at `id`
(`entry["size"] = ...`, `entry["first_block"] = ...`). -/
def setNodeData (s : FS) (id : Nat) (d : NodeData) : FS :=
  setNode s id ⟨(getNode s id).name, d⟩

/-- `FileSystem.write_file`, taking the UTF-8 encoded payload bytes.
When `first_block == -1` the source sets `entry["first_block"] = new_start`
before re-reading the chain; the two branches of that `if` are written out
separately here. -/
def write_file (s : FS) (filename : String) (data : Bytes) : Option (FS × Except Err Unit) :=
  match lookupA s.oft filename with
  | none => some (s, .error .notOpen)
  | some fid =>
    match (getNode s fid).data with
    | .dir _ => none
    | .file sz fb =>
      match getBlockChain s fb with
      | none => none
      | some current_chain =>
        if blocksNeeded data.len > current_chain.length then
          match extendChain s fb (blocksNeeded data.len - current_chain.length) with
          | none => none
          | some (s1, none) => some (s1, .error .diskFull)
          | some (s1, some new_start) =>
            if fb = -1 then
              match getBlockChain (setNodeData s1 fid (.file sz new_start)) new_start with
              | none => none
              | some chain2 =>
                some (setNodeData
                  (writeLoop data (setNodeData s1 fid (.file sz new_start)) chain2 0 data.len)
                  fid (.file data.len new_start), .ok ())
            else
              match getBlockChain s1 fb with
              | none => none
              | some chain2 =>
                some (setNodeData (writeLoop data s1 chain2 0 data.len)
                  fid (.file data.len fb), .ok ())
        else
          some (setNodeData (writeLoop data s current_chain 0 data.len)
            fid (.file data.len fb), .ok ())

/-- The `for b in chain` loop of `read_file`: take `min(BLOCK_SIZE,
bytes_to_read)` bytes from each block (`chunk[:take]` of the full block
read by `_read_block`). -/
def readLoop (s : FS) : List Int → Nat → List Nat
  | [], _ => []
  | b :: rest, bytes_to_read =>
    if bytes_to_read = 0 then []
    else
      let tk := min BLOCK_SIZE bytes_to_read
      ((List.range tk).map (fun j => s.disk (intIdx b * BLOCK_SIZE + j))) ++
        readLoop s rest (bytes_to_read - tk)

/-- `FileSystem.read_file`: pure; `ok` carries the bytes assembled in
`out` before the lossy text decode. -/
def read_file (s : FS) (filename : String) : Option (Except Err (List Nat)) :=
  match lookupA s.oft filename with
  | none => some (.error .notOpen)
  | some fid =>
    match (getNode s fid).data with
    | .dir _ => none
    | .file size fb =>
      if fb = -1 ∨ size = 0 then some (.ok [])
      else
        match getBlockChain s fb with
        | none => none
        | some chain => some (.ok (readLoop s chain size))

/-- `FileSystem.delete_file`. -/
def delete_file (s : FS) (name : String) : Option (FS × Except Err Unit) :=
  match getCurrentDirId s with
  | none => none
  | some pid =>
    match (getNode s pid).data with
    | .file _ _ => none
    | .dir cs =>
      match lookupA cs name with
      | none => some (s, .error .notFound)
      | some cid =>
        match (getNode s cid).data with
        | .dir ccs =>
          if ccs ≠ [] then some (s, .error .notEmpty)
          else
            let s1 := setChildren s pid (removeA cs name)
            some ({s1 with oft := removeA s1.oft name}, .ok ())
        | .file _ fb =>
          match (if fb ≠ -1 then freeChain s fb else some s) with
          | none => none
          | some sf =>
            let s1 := setChildren sf pid (removeA cs name)
            some ({s1 with oft := removeA s1.oft name}, .ok ())

/-- `src_parent["children"].pop(src_name)` of `mv`. -/
def mvDetach (s : FS) (spid : Nat) (sname : String) : FS :=
  setChildren s spid (removeA (childrenOfD s spid) sname)

/-- `entry["name"] = target_name` of `mv`. -/
def mvRename (s : FS) (entryId : Nat) (tname : String) : FS :=
  setNode s entryId ⟨tname, (getNode s entryId).data⟩

/-- The re-attachment performed by a successful `mv`: pop the child from the
source directory, rename the node, insert it into the target directory. -/
def mvAttach (s : FS) (spid : Nat) (sname : String) (entryId tdir : Nat) (tname : String) : FS :=
  setChildren (mvRename (mvDetach s spid sname) entryId tname) tdir
    (dictSet (childrenOfD (mvRename (mvDetach s spid sname) entryId tname) tdir) tname entryId)

/-- Closing the moved entry's open handle
(`if src_name in self.open_file_table: del ...`). -/
def mvResult (s : FS) (spid : Nat) (sname : String) (entryId tdir : Nat) (tname : String) : FS :=
  if (lookupA (mvAttach s spid sname entryId tdir tname).oft sname).isSome then
    {mvAttach s spid sname entryId tdir tname with
      oft := removeA (mvAttach s spid sname entryId tdir tname).oft sname}
  else mvAttach s spid sname entryId tdir tname

/-- The tail of `FileSystem.mv` once `src` is resolved to
`(spid, sname, entryId)` and the destination to `(tdir, tname)`:
membership check, then pop from the source, rename, re-attach, and drop
the open-file-table entry keyed by the source basename. -/
def mvFinish (s : FS) (spid : Nat) (sname : String) (entryId tdir : Nat) (tname : String) :
    Option (FS × Except Err Unit) :=
  match (getNode s tdir).data with
  | .file _ _ => none
  | .dir tcs =>
    if (lookupA tcs tname).isSome then some (s, .error .alreadyExists)
    else some (mvResult s spid sname entryId tdir tname, .ok ())

/-- `FileSystem.mv`. -/
def mv (s : FS) (src_path dest_path : String) : Option (FS × Except Err Unit) :=
  match resolvePath s src_path with
  | none => none
  | some .rootTok => some (s, .error .notFound)
  | some .curTok => some (s, .error .notFound)
  | some .failTok => some (s, .error .notFound)
  | some (.found spid sname) =>
    match (getNode s spid).data with
    | .file _ _ => none
    | .dir scs =>
      match lookupA scs sname with
      | none => some (s, .error .notFound)
      | some entryId =>
        match resolvePath s dest_path with
        | none => none
        | some .rootTok => mvFinish s spid sname entryId 0 sname
        | some .curTok =>
          match getCurrentDirId s with
          | none => none
          | some cur => mvFinish s spid sname entryId cur sname
        | some .failTok => some (s, .error .invalidDestination)
        | some (.found dpid dname) =>
          match (getNode s dpid).data with
          | .file _ _ => none
          | .dir dcs =>
            match lookupA dcs dname with
            | some exId =>
              match (getNode s exId).data with
              | .dir _ => mvFinish s spid sname entryId exId sname
              | .file _ _ => some (s, .error .alreadyExists)
            | none => mvFinish s spid sname entryId dpid dname

/-- The depth-first walk of `FileSystem.search_files`, with fuel on the
tree depth; collects `(path, is_file)` matches in visit order. -/
def searchAux (s : FS) (query : String) : Nat → Nat → String → List (String × Bool)
  | 0, _, _ => []
  | fuel + 1, id, pathSoFar =>
    match (getNode s id).data with
    | .file _ _ => []
    | .dir cs =>
      cs.foldl
        (fun acc kc =>
          let childPath :=
            if pathSoFar = "/" then String.mk ('/' :: kc.1.data)
            else String.mk (pathSoFar.data ++ '/' :: kc.1.data)
          let hit :=
            if kc.1 = query then
              [(childPath, match (getNode s kc.2).data with | .file _ _ => true | .dir _ => false)]
            else []
          acc ++ hit ++ searchAux s query fuel kc.2 childPath)
        []

/-- `FileSystem.search_files`: pure; returns the matches. -/
def search_files (s : FS) (query : String) : List (String × Bool) :=
  searchAux s query (s.nodes.length + 1) 0 "/"

/-- The fresh state built by `__init__` / `_reset_fresh_state`. -/
def initFS : FS :=
  { nodes := [⟨"/", .dir []⟩]
    current_path := []
    free_map := fun _ => true
    fat := fun _ => -2
    oft := []
    disk := fun _ => 0 }

/-- One completed user operation.  `readonly` covers `ls`, `read` and
`search`, which never modify the state (and hence contribute no new
states); the mutating operations require the corresponding function to
complete normally.  `write` ranges over arbitrary byte payloads, a
superset of the UTF-8 images of Python strings. -/
inductive Step : FS → FS → Prop
  | mkdir (s : FS) (name : String) (s' : FS) (r : Except Err Unit)
      (h : mkdir s name = some (s', r)) : Step s s'
  | cd (s : FS) (name : String) (s' : FS) (r : Except Err Unit)
      (h : cd s name = some (s', r)) : Step s s'
  | create (s : FS) (name : String) (s' : FS) (r : Except Err Unit)
      (h : create_file s name = some (s', r)) : Step s s'
  | openf (s : FS) (name : String) (s' : FS) (r : Except Err Unit)
      (h : open_file s name = some (s', r)) : Step s s'
  | closef (s : FS) (name : String) (s' : FS) (r : Except Err Unit)
      (h : close_file s name = some (s', r)) : Step s s'
  | write (s : FS) (name : String) (data : Bytes) (s' : FS) (r : Except Err Unit)
      (h : write_file s name data = some (s', r)) : Step s s'
  | delete (s : FS) (name : String) (s' : FS) (r : Except Err Unit)
      (h : delete_file s name = some (s', r)) : Step s s'
  | move (s : FS) (src dst : String) (s' : FS) (r : Except Err Unit)
      (h : mv s src dst = some (s', r)) : Step s s'
  | readonly (s : FS) : Step s s

/-- States reachable from the fresh filesystem by completed operations. -/
inductive Reachable : FS → Prop
  | init : Reachable initFS
  | step {s s' : FS} : Reachable s → Step s s' → Reachable s'

/-! ### Basic lemmas: updates, indexing, arena access, association lists -/

theorem upd_same {α : Type} (f : Nat → α) (i : Nat) (v : α) : upd f i v i = v := by
  simp [upd]

theorem upd_other {α : Type} (f : Nat → α) (i : Nat) (v : α) {j : Nat} (h : j ≠ i) :
    upd f i v j = f j := by
  simp [upd, h]

theorem NUM_BLOCKS_eq : NUM_BLOCKS = 2048 := by decide

theorem intIdx_cast {a : Nat} (h : a < NUM_BLOCKS) : intIdx (a : Int) = a := by
  have h2 : (a : Int) % (NUM_BLOCKS : Int) = (a : Int) := by
    apply Int.emod_eq_of_lt (by exact_mod_cast Nat.zero_le a)
    exact_mod_cast h
  simp [intIdx, h2]

theorem fatGet_cast (fat : Nat → Int) {a : Nat} (h : a < NUM_BLOCKS) :
    fatGet fat (a : Int) = fat a := by
  simp only [fatGet, intIdx_cast h]

theorem getN_set_same {ns : List Node} {id : Nat} (nd : Node) (h : id < ns.length) :
    getN (ns.set id nd) id = nd := by
  simp [getN, List.getD, List.getElem?_set_self, h]

theorem getN_set_other {ns : List Node} {id j : Nat} (nd : Node) (h : j ≠ id) :
    getN (ns.set id nd) j = getN ns j := by
  simp [getN, List.getD, List.getElem?_set_ne (by omega : id ≠ j)]

theorem getN_append_old {ns : List Node} {id : Nat} (nd : Node) (h : id < ns.length) :
    getN (ns ++ [nd]) id = getN ns id := by
  simp [getN, List.getD, List.getElem?_append, h]

theorem getN_append_new {ns : List Node} (nd : Node) :
    getN (ns ++ [nd]) ns.length = nd := by
  simp [getN, List.getD]

theorem getN_beyond {ns : List Node} {id : Nat} (h : ns.length ≤ id) :
    getN ns id = dummyNode := by
  simp [getN, List.getD, List.getElem?_eq_none h]

theorem lookupA_mem {α : Type} {l : List (String × α)} {k : String} {v : α}
    (h : lookupA l k = some v) : (k, v) ∈ l := by
  induction l with
  | nil => simp [lookupA] at h
  | cons kv rest ih =>
    obtain ⟨k', v'⟩ := kv
    by_cases hk : k' = k
    · rw [lookupA, if_pos hk] at h
      cases h
      subst hk
      exact List.mem_cons_self _ _
    · rw [lookupA, if_neg hk] at h
      exact List.mem_cons_of_mem _ (ih h)

theorem lookupA_none {α : Type} {l : List (String × α)} {k : String}
    (h : lookupA l k = none) : ∀ v, (k, v) ∉ l := by
  induction l with
  | nil => simp
  | cons kv rest ih =>
    obtain ⟨k', v'⟩ := kv
    by_cases hk : k' = k
    · rw [lookupA, if_pos hk] at h
      cases h
    · rw [lookupA, if_neg hk] at h
      intro v hv
      rcases List.mem_cons.mp hv with h1 | h1
      · exact hk (by cases h1; rfl)
      · exact ih h v h1

theorem lookupA_isSome_of_mem {α : Type} {l : List (String × α)} {k : String} {v : α}
    (h : (k, v) ∈ l) : (lookupA l k).isSome := by
  cases hl : lookupA l k with
  | some w => rfl
  | none => exact absurd h (lookupA_none hl v)

theorem mem_removeA {α : Type} {l : List (String × α)} {k : String} {p : String × α}
    (h : p ∈ removeA l k) : p ∈ l := by
  induction l with
  | nil => exact absurd h (by simp [removeA])
  | cons kv rest ih =>
    obtain ⟨k', v'⟩ := kv
    by_cases hk : k' = k
    · rw [removeA, if_pos hk] at h
      exact List.mem_cons_of_mem _ h
    · rw [removeA, if_neg hk] at h
      rcases List.mem_cons.mp h with h1 | h1
      · exact h1 ▸ List.mem_cons_self _ _
      · exact List.mem_cons_of_mem _ (ih h1)

theorem removeA_keys_subset {α : Type} (l : List (String × α)) (k : String) :
    ((removeA l k).map Prod.fst).Sublist (l.map Prod.fst) := by
  induction l with
  | nil => simp [removeA]
  | cons kv rest ih =>
    obtain ⟨k', v'⟩ := kv
    by_cases hk : k' = k
    · rw [removeA, if_pos hk]
      exact List.sublist_cons_self _ _
    · rw [removeA, if_neg hk, List.map_cons, List.map_cons]
      exact ih.cons₂ _

theorem removeA_nodup {α : Type} {l : List (String × α)} {k : String}
    (h : (l.map Prod.fst).Nodup) : ((removeA l k).map Prod.fst).Nodup :=
  h.sublist (removeA_keys_subset l k)

theorem lookupA_removeA_self {α : Type} {l : List (String × α)} {k : String}
    (h : (l.map Prod.fst).Nodup) : lookupA (removeA l k) k = none := by
  induction l with
  | nil => simp [removeA, lookupA]
  | cons kv rest ih =>
    obtain ⟨k', v'⟩ := kv
    rw [List.map_cons, List.nodup_cons] at h
    by_cases hk : k' = k
    · rw [removeA, if_pos hk]
      cases hl : lookupA rest k with
      | none => rfl
      | some v =>
        exact absurd (List.mem_map_of_mem Prod.fst (lookupA_mem hl)) (hk ▸ h.1)
    · rw [removeA, if_neg hk, lookupA, if_neg hk]
      exact ih h.2

theorem mem_removeA_of_ne {α : Type} {l : List (String × α)} {k : String} {p : String × α}
    (hne : p.1 ≠ k) (h : p ∈ l) : p ∈ removeA l k := by
  induction l with
  | nil => exact absurd h (by simp)
  | cons kv rest ih =>
    obtain ⟨k', v'⟩ := kv
    rcases List.mem_cons.mp h with h1 | h1
    · subst h1
      rw [removeA, if_neg hne]
      exact List.mem_cons_self _ _
    · by_cases hk : k' = k
      · rw [removeA, if_pos hk]
        exact h1
      · rw [removeA, if_neg hk]
        exact List.mem_cons_of_mem _ (ih h1)

theorem mem_dictSet {α : Type} {l : List (String × α)} {k : String} {v : α} {p : String × α}
    (h : p ∈ dictSet l k v) : p ∈ l ∨ p = (k, v) := by
  induction l with
  | nil =>
    rw [dictSet] at h
    right
    simpa using h
  | cons kv rest ih =>
    obtain ⟨k', v'⟩ := kv
    by_cases hk : k' = k
    · rw [dictSet, if_pos hk] at h
      rcases List.mem_cons.mp h with h1 | h1
      · right; exact h1
      · left; exact List.mem_cons_of_mem _ h1
    · rw [dictSet, if_neg hk] at h
      rcases List.mem_cons.mp h with h1 | h1
      · left; exact h1 ▸ List.mem_cons_self _ _
      · rcases ih h1 with h2 | h2
        · left; exact List.mem_cons_of_mem _ h2
        · right; exact h2

theorem dictSet_keys_of_absent {α : Type} {l : List (String × α)} {k : String} (v : α)
    (h : lookupA l k = none) : (dictSet l k v).map Prod.fst = l.map Prod.fst ++ [k] := by
  induction l with
  | nil => simp [dictSet]
  | cons kv rest ih =>
    obtain ⟨k', v'⟩ := kv
    by_cases hk : k' = k
    · rw [lookupA, if_pos hk] at h
      cases h
    · rw [lookupA, if_neg hk] at h
      rw [dictSet, if_neg hk, List.map_cons, List.map_cons, ih h, List.cons_append]

theorem dictSet_nodup_of_absent {α : Type} {l : List (String × α)} {k : String} (v : α)
    (hn : (l.map Prod.fst).Nodup) (h : lookupA l k = none) :
    ((dictSet l k v).map Prod.fst).Nodup := by
  rw [dictSet_keys_of_absent v h]
  apply List.Nodup.append hn (List.nodup_singleton k)
  intro a ha hb
  rcases List.mem_singleton.mp hb with rfl
  rcases List.mem_map.mp ha with ⟨p, hp, hfst⟩
  obtain ⟨pk, pv⟩ := p
  cases hfst
  exact absurd (lookupA_isSome_of_mem hp) (by simp [h])

theorem dictSet_of_absent {α : Type} {l : List (String × α)} {k : String} (v : α)
    (h : lookupA l k = none) : dictSet l k v = l ++ [(k, v)] := by
  induction l with
  | nil => rfl
  | cons kv rest ih =>
    obtain ⟨k', v'⟩ := kv
    by_cases hk : k' = k
    · rw [lookupA, if_pos hk] at h
      cases h
    · rw [lookupA, if_neg hk] at h
      rw [dictSet, if_neg hk, ih h, List.cons_append]

theorem lookupA_dictSet_self {α : Type} (l : List (String × α)) (k : String) (v : α) :
    lookupA (dictSet l k v) k = some v := by
  induction l with
  | nil => simp [dictSet, lookupA]
  | cons kv rest ih =>
    obtain ⟨k', v'⟩ := kv
    by_cases hk : k' = k
    · rw [dictSet, if_pos hk, lookupA, if_pos rfl]
    · rw [dictSet, if_neg hk, lookupA, if_neg hk]
      exact ih

theorem lookupA_dictSet_other {α : Type} (l : List (String × α)) {k k' : String} (v : α)
    (h : k' ≠ k) : lookupA (dictSet l k v) k' = lookupA l k' := by
  induction l with
  | nil =>
    show (if k = k' then some v else lookupA [] k') = lookupA [] k'
    rw [if_neg (fun hh : k = k' => h hh.symm)]
  | cons kv rest ih =>
    obtain ⟨ka, va⟩ := kv
    by_cases hk : ka = k
    · rw [dictSet, if_pos hk, lookupA, lookupA,
        if_neg (fun hh : k = k' => h hh.symm), if_neg (hk ▸ (fun hh : ka = k' => h (hk ▸ hh).symm))]
    · rw [dictSet, if_neg hk, lookupA, lookupA]
      by_cases hk2 : ka = k'
      · rw [if_pos hk2, if_pos hk2]
      · rw [if_neg hk2, if_neg hk2]
        exact ih

theorem lookupA_removeA_other {α : Type} {l : List (String × α)} {k k' : String}
    (hn : (l.map Prod.fst).Nodup) (h : k' ≠ k) :
    lookupA (removeA l k) k' = lookupA l k' := by
  induction l with
  | nil => simp [removeA]
  | cons kv rest ih =>
    obtain ⟨ka, va⟩ := kv
    rw [List.map_cons, List.nodup_cons] at hn
    by_cases hk : ka = k
    · rw [removeA, if_pos hk, lookupA, if_neg (by rw [hk]; exact fun hh => h hh.symm)]
    · rw [removeA, if_neg hk, lookupA, lookupA]
      by_cases hk2 : ka = k'
      · rw [if_pos hk2, if_pos hk2]
      · rw [if_neg hk2, if_neg hk2]
        exact ih hn.2

/-! ### Chain structure predicates -/

/-- `c` is exactly the block list the `_get_block_chain` loop visits when
started at `b`. -/
def IsChain (fat : Nat → Int) : Int → List Int → Prop
  | b, [] => b = -1 ∨ b = -2
  | b, x :: rest => x = b ∧ ¬(b = -1 ∨ b = -2) ∧ IsChain fat (fatGet fat b) rest

/-- A nonempty FAT chain over natural block indices: consecutive links,
terminated by `-1`. -/
inductive NatChain (fat : Nat → Int) : List Nat → Prop
  | single (a : Nat) : fat a = -1 → NatChain fat [a]
  | cons (a b : Nat) (rest : List Nat) : fat a = (b : Int) →
      NatChain fat (b :: rest) → NatChain fat (a :: b :: rest)

/-- Cast a list of natural block indices to the `List Int` produced by
the chain traversal. -/
def castChain (cn : List Nat) : List Int := cn.map (fun n : Nat => (n : Int))

theorem castChain_nil : castChain [] = [] := rfl

theorem castChain_cons (a : Nat) (A : List Nat) :
    castChain (a :: A) = (a : Int) :: castChain A := rfl

theorem castChain_length (cn : List Nat) : (castChain cn).length = cn.length :=
  List.length_map _ _

theorem isChain_congr {fat fat' : Nat → Int} {b : Int} {c : List Int}
    (h : ∀ x ∈ c, fatGet fat' x = fatGet fat x) (hc : IsChain fat b c) : IsChain fat' b c := by
  induction c generalizing b with
  | nil => exact hc
  | cons x rest ih =>
    obtain ⟨hx, hne, hrest⟩ := hc
    subst hx
    refine ⟨rfl, hne, ?_⟩
    rw [h x (List.mem_cons_self _ _)]
    exact ih (fun y hy => h y (List.mem_cons_of_mem _ hy)) hrest

theorem getChainAux_sound {fat : Nat → Int} {fuel : Nat} {b : Int} {c : List Int}
    (h : getChainAux fat fuel b = some c) : IsChain fat b c := by
  induction fuel generalizing b c with
  | zero =>
    rw [getChainAux] at h
    by_cases hb : b = -1 ∨ b = -2
    · rw [if_pos hb] at h
      cases h
      exact hb
    · rw [if_neg hb] at h
      cases h
  | succ fuel ih =>
    rw [getChainAux] at h
    by_cases hb : b = -1 ∨ b = -2
    · rw [if_pos hb] at h
      cases h
      exact hb
    · rw [if_neg hb] at h
      cases hrec : getChainAux fat fuel (fatGet fat b) with
      | none => rw [hrec] at h; cases h
      | some c' =>
        rw [hrec] at h
        cases h
        exact ⟨rfl, hb, ih hrec⟩

theorem getChainAux_complete {fat : Nat → Int} {b : Int} {c : List Int}
    (hc : IsChain fat b c) : ∀ {fuel : Nat}, c.length ≤ fuel → getChainAux fat fuel b = some c := by
  induction c generalizing b with
  | nil =>
    intro fuel _
    have hb : b = -1 ∨ b = -2 := hc
    cases fuel with
    | zero => rw [getChainAux, if_pos hb]
    | succ fuel => rw [getChainAux, if_pos hb]
  | cons x rest ih =>
    intro fuel hfuel
    obtain ⟨hx, hne, hrest⟩ := hc
    subst hx
    cases fuel with
    | zero => simp at hfuel
    | succ fuel =>
      rw [getChainAux, if_neg hne, ih hrest (by simpa using hfuel)]
      rfl

theorem isChain_unique {fat : Nat → Int} {b : Int} {c c' : List Int}
    (h : IsChain fat b c) (h' : IsChain fat b c') : c = c' := by
  induction c generalizing b c' with
  | nil =>
    cases c' with
    | nil => rfl
    | cons y rest => exact absurd h h'.2.1
  | cons x rest ih =>
    cases c' with
    | nil => exact absurd h' h.2.1
    | cons y rest' =>
      obtain ⟨hx, hne, hr⟩ := h
      obtain ⟨hy, _, hr'⟩ := h'
      rw [hx, hy, ih hr hr']

theorem natChain_ne_nil {fat : Nat → Int} {A : List Nat} (h : NatChain fat A) : A ≠ [] := by
  cases h with
  | single a _ => exact List.cons_ne_nil _ _
  | cons a b rest _ _ => exact List.cons_ne_nil _ _

theorem natChain_congr {fat fat' : Nat → Int} {A : List Nat}
    (h : ∀ a ∈ A, fat' a = fat a) (hA : NatChain fat A) : NatChain fat' A := by
  induction hA with
  | single a ha =>
    exact NatChain.single a ((h a (List.mem_cons_self _ _)).trans ha)
  | cons a b rest hab _ ih =>
    exact NatChain.cons a b rest ((h a (List.mem_cons_self _ _)).trans hab)
      (ih (fun y hy => h y (List.mem_cons_of_mem _ hy)))

theorem natChain_last {fat : Nat → Int} {A : List Nat} (hA : NatChain fat A) (hne : A ≠ []) :
    fat (A.getLast hne) = -1 := by
  induction hA with
  | single a ha => simpa using ha
  | cons a b rest _ hrest ih =>
    rw [List.getLast_cons (List.cons_ne_nil _ _)]
    exact ih (List.cons_ne_nil _ _)

/-- A `NatChain` whose blocks are valid indices is traversed by
`_get_block_chain` exactly as its cast image. -/
theorem natChain_isChain {fat : Nat → Int} {A : List Nat} (hA : NatChain fat A)
    (hlt : ∀ a ∈ A, a < NUM_BLOCKS) :
    IsChain fat ((A.headD 0 : Nat) : Int) (castChain A) := by
  induction hA with
  | single a ha =>
    simp only [List.headD_cons, List.map_cons, List.map_nil]
    refine ⟨rfl, by omega, ?_⟩
    rw [fatGet_cast fat (hlt a (List.mem_cons_self _ _)), ha]
    exact Or.inl rfl
  | cons a b rest hab hrest ih =>
    simp only [List.headD_cons, List.map_cons] at ih ⊢
    refine ⟨rfl, by omega, ?_⟩
    rw [fatGet_cast fat (hlt a (List.mem_cons_self _ _)), hab]
    exact ih (fun y hy => hlt y (List.mem_cons_of_mem _ hy))

/-- Linking a fresh chain onto the tail of an existing one. -/
theorem natChain_append {fat : Nat → Int} {c : List Nat} {a : Nat} {A : List Nat}
    (hc : NatChain fat c) (hne : c ≠ []) (hnd : c.Nodup) (hA : NatChain fat (a :: A))
    (hdisj : ∀ x ∈ c, x ∉ a :: A) :
    NatChain (upd fat (c.getLast hne) (a : Int)) (c ++ a :: A) := by
  induction hc with
  | single x hx =>
    simp only [List.getLast_singleton, List.singleton_append]
    refine NatChain.cons x a A (upd_same _ _ _) ?_
    exact natChain_congr
      (fun y hy => upd_other _ _ _ (fun hxy => hdisj x (List.mem_cons_self _ _) (hxy ▸ hy))) hA
  | cons x y rest hxy hrest ih =>
    rw [List.cons_append]
    rw [List.nodup_cons] at hnd
    have hlast : (x :: y :: rest).getLast (List.cons_ne_nil _ _) =
        (y :: rest).getLast (List.cons_ne_nil _ _) := List.getLast_cons _
    have hxne : x ≠ (y :: rest).getLast (List.cons_ne_nil _ _) := by
      intro hx
      exact hnd.1 (hx ▸ List.getLast_mem _)
    have step := ih (List.cons_ne_nil _ _) hnd.2
      (fun z hz => hdisj z (List.mem_cons_of_mem _ hz))
    rw [hlast]
    have : (y :: rest) ++ a :: A = y :: (rest ++ a :: A) := by simp
    rw [this] at step
    exact NatChain.cons x y (rest ++ a :: A)
      ((upd_other _ _ _ hxne).trans hxy) step

/-! ### A live file chain and its traversal -/

/-- The well-formed chain of a file with `first_block = fb`: either no
blocks, or a `NatChain` of distinct, in-range, allocated blocks starting
at `fb`. -/
structure FileChain (free : Nat → Bool) (fat : Nat → Int) (fb : Int) (cn : List Nat) : Prop where
  head_ok : (fb = -1 ∧ cn = []) ∨ (∃ a A, cn = a :: A ∧ fb = (a : Int) ∧ NatChain fat cn)
  nodup : cn.Nodup
  mem_lt : ∀ b ∈ cn, b < NUM_BLOCKS
  mem_alloc : ∀ b ∈ cn, free b = false

theorem nodup_lt_length_le {cn : List Nat} (hnd : cn.Nodup)
    (hlt : ∀ b ∈ cn, b < NUM_BLOCKS) : cn.length ≤ NUM_BLOCKS := by
  have : cn.length = cn.toFinset.card := (List.toFinset_card_of_nodup hnd).symm
  rw [this]
  have hsub : cn.toFinset ⊆ Finset.range NUM_BLOCKS := by
    intro x hx
    exact Finset.mem_range.mpr (hlt x (List.mem_toFinset.mp hx))
  simpa using Finset.card_le_card hsub

theorem fileChain_length_le {free : Nat → Bool} {fat : Nat → Int} {fb : Int} {cn : List Nat}
    (h : FileChain free fat fb cn) : cn.length ≤ NUM_BLOCKS :=
  nodup_lt_length_le h.nodup h.mem_lt

theorem fileChain_isChain {free : Nat → Bool} {fat : Nat → Int} {fb : Int} {cn : List Nat}
    (h : FileChain free fat fb cn) : IsChain fat fb (castChain cn) := by
  rcases h.head_ok with ⟨hfb, hcn⟩ | ⟨a, A, hcn, hfb, hnc⟩
  · subst hfb; subst hcn
    exact Or.inl rfl
  · subst hcn
    have := natChain_isChain hnc h.mem_lt
    simpa [hfb] using this

/-- `_get_block_chain` on a well-formed file chain returns it. -/
theorem fileChain_getBlockChain {s : FS} {fb : Int} {cn : List Nat}
    (h : FileChain s.free_map s.fat fb cn) :
    getBlockChain s fb = some (castChain cn) := by
  apply getChainAux_complete (fileChain_isChain h)
  have h1 := fileChain_length_le h
  have h2 : (castChain cn).length = cn.length := castChain_length cn
  omega

theorem getBlockChain_neg_one (s : FS) : getBlockChain s (-1) = some [] := by
  rw [getBlockChain, getChainAux, if_pos (Or.inl rfl)]

/-! ### Allocator characterization -/

theorem markAlloc_nil (s : FS) : markAlloc s [] = s := rfl

theorem markAlloc_cons (s : FS) (a : Nat) (A : List Nat) :
    markAlloc s (a :: A) =
      markAlloc {s with free_map := upd s.free_map a false, fat := upd s.fat a (-1)} A := rfl

theorem markAlloc_free_eq (s : FS) (A : List Nat) (i : Nat) :
    (markAlloc s A).free_map i = if i ∈ A then false else s.free_map i := by
  induction A generalizing s with
  | nil => simp [markAlloc_nil]
  | cons a A ih =>
    rw [markAlloc_cons, ih]
    by_cases hi : i ∈ A
    · simp [hi]
    · by_cases ha : i = a
      · subst ha
        simp [hi, upd_same]
      · simp [hi, ha, upd_other _ _ _ ha]

theorem markAlloc_fat_eq (s : FS) (A : List Nat) (i : Nat) :
    (markAlloc s A).fat i = if i ∈ A then -1 else s.fat i := by
  induction A generalizing s with
  | nil => simp [markAlloc_nil]
  | cons a A ih =>
    rw [markAlloc_cons, ih]
    by_cases hi : i ∈ A
    · simp [hi]
    · by_cases ha : i = a
      · subst ha
        simp [hi, upd_same]
      · simp [hi, ha, upd_other _ _ _ ha]

theorem markAlloc_nodes (s : FS) (A : List Nat) : (markAlloc s A).nodes = s.nodes := by
  induction A generalizing s with
  | nil => rfl
  | cons a A ih => rw [markAlloc_cons, ih]

theorem markAlloc_oft (s : FS) (A : List Nat) : (markAlloc s A).oft = s.oft := by
  induction A generalizing s with
  | nil => rfl
  | cons a A ih => rw [markAlloc_cons, ih]

theorem markAlloc_path (s : FS) (A : List Nat) :
    (markAlloc s A).current_path = s.current_path := by
  induction A generalizing s with
  | nil => rfl
  | cons a A ih => rw [markAlloc_cons, ih]

theorem markAlloc_disk (s : FS) (A : List Nat) : (markAlloc s A).disk = s.disk := by
  induction A generalizing s with
  | nil => rfl
  | cons a A ih => rw [markAlloc_cons, ih]

theorem linkChain_nil (s : FS) : linkChain s [] = s := rfl

theorem linkChain_single (s : FS) (a : Nat) : linkChain s [a] = s := rfl

theorem linkChain_cons₂ (s : FS) (a b : Nat) (rest : List Nat) :
    linkChain s (a :: b :: rest) =
      linkChain {s with fat := upd s.fat a ((b : Nat) : Int)} (b :: rest) := rfl

theorem linkChain_free (s : FS) (A : List Nat) : (linkChain s A).free_map = s.free_map := by
  induction A generalizing s with
  | nil => rfl
  | cons a A ih =>
    cases A with
    | nil => rfl
    | cons b rest => rw [linkChain_cons₂, ih]

theorem linkChain_nodes (s : FS) (A : List Nat) : (linkChain s A).nodes = s.nodes := by
  induction A generalizing s with
  | nil => rfl
  | cons a A ih =>
    cases A with
    | nil => rfl
    | cons b rest => rw [linkChain_cons₂, ih]

theorem linkChain_oft (s : FS) (A : List Nat) : (linkChain s A).oft = s.oft := by
  induction A generalizing s with
  | nil => rfl
  | cons a A ih =>
    cases A with
    | nil => rfl
    | cons b rest => rw [linkChain_cons₂, ih]

theorem linkChain_path (s : FS) (A : List Nat) :
    (linkChain s A).current_path = s.current_path := by
  induction A generalizing s with
  | nil => rfl
  | cons a A ih =>
    cases A with
    | nil => rfl
    | cons b rest => rw [linkChain_cons₂, ih]

theorem linkChain_disk (s : FS) (A : List Nat) : (linkChain s A).disk = s.disk := by
  induction A generalizing s with
  | nil => rfl
  | cons a A ih =>
    cases A with
    | nil => rfl
    | cons b rest => rw [linkChain_cons₂, ih]

theorem linkChain_fat_notmem (s : FS) (A : List Nat) {i : Nat} (h : i ∉ A.dropLast) :
    (linkChain s A).fat i = s.fat i := by
  induction A generalizing s with
  | nil => rfl
  | cons a A ih =>
    cases A with
    | nil => rfl
    | cons b rest =>
      rw [List.dropLast_cons₂, List.mem_cons] at h
      push_neg at h
      rw [linkChain_cons₂, ih _ h.2]
      exact upd_other _ _ _ h.1

theorem linkChain_natChain {s : FS} {A : List Nat} (hn : A.Nodup) (hne : A ≠ [])
    (hfat : ∀ a ∈ A, s.fat a = -1) : NatChain (linkChain s A).fat A := by
  induction A generalizing s with
  | nil => exact absurd rfl hne
  | cons a A ih =>
    cases A with
    | nil =>
      rw [linkChain_single]
      exact NatChain.single a (hfat a (List.mem_cons_self _ _))
    | cons b rest =>
      rw [List.nodup_cons] at hn
      rw [linkChain_cons₂]
      have hstep := @ih {s with fat := upd s.fat a ((b : Nat) : Int)} hn.2 (List.cons_ne_nil _ _)
        (fun x hx => by
          show upd s.fat a ((b : Nat) : Int) x = -1
          rw [upd_other _ _ _ (fun hxa : x = a => hn.1 (hxa ▸ hx)),
            hfat x (List.mem_cons_of_mem _ hx)])
      have hdrop : a ∉ (b :: rest).dropLast :=
        fun hmem => hn.1 (List.dropLast_subset _ hmem)
      refine NatChain.cons a b rest ?_ hstep
      rw [linkChain_fat_notmem _ _ hdrop]
      exact upd_same _ _ _

theorem freeIndices_nodup (s : FS) : (freeIndices s).Nodup :=
  (List.nodup_range NUM_BLOCKS).filter _

theorem mem_freeIndices {s : FS} {a : Nat} :
    a ∈ freeIndices s ↔ a < NUM_BLOCKS ∧ s.free_map a = true := by
  rw [freeIndices, List.mem_filter, List.mem_range]

/-- Full characterization of a successful `_allocate_blocks` call. -/
theorem allocateBlocks_spec {s : FS} {n : Nat} (h : n ≤ freeCount s) :
    ∃ s1, allocateBlocks s n = some (s1, (freeIndices s).take n) ∧
      ((freeIndices s).take n).length = n ∧
      ((freeIndices s).take n).Nodup ∧
      (∀ a ∈ (freeIndices s).take n, a < NUM_BLOCKS ∧ s.free_map a = true) ∧
      s1.nodes = s.nodes ∧ s1.oft = s.oft ∧ s1.current_path = s.current_path ∧
      s1.disk = s.disk ∧
      (∀ i, s1.free_map i = if i ∈ (freeIndices s).take n then false else s.free_map i) ∧
      (∀ i, i ∉ (freeIndices s).take n → s1.fat i = s.fat i) ∧
      (n ≠ 0 → NatChain s1.fat ((freeIndices s).take n)) := by
  set A := (freeIndices s).take n with hA
  have hlen : A.length = n := by
    rw [hA, List.length_take]
    exact min_eq_left h
  have hnodup : A.Nodup := (freeIndices_nodup s).take
  have hmemA : ∀ a ∈ A, a < NUM_BLOCKS ∧ s.free_map a = true := by
    intro a ha
    exact mem_freeIndices.mp (List.take_subset _ _ ha)
  have hnolt : ¬ (freeIndices s).length < n := by
    rw [freeCount] at h
    omega
  refine ⟨linkChain (markAlloc s A) A, ?_, hlen, hnodup, hmemA, ?_, ?_, ?_, ?_, ?_, ?_, ?_⟩
  · rw [allocateBlocks]
    rw [if_neg hnolt]
  · rw [linkChain_nodes, markAlloc_nodes]
  · rw [linkChain_oft, markAlloc_oft]
  · rw [linkChain_path, markAlloc_path]
  · rw [linkChain_disk, markAlloc_disk]
  · intro i
    rw [linkChain_free, markAlloc_free_eq]
  · intro i hi
    rw [linkChain_fat_notmem _ _ (fun hmem => hi (List.dropLast_subset _ hmem)),
      markAlloc_fat_eq, if_neg hi]
  · intro hn0
    apply linkChain_natChain hnodup (by
      intro hAnil
      rw [hAnil] at hlen
      exact hn0 hlen.symm)
    intro a ha
    rw [markAlloc_fat_eq, if_pos ha]

theorem allocateBlocks_fail {s : FS} {n : Nat} (h : freeCount s < n) :
    allocateBlocks s n = none := by
  rw [allocateBlocks]
  rw [if_pos (by rw [freeCount] at h; exact h)]

/-! ### Extension of a chain -/

theorem findTail_spec {fat : Nat → Int} {A : List Nat} (hA : NatChain fat A)
    (hlt : ∀ x ∈ A, x < NUM_BLOCKS) :
    ∀ {fuel : Nat}, A.length ≤ fuel + 1 →
      findTail fat fuel ((A.headD 0 : Nat) : Int) =
        some ((A.getLast (natChain_ne_nil hA) : Nat) : Int) := by
  induction hA with
  | single x hx =>
    intro fuel _
    have hfg : fatGet fat (x : Int) = -1 := by
      rw [fatGet_cast fat (hlt x (List.mem_cons_self _ _))]
      exact hx
    simp only [List.headD_cons, List.getLast_singleton]
    cases fuel with
    | zero => rw [findTail, if_pos hfg]
    | succ fuel => rw [findTail, if_pos hfg]
  | cons x y rest hxy hrest ih =>
    intro fuel hfuel
    cases fuel with
    | zero => simp at hfuel
    | succ fuel =>
      have hfg : fatGet fat (x : Int) = (y : Int) := by
        rw [fatGet_cast fat (hlt x (List.mem_cons_self _ _))]
        exact hxy
      have hne : fatGet fat (x : Int) ≠ -1 := by
        rw [hfg]
        omega
      simp only [List.headD_cons]
      rw [findTail, if_neg hne, hfg]
      have := ih (fun z hz => hlt z (List.mem_cons_of_mem _ hz))
        (show (y :: rest).length ≤ fuel + 1 by simpa using hfuel)
      simp only [List.headD_cons] at this
      rw [this, List.getLast_cons (List.cons_ne_nil _ _)]

theorem extendChain_fail {s : FS} {fb : Int} {n : Nat} (h : freeCount s < n) :
    extendChain s fb n = some (s, none) := by
  rw [extendChain, allocateBlocks_fail h]

theorem extendChain_eq_of_alloc {s s1 : FS} {n : Nat} {a : Nat} {A : List Nat} (fb : Int)
    (h : allocateBlocks s n = some (s1, a :: A)) :
    extendChain s fb n =
      if fb = -1 then some (s1, some ((a : Nat) : Int))
      else
        match findTail s1.fat (NUM_BLOCKS + 1) fb with
        | none => none
        | some tailB =>
          some ({s1 with fat := upd s1.fat (intIdx tailB) ((a : Nat) : Int)}, some fb) := by
  rw [extendChain, h]

/-- Successful extension of a file with no blocks. -/
theorem extendChain_fresh {s : FS} {n : Nat} (hn : 0 < n) (hfree : n ≤ freeCount s) :
    ∃ s1 a A, (freeIndices s).take n = a :: A ∧
      extendChain s (-1) n = some (s1, some ((a : Nat) : Int)) ∧
      s1.nodes = s.nodes ∧ s1.oft = s.oft ∧ s1.current_path = s.current_path ∧
      s1.disk = s.disk ∧
      (∀ i, s1.free_map i = if i ∈ (freeIndices s).take n then false else s.free_map i) ∧
      (∀ i, i ∉ (freeIndices s).take n → s1.fat i = s.fat i) ∧
      FileChain s1.free_map s1.fat ((a : Nat) : Int) (a :: A) := by
  obtain ⟨s1, halloc, hlen, hnodup, hmemA, hnodes, hoft, hpath, hdisk, hfree', hfat', hnc⟩ :=
    allocateBlocks_spec hfree
  obtain ⟨a, A, hAeq⟩ : ∃ a A, (freeIndices s).take n = a :: A := by
    cases hAs : (freeIndices s).take n with
    | nil => rw [hAs] at hlen; simp at hlen; omega
    | cons a A => exact ⟨a, A, rfl⟩
  have hnc' := hnc (by omega)
  rw [hAeq] at hnc' halloc
  refine ⟨s1, a, A, hAeq, ?_, hnodes, hoft, hpath, hdisk, hfree', hfat', ?_⟩
  · rw [extendChain_eq_of_alloc _ halloc, if_pos rfl]
  · refine ⟨Or.inr ⟨a, A, rfl, rfl, hnc'⟩, hAeq ▸ hnodup, ?_, ?_⟩
    · intro b hb
      exact (hmemA b (hAeq ▸ hb)).1
    · intro b hb
      rw [hfree' b, if_pos (hAeq ▸ hb)]

/-- Successful extension of a file with an existing nonempty chain. -/
theorem extendChain_ext {s : FS} {fb : Int} {cn : List Nat} {n : Nat}
    (hfc : FileChain s.free_map s.fat fb cn) (hcne : cn ≠ []) (hn : 0 < n)
    (hfree : n ≤ freeCount s) :
    ∃ s2, extendChain s fb n = some (s2, some fb) ∧
      s2.nodes = s.nodes ∧ s2.oft = s.oft ∧ s2.current_path = s.current_path ∧
      s2.disk = s.disk ∧
      (∀ i, s2.free_map i = if i ∈ (freeIndices s).take n then false else s.free_map i) ∧
      (∀ i, i ∉ (freeIndices s).take n → i ≠ cn.getLast hcne → s2.fat i = s.fat i) ∧
      FileChain s2.free_map s2.fat fb (cn ++ (freeIndices s).take n) := by
  obtain ⟨s1, halloc, hlen, hnodupA, hmemA, hnodes, hoft, hpath, hdisk, hfree', hfat', hnc⟩ :=
    allocateBlocks_spec hfree
  obtain ⟨a, A, hAeq⟩ : ∃ a A, (freeIndices s).take n = a :: A := by
    cases hAs : (freeIndices s).take n with
    | nil => rw [hAs] at hlen; simp at hlen; omega
    | cons a A => exact ⟨a, A, rfl⟩
  have hncA := hnc (by omega)
  rw [hAeq] at hncA halloc
  obtain ⟨a0, cn', hcn, hfb, hncc⟩ :
      ∃ a0 cn', cn = a0 :: cn' ∧ fb = ((a0 : Nat) : Int) ∧ NatChain s.fat cn := by
    rcases hfc.head_ok with ⟨_, hnil⟩ | ⟨a0, cn', h1, h2, h3⟩
    · exact absurd hnil hcne
    · exact ⟨a0, cn', h1, h2, h3⟩
  have hdisj : ∀ x ∈ cn, x ∉ (freeIndices s).take n := by
    intro x hx hmem
    have h1 := hfc.mem_alloc x hx
    have h2 := (hmemA x hmem).2
    rw [h1] at h2
    cases h2
  have hncc1 : NatChain s1.fat cn :=
    natChain_congr (fun x hx => hfat' x (hdisj x hx)) hncc
  have hfbne : ¬ fb = -1 := by
    rw [hfb]
    omega
  have hlast_mem : cn.getLast hcne ∈ cn := List.getLast_mem hcne
  have hlast_lt : cn.getLast hcne < NUM_BLOCKS := hfc.mem_lt _ hlast_mem
  have htail : findTail s1.fat (NUM_BLOCKS + 1) fb =
      some ((cn.getLast hcne : Nat) : Int) := by
    have hlen_le := fileChain_length_le hfc
    have hspec := findTail_spec hncc1 (fun x hx => hfc.mem_lt x hx)
      (show cn.length ≤ (NUM_BLOCKS + 1) + 1 by omega)
    have hhead : ((cn.headD 0 : Nat) : Int) = fb := by
      rw [hcn, hfb]
      simp
    rw [← hhead]
    exact hspec
  set s2 : FS := {s1 with
    fat := upd s1.fat (intIdx ((cn.getLast hcne : Nat) : Int)) ((a : Nat) : Int)} with hs2
  have hidx : intIdx ((cn.getLast hcne : Nat) : Int) = cn.getLast hcne := intIdx_cast hlast_lt
  have hfat2 : s2.fat = upd s1.fat (cn.getLast hcne) ((a : Nat) : Int) := by
    rw [hs2, hidx]
  have hdisj' : ∀ x ∈ cn, x ∉ a :: A := fun x hx => hAeq ▸ hdisj x hx
  have hnc_app : NatChain s2.fat (cn ++ a :: A) := by
    rw [hfat2]
    exact natChain_append hncc1 hcne hfc.nodup hncA hdisj'
  refine ⟨s2, ?_, hnodes, hoft, hpath, hdisk, ?_, ?_, ?_⟩
  · rw [extendChain_eq_of_alloc fb halloc, if_neg hfbne, htail]
  · intro i
    exact hfree' i
  · intro i hiA hilast
    rw [hfat2, upd_other _ _ _ hilast]
    exact hfat' i hiA
  · rw [hAeq]
    refine ⟨?_, ?_, ?_, ?_⟩
    · right
      refine ⟨a0, cn' ++ a :: A, by rw [hcn]; simp, hfb, hnc_app⟩
    · rw [List.nodup_append]
      refine ⟨hfc.nodup, hAeq ▸ hnodupA, ?_⟩
      intro x hx
      exact hdisj' x hx
    · intro b hb
      rcases List.mem_append.mp hb with hb | hb
      · exact hfc.mem_lt b hb
      · exact (hmemA b (hAeq ▸ hb)).1
    · intro b hb
      have hsf : s2.free_map = s1.free_map := by rw [hs2]
      rcases List.mem_append.mp hb with hb | hb
      · rw [hsf, hfree' b, hfc.mem_alloc b hb]
        split
        · rfl
        · rfl
      · rw [hsf, hfree' b, if_pos (hAeq ▸ hb)]

/-! ### Block writes, chain reclamation, the write and read loops -/

theorem writeBlock_nodes (s : FS) (b : Int) (d : Bytes) : (writeBlock s b d).nodes = s.nodes := rfl

theorem writeBlock_oft (s : FS) (b : Int) (d : Bytes) : (writeBlock s b d).oft = s.oft := rfl

theorem writeBlock_path (s : FS) (b : Int) (d : Bytes) :
    (writeBlock s b d).current_path = s.current_path := rfl

theorem writeBlock_free (s : FS) (b : Int) (d : Bytes) :
    (writeBlock s b d).free_map = s.free_map := rfl

theorem writeBlock_fat (s : FS) (b : Int) (d : Bytes) : (writeBlock s b d).fat = s.fat := rfl

theorem writeBlock_disk (s : FS) (b : Int) (d : Bytes) (j : Nat) :
    (writeBlock s b d).disk j =
      if intIdx b * BLOCK_SIZE ≤ j ∧ j < intIdx b * BLOCK_SIZE + BLOCK_SIZE then
        (if j - intIdx b * BLOCK_SIZE < min d.len BLOCK_SIZE then
          d.byteAt (j - intIdx b * BLOCK_SIZE) else 0)
      else s.disk j := rfl

theorem writeBlock_disk_nat (s : FS) {bn : Nat} (hb : bn < NUM_BLOCKS) (d : Bytes) (j : Nat) :
    (writeBlock s ((bn : Nat) : Int) d).disk j =
      if bn * BLOCK_SIZE ≤ j ∧ j < bn * BLOCK_SIZE + BLOCK_SIZE then
        (if j - bn * BLOCK_SIZE < min d.len BLOCK_SIZE then d.byteAt (j - bn * BLOCK_SIZE) else 0)
      else s.disk j := by
  rw [writeBlock_disk, intIdx_cast hb]

theorem writeBlock_disk_out (s : FS) {bn : Nat} (hb : bn < NUM_BLOCKS) (d : Bytes) {j : Nat}
    (h : ¬ (bn * BLOCK_SIZE ≤ j ∧ j < bn * BLOCK_SIZE + BLOCK_SIZE)) :
    (writeBlock s ((bn : Nat) : Int) d).disk j = s.disk j := by
  rw [writeBlock_disk_nat s hb, if_neg h]

/-- Full characterization of the `_free_chain` loop on a well-formed chain. -/
theorem freeChainAux_spec {A : List Nat} :
    ∀ {s : FS}, NatChain s.fat A → A.Nodup → (∀ b ∈ A, b < NUM_BLOCKS) →
    ∀ {fuel : Nat}, A.length ≤ fuel →
    ∃ s', freeChainAux fuel s ((A.headD 0 : Nat) : Int) = some s' ∧
      s'.nodes = s.nodes ∧ s'.oft = s.oft ∧ s'.current_path = s.current_path ∧
      (∀ i, s'.free_map i = if i ∈ A then true else s.free_map i) ∧
      (∀ i, s'.fat i = if i ∈ A then -2 else s.fat i) ∧
      (∀ j, s'.disk j =
        if ∃ b ∈ A, b * BLOCK_SIZE ≤ j ∧ j < b * BLOCK_SIZE + BLOCK_SIZE then 0
        else s.disk j) := by
  induction A with
  | nil =>
    intro s hnc
    exact absurd rfl (natChain_ne_nil hnc)
  | cons a A ih =>
    intro s hnc hnd hlt fuel hfuel
    have halt : a < NUM_BLOCKS := hlt a (List.mem_cons_self _ _)
    cases fuel with
    | zero => simp at hfuel
    | succ fuel =>
      have hane : ¬ ((a : Nat) : Int) = -1 := by omega
      have hfg : fatGet s.fat ((a : Nat) : Int) = s.fat a := fatGet_cast _ halt
      rw [List.nodup_cons] at hnd
      -- the updated state after processing block `a`
      set s1 : FS := {s with free_map := upd s.free_map a true, fat := upd s.fat a (-2)}
        with hs1
      set s2 : FS := writeBlock s1 ((a : Nat) : Int) emptyBytes with hs2
      have hs2nodes : s2.nodes = s.nodes := by rw [hs2, writeBlock_nodes, hs1]
      have hs2oft : s2.oft = s.oft := by rw [hs2, writeBlock_oft, hs1]
      have hs2path : s2.current_path = s.current_path := by rw [hs2, writeBlock_path, hs1]
      have hs2free : ∀ i, s2.free_map i = if i = a then true else s.free_map i := by
        intro i
        rw [hs2, writeBlock_free, hs1]
        show upd s.free_map a true i = _
        by_cases hi : i = a
        · subst hi
          rw [upd_same, if_pos rfl]
        · rw [upd_other _ _ _ hi, if_neg hi]
      have hs2fat : ∀ i, s2.fat i = if i = a then -2 else s.fat i := by
        intro i
        rw [hs2, writeBlock_fat, hs1]
        show upd s.fat a (-2) i = _
        by_cases hi : i = a
        · subst hi
          rw [upd_same, if_pos rfl]
        · rw [upd_other _ _ _ hi, if_neg hi]
      have hs2disk : ∀ j, s2.disk j =
          if a * BLOCK_SIZE ≤ j ∧ j < a * BLOCK_SIZE + BLOCK_SIZE then 0 else s.disk j := by
        intro j
        rw [hs2, writeBlock_disk_nat s1 halt]
        by_cases hj : a * BLOCK_SIZE ≤ j ∧ j < a * BLOCK_SIZE + BLOCK_SIZE
        · rw [if_pos hj, if_pos hj]
          simp [emptyBytes]
        · rw [if_neg hj, if_neg hj]
      simp only [List.headD_cons]
      rw [freeChainAux, if_neg hane, hfg,
        show intIdx ((a : Nat) : Int) = a from intIdx_cast halt]
      cases hnc with
      | single _ ha =>
        rw [ha]
        have hdone : freeChainAux fuel s2 (-1) = some s2 := by
          cases fuel with
          | zero => rw [freeChainAux, if_pos rfl]
          | succ f => rw [freeChainAux, if_pos rfl]
        refine ⟨s2, hdone, hs2nodes, hs2oft, hs2path, ?_, ?_, ?_⟩
        · intro i
          rw [hs2free i]
          by_cases hi : i = a <;> simp [hi]
        · intro i
          rw [hs2fat i]
          by_cases hi : i = a <;> simp [hi]
        · intro j
          rw [hs2disk j]
          by_cases hj : a * BLOCK_SIZE ≤ j ∧ j < a * BLOCK_SIZE + BLOCK_SIZE
          · rw [if_pos hj, if_pos ⟨a, List.mem_singleton_self a, hj⟩]
          · rw [if_neg hj, if_neg (by
              rintro ⟨b, hb, hbj⟩
              rcases List.mem_singleton.mp hb with rfl
              exact hj hbj)]
      | cons _ b rest hab hb =>
        rw [hab]
        have hnc2 : NatChain s2.fat (b :: rest) := by
          apply natChain_congr _ hb
          intro x hx
          rw [hs2fat x, if_neg (fun hxa : x = a => hnd.1 (hxa ▸ hx))]
        obtain ⟨s', hrun, hn', ho', hp', hf', hfat', hd'⟩ :=
          ih hnc2 hnd.2 (fun x hx => hlt x (List.mem_cons_of_mem _ hx))
            (show (b :: rest).length ≤ fuel by simpa using hfuel)
        simp only [List.headD_cons] at hrun
        refine ⟨s', hrun, by rw [hn', hs2nodes], by rw [ho', hs2oft], by rw [hp', hs2path],
          ?_, ?_, ?_⟩
        · intro i
          rw [hf' i, hs2free i]
          by_cases hi : i ∈ b :: rest
          · rw [if_pos hi, if_pos (List.mem_cons_of_mem _ hi)]
          · rw [if_neg hi]
            by_cases hia : i = a
            · rw [if_pos hia, if_pos (by rw [hia]; exact List.mem_cons_self _ _)]
            · rw [if_neg hia, if_neg (by
                rw [List.mem_cons]
                push_neg
                exact ⟨hia, hi⟩)]
        · intro i
          rw [hfat' i, hs2fat i]
          by_cases hi : i ∈ b :: rest
          · rw [if_pos hi, if_pos (List.mem_cons_of_mem _ hi)]
          · rw [if_neg hi]
            by_cases hia : i = a
            · rw [if_pos hia, if_pos (by rw [hia]; exact List.mem_cons_self _ _)]
            · rw [if_neg hia, if_neg (by
                rw [List.mem_cons]
                push_neg
                exact ⟨hia, hi⟩)]
        · intro j
          rw [hd' j, hs2disk j]
          by_cases hj : ∃ x ∈ b :: rest, x * BLOCK_SIZE ≤ j ∧ j < x * BLOCK_SIZE + BLOCK_SIZE
          · obtain ⟨x, hx, hxj⟩ := hj
            rw [if_pos ⟨x, hx, hxj⟩, if_pos ⟨x, List.mem_cons_of_mem _ hx, hxj⟩]
          · rw [if_neg hj]
            by_cases hja : a * BLOCK_SIZE ≤ j ∧ j < a * BLOCK_SIZE + BLOCK_SIZE
            · rw [if_pos hja, if_pos ⟨a, List.mem_cons_self _ _, hja⟩]
            · rw [if_neg hja, if_neg (by
                rintro ⟨x, hx, hxj⟩
                rcases List.mem_cons.mp hx with rfl | hx
                · exact hja hxj
                · exact hj ⟨x, hx, hxj⟩)]

/-- `_free_chain` on a well-formed nonempty file chain. -/
theorem freeChain_spec {s : FS} {fb : Int} {cn : List Nat}
    (hfc : FileChain s.free_map s.fat fb cn) (hcne : cn ≠ []) :
    ∃ s', freeChain s fb = some s' ∧
      s'.nodes = s.nodes ∧ s'.oft = s.oft ∧ s'.current_path = s.current_path ∧
      (∀ i, s'.free_map i = if i ∈ cn then true else s.free_map i) ∧
      (∀ i, s'.fat i = if i ∈ cn then -2 else s.fat i) ∧
      (∀ j, s'.disk j =
        if ∃ b ∈ cn, b * BLOCK_SIZE ≤ j ∧ j < b * BLOCK_SIZE + BLOCK_SIZE then 0
        else s.disk j) := by
  obtain ⟨a0, cn', hcn, hfb, hncc⟩ :
      ∃ a0 cn', cn = a0 :: cn' ∧ fb = ((a0 : Nat) : Int) ∧ NatChain s.fat cn := by
    rcases hfc.head_ok with ⟨_, hnil⟩ | ⟨a0, cn', h1, h2, h3⟩
    · exact absurd hnil hcne
    · exact ⟨a0, cn', h1, h2, h3⟩
  have hlen := fileChain_length_le hfc
  obtain ⟨s', hrun, h1, h2, h3, h4, h5, h6⟩ :=
    freeChainAux_spec hncc hfc.nodup hfc.mem_lt
      (show cn.length ≤ NUM_BLOCKS + 1 by omega)
  refine ⟨s', ?_, h1, h2, h3, h4, h5, h6⟩
  have hhead : ((cn.headD 0 : Nat) : Int) = fb := by
    rw [hcn, hfb]
    simp
  rw [freeChain, ← hhead]
  exact hrun

/-! ### The write loop -/

theorem writeLoop_nodes (data : Bytes) (c : List Int) :
    ∀ (s : FS) (off rem : Nat), (writeLoop data s c off rem).nodes = s.nodes := by
  induction c with
  | nil => intro s off rem; rfl
  | cons b rest ih =>
    intro s off rem
    rw [writeLoop]
    by_cases hr : rem = 0
    · rw [if_pos hr, ih, writeBlock_nodes]
    · rw [if_neg hr, ih, writeBlock_nodes]

theorem writeLoop_oft (data : Bytes) (c : List Int) :
    ∀ (s : FS) (off rem : Nat), (writeLoop data s c off rem).oft = s.oft := by
  induction c with
  | nil => intro s off rem; rfl
  | cons b rest ih =>
    intro s off rem
    rw [writeLoop]
    by_cases hr : rem = 0
    · rw [if_pos hr, ih, writeBlock_oft]
    · rw [if_neg hr, ih, writeBlock_oft]

theorem writeLoop_path (data : Bytes) (c : List Int) :
    ∀ (s : FS) (off rem : Nat), (writeLoop data s c off rem).current_path = s.current_path := by
  induction c with
  | nil => intro s off rem; rfl
  | cons b rest ih =>
    intro s off rem
    rw [writeLoop]
    by_cases hr : rem = 0
    · rw [if_pos hr, ih, writeBlock_path]
    · rw [if_neg hr, ih, writeBlock_path]

theorem writeLoop_free (data : Bytes) (c : List Int) :
    ∀ (s : FS) (off rem : Nat), (writeLoop data s c off rem).free_map = s.free_map := by
  induction c with
  | nil => intro s off rem; rfl
  | cons b rest ih =>
    intro s off rem
    rw [writeLoop]
    by_cases hr : rem = 0
    · rw [if_pos hr, ih, writeBlock_free]
    · rw [if_neg hr, ih, writeBlock_free]

theorem writeLoop_fat (data : Bytes) (c : List Int) :
    ∀ (s : FS) (off rem : Nat), (writeLoop data s c off rem).fat = s.fat := by
  induction c with
  | nil => intro s off rem; rfl
  | cons b rest ih =>
    intro s off rem
    rw [writeLoop]
    by_cases hr : rem = 0
    · rw [if_pos hr, ih, writeBlock_fat]
    · rw [if_neg hr, ih, writeBlock_fat]

theorem writeLoop_disk_frame (data : Bytes) (cn : List Nat) :
    ∀ (s : FS) (off rem : Nat) (j : Nat),
      (∀ b ∈ cn, b < NUM_BLOCKS) →
      (∀ b ∈ cn, ¬ (b * BLOCK_SIZE ≤ j ∧ j < b * BLOCK_SIZE + BLOCK_SIZE)) →
      (writeLoop data s (castChain cn) off rem).disk j = s.disk j := by
  induction cn with
  | nil => intro s off rem j _ _; rfl
  | cons b rest ih =>
    intro s off rem j hlt hout
    rw [castChain_cons, writeLoop]
    have hblt : b < NUM_BLOCKS := hlt b (List.mem_cons_self _ _)
    have hbout := hout b (List.mem_cons_self _ _)
    by_cases hr : rem = 0
    · rw [if_pos hr, ih _ _ _ _ (fun x hx => hlt x (List.mem_cons_of_mem _ hx))
        (fun x hx => hout x (List.mem_cons_of_mem _ hx)), writeBlock_disk_out s hblt _ hbout]
    · rw [if_neg hr, ih _ _ _ _ (fun x hx => hlt x (List.mem_cons_of_mem _ hx))
        (fun x hx => hout x (List.mem_cons_of_mem _ hx)), writeBlock_disk_out s hblt _ hbout]

/-- Content written by the `write_file` block loop: block `i` of the chain
holds the `i`-th `BLOCK_SIZE`-slice of the payload, zero-padded, and blocks
past the payload are zeroed. -/
theorem writeLoop_disk_content (data : Bytes) (cn : List Nat) :
    ∀ (p : Nat) (s : FS) (off rem : Nat), cn.Nodup → (∀ b ∈ cn, b < NUM_BLOCKS) →
      rem = data.len - p * BLOCK_SIZE → (rem ≠ 0 → off = p * BLOCK_SIZE) →
      ∀ (i : Nat) (hi : i < cn.length) (t : Nat), t < BLOCK_SIZE →
        (writeLoop data s (castChain cn) off rem).disk (cn.get ⟨i, hi⟩ * BLOCK_SIZE + t) =
          if (p + i) * BLOCK_SIZE + t < data.len then data.byteAt ((p + i) * BLOCK_SIZE + t)
          else 0 := by
  induction cn with
  | nil =>
    intro p s off rem _ _ _ _ i hi
    simp at hi
  | cons b rest ih =>
    intro p s off rem hnd hlt hrem hoff i hi t ht
    rw [List.nodup_cons] at hnd
    have hblt : b < NUM_BLOCKS := hlt b (List.mem_cons_self _ _)
    have ht5 : t < 512 := ht
    have hrem5 : rem = data.len - p * 512 := hrem
    rw [castChain_cons, writeLoop]
    by_cases hr : rem = 0
    · -- payload exhausted: zero this block, recurse
      rw [if_pos hr]
      have hL : data.len ≤ p * 512 := by omega
      cases i with
      | zero =>
        simp only [List.get]
        rw [writeLoop_disk_frame data rest _ _ _ _
          (fun x hx => hlt x (List.mem_cons_of_mem _ hx))
          (fun x hx hxj => by
            have hxb : x ≠ b := fun hxb => hnd.1 (hxb ▸ hx)
            have hxj5 : x * 512 ≤ b * 512 + t ∧ b * 512 + t < x * 512 + 512 := hxj
            omega)]
        rw [writeBlock_disk_nat s hblt]
        rw [if_pos ⟨Nat.le_add_right _ _, by
          show b * 512 + t < b * 512 + 512
          omega⟩]
        rw [if_neg (by simp [emptyBytes])]
        rw [if_neg (show ¬ ((p + 0) * BLOCK_SIZE + t < data.len) from by
          show ¬ ((p + 0) * 512 + t < data.len)
          omega)]
      | succ i' =>
        have := ih (p + 1) (writeBlock s ((b : Nat) : Int) emptyBytes) off rem hnd.2
          (fun x hx => hlt x (List.mem_cons_of_mem _ hx))
          (show rem = data.len - (p + 1) * 512 by omega)
          (fun h0 => absurd hr h0)
          i' (by simpa using hi) t ht
        rw [show (p + 1) + i' = p + (i' + 1) by omega] at this
        exact this
    · -- payload remains: write the next chunk, recurse
      rw [if_neg hr]
      have hoff' : off = p * 512 := hoff hr
      have hpL : p * 512 < data.len := by omega
      have hchunk : (data.slice off BLOCK_SIZE).len = min 512 rem := by
        show min BLOCK_SIZE (data.len - off) = min 512 rem
        show min 512 (data.len - off) = min 512 rem
        rw [hoff']
        omega
      cases i with
      | zero =>
        simp only [List.get]
        rw [writeLoop_disk_frame data rest _ _ _ _
          (fun x hx => hlt x (List.mem_cons_of_mem _ hx))
          (fun x hx hxj => by
            have hxb : x ≠ b := fun hxb => hnd.1 (hxb ▸ hx)
            have hxj5 : x * 512 ≤ b * 512 + t ∧ b * 512 + t < x * 512 + 512 := hxj
            omega)]
        rw [writeBlock_disk_nat s hblt]
        rw [if_pos ⟨Nat.le_add_right _ _, by
          show b * 512 + t < b * 512 + 512
          omega⟩]
        have hsub : b * BLOCK_SIZE + t - b * BLOCK_SIZE = t := by
          show b * 512 + t - b * 512 = t
          omega
        rw [hsub]
        by_cases hin : (p + 0) * 512 + t < data.len
        · rw [if_pos (show (p + 0) * BLOCK_SIZE + t < data.len from hin),
            if_pos (show t < min (data.slice off BLOCK_SIZE).len BLOCK_SIZE from by
              rw [hchunk]
              show t < min (min 512 rem) 512
              omega)]
          show data.byteAt (off + t) = data.byteAt ((p + 0) * BLOCK_SIZE + t)
          rw [hoff']
          congr 1
        · rw [if_neg (show ¬ ((p + 0) * BLOCK_SIZE + t < data.len) from hin),
            if_neg (show ¬ (t < min (data.slice off BLOCK_SIZE).len BLOCK_SIZE) from by
              rw [hchunk]
              show ¬ (t < min (min 512 rem) 512)
              omega)]
      | succ i' =>
        have := ih (p + 1) (writeBlock s ((b : Nat) : Int) (data.slice off BLOCK_SIZE))
          (off + (data.slice off BLOCK_SIZE).len) (rem - (data.slice off BLOCK_SIZE).len)
          hnd.2 (fun x hx => hlt x (List.mem_cons_of_mem _ hx))
          (by
            rw [hchunk]
            show rem - min 512 rem = data.len - (p + 1) * 512
            omega)
          (fun h0 => by
            rw [hchunk] at h0 ⊢
            rw [hoff']
            show p * 512 + min 512 rem = (p + 1) * 512
            have h05 : rem - min 512 rem ≠ 0 := h0
            omega)
          i' (by simpa using hi) t ht
        rw [show (p + 1) + i' = p + (i' + 1) by omega] at this
        exact this

/-! ### The read loop -/

theorem readLoop_spec {s : FS} (g : Nat → Nat) (cn : List Nat) :
    ∀ (p L : Nat),
      (∀ b ∈ cn, b < NUM_BLOCKS) →
      (∀ (i : Nat) (hi : i < cn.length) (t : Nat), t < BLOCK_SIZE →
        s.disk (cn.get ⟨i, hi⟩ * BLOCK_SIZE + t) = g ((p + i) * BLOCK_SIZE + t)) →
      L ≤ (p + cn.length) * BLOCK_SIZE →
      readLoop s (castChain cn) (L - p * BLOCK_SIZE) =
        (List.range' (p * BLOCK_SIZE) (L - p * BLOCK_SIZE)).map g := by
  induction cn with
  | nil =>
    intro p L _ _ hle
    have h0 : L - p * BLOCK_SIZE = 0 := by
      simp only [List.length_nil, Nat.add_zero] at hle
      omega
    rw [h0, castChain_nil, readLoop, List.range'_zero, List.map_nil]
  | cons b rest ih =>
    intro p L hlt hcontent hle
    have hblt : b < NUM_BLOCKS := hlt b (List.mem_cons_self _ _)
    rw [castChain_cons, readLoop]
    by_cases hr : L - p * BLOCK_SIZE = 0
    · rw [if_pos hr, hr, List.range'_zero, List.map_nil]
    · rw [if_neg hr]
      set tk := min BLOCK_SIZE (L - p * BLOCK_SIZE) with htk
      have hfirst : (List.range tk).map
            (fun j => s.disk (intIdx ((b : Nat) : Int) * BLOCK_SIZE + j)) =
          (List.range' (p * BLOCK_SIZE) tk).map g := by
        rw [intIdx_cast hblt]
        rw [List.range'_eq_map_range, List.map_map]
        apply List.map_congr_left
        intro j hj
        rw [List.mem_range] at hj
        have hjB : j < BLOCK_SIZE := lt_of_lt_of_le hj (min_le_left _ _)
        have := hcontent 0 (by simp) j hjB
        simp only [List.get] at this
        simp only [Function.comp]
        rw [this]
        congr 1
      have hrest : readLoop s (castChain rest) (L - p * BLOCK_SIZE - tk) =
          (List.range' ((p + 1) * BLOCK_SIZE) (L - (p + 1) * BLOCK_SIZE)).map g := by
        have harg : L - p * BLOCK_SIZE - tk = L - (p + 1) * BLOCK_SIZE := by
          rw [htk]
          simp only [show BLOCK_SIZE = 512 from rfl]
          omega
        rw [harg]
        apply ih (p + 1) L (fun x hx => hlt x (List.mem_cons_of_mem _ hx))
        · intro i hi t ht
          have := hcontent (i + 1) (by simpa using hi) t ht
          simp only [List.get] at this ⊢
          rw [show p + 1 + i = p + (i + 1) by omega]
          exact this
        · simp only [List.length_cons] at hle
          rw [show p + 1 + rest.length = p + (rest.length + 1) by omega]
          exact hle
      show (List.range tk).map (fun j => s.disk (intIdx ((b : Nat) : Int) * BLOCK_SIZE + j)) ++
          readLoop s (castChain rest) (L - p * BLOCK_SIZE - tk) =
        (List.range' (p * BLOCK_SIZE) (L - p * BLOCK_SIZE)).map g
      rw [hfirst, hrest, ← List.map_append]
      congr 1
      by_cases hbig : BLOCK_SIZE ≤ L - p * BLOCK_SIZE
      · have htk' : tk = BLOCK_SIZE := by rw [htk]; omega
        have h1 : (p + 1) * BLOCK_SIZE = p * BLOCK_SIZE + tk := by
          rw [htk']
          ring
        rw [h1, List.range'_append_1]
        congr 1
        rw [htk']
        show (L - (p * 512 + 512)) + 512 = L - p * 512
        have hbig5 : 512 ≤ L - p * 512 := hbig
        omega
      · have htk' : tk = L - p * BLOCK_SIZE := by rw [htk]; omega
        have h2 : L - (p + 1) * BLOCK_SIZE = 0 := by
          show L - (p + 1) * 512 = 0
          have hbig5 : ¬ (512 ≤ L - p * 512) := hbig
          omega
        rw [h2, List.range'_zero, List.append_nil, htk']

/-! ### The directory tree, liveness, and the global invariant -/

/-- Node `pid` has a child entry `(k, cid)` in its children dict.  Out-of-range
indices resolve to `dummyNode`, which has no children, so no `Ref` holds for
them. -/
def Ref (ns : List Node) (pid : Nat) (k : String) (cid : Nat) : Prop :=
  ∃ cs, (getN ns pid).data = NodeData.dir cs ∧ (k, cid) ∈ cs

/-- The node at `id` is reachable from the root by child edges (it is part of
the directory tree that `self.root` spans). -/
inductive InTree (ns : List Node) : Nat → Prop
  | root : InTree ns 0
  | child {pid cid : Nat} {k : String} : InTree ns pid → Ref ns pid k cid → InTree ns cid

/-- A node that some operation can still mutate blocks through: a
tree node, or a node referenced by an open-file-table entry (which can
survive a detaching `mv` of an ancestor directory). -/
def Live (ns : List Node) (oft : List (String × Nat)) (id : Nat) : Prop :=
  InTree ns id ∨ ∃ k, (k, id) ∈ oft

/-- The inductive invariant of every reachable state. -/
structure Inv (s : FS) : Prop where
  nodes_ne : s.nodes ≠ []
  root_dir : ∃ cs, (getN s.nodes 0).data = NodeData.dir cs
  ref_lt : ∀ {p k id}, Ref s.nodes p k id → id < s.nodes.length
  ref_unique : ∀ {p k id p' k'}, Ref s.nodes p k id → Ref s.nodes p' k' id → p = p' ∧ k = k'
  root_unref : ∀ {p k}, ¬ Ref s.nodes p k 0
  keys_nodup : ∀ {pid cs}, (getN s.nodes pid).data = NodeData.dir cs →
      (cs.map Prod.fst).Nodup
  child_names : ∀ {pid k cid}, Ref s.nodes pid k cid → (getN s.nodes cid).name = k
  oft_lt : ∀ {k id}, (k, id) ∈ s.oft → id < s.nodes.length
  oft_file : ∀ {k id}, (k, id) ∈ s.oft → ∃ sz fb, (getN s.nodes id).data = NodeData.file sz fb
  oft_name : ∀ {k id}, (k, id) ∈ s.oft → (getN s.nodes id).name = k
  oft_keys_nodup : (s.oft.map Prod.fst).Nodup
  agree : ∀ i, i < NUM_BLOCKS →
      ((s.free_map i = true ↔ s.fat i = -2) ∧
       (s.fat i = -2 ∨ s.fat i = -1 ∨ ∃ j : Nat, s.fat i = (j : Int) ∧ j < NUM_BLOCKS))
  chains : ∀ {id sz fb}, Live s.nodes s.oft id →
      (getN s.nodes id).data = NodeData.file sz fb →
      ∃ cn, FileChain s.free_map s.fat fb cn
  disjointc : ∀ {id sz fb cn id' sz' fb' cn'}, Live s.nodes s.oft id →
      Live s.nodes s.oft id' → id ≠ id' →
      (getN s.nodes id).data = NodeData.file sz fb →
      (getN s.nodes id').data = NodeData.file sz' fb' →
      FileChain s.free_map s.fat fb cn → FileChain s.free_map s.fat fb' cn' →
      ∀ b ∈ cn, b ∉ cn'

theorem inTree_lt {s : FS} (hInv : Inv s) {id : Nat} (h : InTree s.nodes id) :
    id < s.nodes.length := by
  cases h with
  | root => exact List.length_pos.mpr hInv.nodes_ne
  | child _ href => exact hInv.ref_lt href

/-- `NatChain`s are uniquely determined by their head block. -/
theorem natChain_unique {fat : Nat → Int} : ∀ {A B : List Nat}, NatChain fat A →
    NatChain fat B → A.headD 0 = B.headD 0 → A = B := by
  intro A B hA
  induction hA generalizing B with
  | single a ha =>
    intro hB hhead
    cases hB with
    | single b hb =>
      simp only [List.headD_cons] at hhead
      rw [hhead]
    | cons b c rest hbc _ =>
      simp only [List.headD_cons] at hhead
      rw [hhead] at ha
      rw [ha] at hbc
      omega
  | cons a c rest hac _ ih =>
    intro hB hhead
    cases hB with
    | single b hb =>
      simp only [List.headD_cons] at hhead
      rw [hhead] at hac
      rw [hac] at hb
      omega
    | cons b d rest' hbd hrest' =>
      simp only [List.headD_cons] at hhead
      subst hhead
      rw [hac] at hbd
      have hcd : c = d := by exact_mod_cast hbd
      subst hcd
      rw [ih hrest' (by simp)]

/-- A file's well-formed chain is unique. -/
theorem fileChain_unique {free : Nat → Bool} {fat : Nat → Int} {fb : Int} {cn cn' : List Nat}
    (h : FileChain free fat fb cn) (h' : FileChain free fat fb cn') : cn = cn' := by
  rcases h.head_ok with ⟨hfb, hnil⟩ | ⟨a, A, hcn, hfb, hnc⟩
  · rcases h'.head_ok with ⟨_, hnil'⟩ | ⟨a', A', hcn', hfb', _⟩
    · rw [hnil, hnil']
    · rw [hfb] at hfb'
      omega
  · rcases h'.head_ok with ⟨hfb', hnil'⟩ | ⟨a', A', hcn', hfb', hnc'⟩
    · rw [hfb'] at hfb
      omega
    · apply natChain_unique hnc hnc'
      rw [hcn, hcn']
      simp only [List.headD_cons]
      rw [hfb] at hfb'
      exact_mod_cast hfb'

theorem natChain_fat_mem {fat : Nat → Int} {A : List Nat} (hA : NatChain fat A) :
    ∀ x ∈ A, fat x = -1 ∨ ∃ y ∈ A, fat x = (y : Int) := by
  induction hA with
  | single a ha =>
    intro x hx
    rcases List.mem_singleton.mp hx with rfl
    exact Or.inl ha
  | cons a b rest hab hrest ih =>
    intro x hx
    rcases List.mem_cons.mp hx with rfl | hx
    · exact Or.inr ⟨b, List.mem_cons_of_mem _ (List.mem_cons_self _ _), hab⟩
    · rcases ih x hx with h | ⟨y, hy, hxy⟩
      · exact Or.inl h
      · exact Or.inr ⟨y, List.mem_cons_of_mem _ hy, hxy⟩

theorem walkPath_inTree {s : FS} : ∀ {path : List String} {id pid : Nat},
    InTree s.nodes id → walkPath s id path = some pid → InTree s.nodes pid := by
  intro path
  induction path with
  | nil =>
    intro id pid hin h
    rw [walkPath] at h
    cases h
    exact hin
  | cons p rest ih =>
    intro id pid hin h
    rw [walkPath] at h
    split at h
    · cases h
    · rename_i cs hnd
      split at h
      · cases h
      · rename_i cid hlk
        exact ih (InTree.child hin ⟨cs, hnd, lookupA_mem hlk⟩) h

theorem getCurrentDirId_inTree {s : FS} {pid : Nat} (h : getCurrentDirId s = some pid) :
    InTree s.nodes pid :=
  walkPath_inTree InTree.root h

theorem resolveWalk_inTree {s : FS} : ∀ {parts : List (List Char)} {id nid : Nat},
    InTree s.nodes id → resolveWalk s id parts = some (some nid) → InTree s.nodes nid := by
  intro parts
  induction parts with
  | nil =>
    intro id nid hin h
    rw [resolveWalk] at h
    cases h
    exact hin
  | cons p rest ih =>
    intro id nid hin h
    rw [resolveWalk] at h
    split at h
    · cases h
    · rename_i cs hnd
      split at h
      · rename_i cid hlk
        split at h
        · exact ih (InTree.child hin ⟨cs, hnd, lookupA_mem hlk⟩) h
        · cases h
      · cases h

theorem resolvePath_found_inTree {s : FS} {path : String} {pid : Nat} {nm : String}
    (h : resolvePath s path = some (.found pid nm)) : InTree s.nodes pid := by
  simp only [resolvePath] at h
  split at h
  · -- absolute path
    split at h
    · cases h
    · split at h
      · cases h
      · split at h
        · cases h
        · cases h
        · rename_i hw
          cases h
          exact resolveWalk_inTree InTree.root hw
  · -- relative path
    split at h
    · cases h
    · rename_i cur hcur
      split at h
      · cases h
      · split at h
        · cases h
        · cases h
        · rename_i hw
          cases h
          exact resolveWalk_inTree (getCurrentDirId_inTree hcur) hw

/-! ### Invariant preservation helpers -/

theorem inv_same_core {s s' : FS} (hInv : Inv s) (hn : s'.nodes = s.nodes)
    (ho : s'.oft = s.oft) (hf : s'.free_map = s.free_map) (ha : s'.fat = s.fat) : Inv s' := by
  obtain ⟨ns, cp, fm, ft, ofl, dk⟩ := s'
  simp only at hn ho hf ha
  subst hn
  subst ho
  subst hf
  subst ha
  exact ⟨hInv.nodes_ne, hInv.root_dir, hInv.ref_lt, hInv.ref_unique, hInv.root_unref,
    hInv.keys_nodup, hInv.child_names, hInv.oft_lt, hInv.oft_file, hInv.oft_name,
    hInv.oft_keys_nodup, hInv.agree, hInv.chains, hInv.disjointc⟩

theorem inv_oft_subset {s s' : FS} (hInv : Inv s) (hn : s'.nodes = s.nodes)
    (hf : s'.free_map = s.free_map) (ha : s'.fat = s.fat)
    (hsub : ∀ k id, (k, id) ∈ s'.oft → (k, id) ∈ s.oft)
    (hnodup : (s'.oft.map Prod.fst).Nodup) : Inv s' := by
  obtain ⟨ns, cp, fm, ft, ofl, dk⟩ := s'
  simp only at hn hf ha hsub hnodup
  subst hn
  subst hf
  subst ha
  have hlive : ∀ id, Live s.nodes ofl id → Live s.nodes s.oft id := by
    intro id h
    rcases h with h | ⟨k, hk⟩
    · exact Or.inl h
    · exact Or.inr ⟨k, hsub k id hk⟩
  exact ⟨hInv.nodes_ne, hInv.root_dir, hInv.ref_lt, hInv.ref_unique, hInv.root_unref,
    hInv.keys_nodup, hInv.child_names,
    fun hk => hInv.oft_lt (hsub _ _ hk),
    fun hk => hInv.oft_file (hsub _ _ hk),
    fun hk => hInv.oft_name (hsub _ _ hk),
    hnodup, hInv.agree,
    fun hl hd => hInv.chains (hlive _ hl) hd,
    fun hl hl' hne hd hd' hc hc' => hInv.disjointc (hlive _ hl) (hlive _ hl') hne hd hd' hc hc'⟩

theorem inv_oft_insert {s : FS} (hInv : Inv s) {k : String} {cid : Nat}
    (hcid : InTree s.nodes cid) (hfile : ∃ sz fb, (getN s.nodes cid).data = NodeData.file sz fb)
    (hname : (getN s.nodes cid).name = k) (hfresh : lookupA s.oft k = none) :
    Inv {s with oft := s.oft ++ [(k, cid)]} := by
  have hmem : ∀ k' id, (k', id) ∈ s.oft ++ [(k, cid)] → (k', id) ∈ s.oft ∨ (k' = k ∧ id = cid) := by
    intro k' id h
    rcases List.mem_append.mp h with h | h
    · exact Or.inl h
    · rcases List.mem_singleton.mp h with h
      exact Or.inr ⟨by rw [Prod.mk.injEq] at h; exact h.1, by rw [Prod.mk.injEq] at h; exact h.2⟩
  have hlive : ∀ id, Live s.nodes (s.oft ++ [(k, cid)]) id → Live s.nodes s.oft id := by
    intro id h
    rcases h with h | ⟨k', hk⟩
    · exact Or.inl h
    · rcases hmem k' id hk with h | ⟨_, rfl⟩
      · exact Or.inr ⟨k', h⟩
      · exact Or.inl hcid
  refine ⟨hInv.nodes_ne, hInv.root_dir, hInv.ref_lt, hInv.ref_unique, hInv.root_unref,
    hInv.keys_nodup, hInv.child_names, ?_, ?_, ?_, ?_, hInv.agree, ?_, ?_⟩
  · intro k' id h
    rcases hmem k' id h with h | ⟨_, rfl⟩
    · exact hInv.oft_lt h
    · exact inTree_lt hInv hcid
  · intro k' id h
    rcases hmem k' id h with h | ⟨_, rfl⟩
    · exact hInv.oft_file h
    · exact hfile
  · intro k' id h
    rcases hmem k' id h with h | ⟨rfl, rfl⟩
    · exact hInv.oft_name h
    · exact hname
  · show ((s.oft ++ [(k, cid)]).map Prod.fst).Nodup
    rw [List.map_append]
    apply List.Nodup.append hInv.oft_keys_nodup (by simp)
    intro a ha hb
    rcases List.mem_singleton.mp (by simpa using hb) with rfl
    rcases List.mem_map.mp ha with ⟨p, hp, hfst⟩
    obtain ⟨pk, pv⟩ := p
    cases hfst
    exact absurd (lookupA_isSome_of_mem hp) (by simp [hfresh])
  · intro id sz fb hl hd
    exact hInv.chains (hlive _ hl) hd
  · intro id sz fb cn id' sz' fb' cn' hl hl' hne hd hd' hc hc'
    exact hInv.disjointc (hlive _ hl) (hlive _ hl') hne hd hd' hc hc'

/-! ### Preservation: cd, close, open -/

theorem inv_cd {s s' : FS} {name : String} {r : Except Err Unit} (hInv : Inv s)
    (h : cd s name = some (s', r)) : Inv s' := by
  rw [cd] at h
  split at h
  · cases h
    exact inv_same_core hInv rfl rfl rfl rfl
  · split at h
    · cases h
      exact inv_same_core hInv rfl rfl rfl rfl
    · split at h
      · cases h
      · split at h
        · cases h
        · split at h
          · cases h
            exact hInv
          · split at h
            · cases h
              exact inv_same_core hInv rfl rfl rfl rfl
            · cases h
              exact hInv

theorem inv_close {s s' : FS} {name : String} {r : Except Err Unit} (hInv : Inv s)
    (h : close_file s name = some (s', r)) : Inv s' := by
  rw [close_file] at h
  split at h
  · cases h
    exact inv_oft_subset hInv rfl rfl rfl
      (fun k id hk => mem_removeA hk) (removeA_nodup hInv.oft_keys_nodup)
  · cases h
    exact hInv

theorem inv_open {s s' : FS} {name : String} {r : Except Err Unit} (hInv : Inv s)
    (h : open_file s name = some (s', r)) : Inv s' := by
  rw [open_file] at h
  split at h
  · cases h
  · rename_i pid hcur
    split at h
    · cases h
    · rename_i cs hnd
      split at h
      · cases h
        exact hInv
      · rename_i cid hlk
        split at h
        · cases h
          exact hInv
        · rename_i sz fb hcd
          split at h
          · cases h
            exact hInv
          · rename_i hfresh
            cases h
            have hnd' : (getN s.nodes pid).data = NodeData.dir cs := hnd
            have hcd' : (getN s.nodes cid).data = NodeData.file sz fb := hcd
            exact inv_oft_insert hInv
              (InTree.child (getCurrentDirId_inTree hcur) ⟨cs, hnd', lookupA_mem hlk⟩)
              ⟨sz, fb, hcd'⟩
              (hInv.child_names ⟨cs, hnd', lookupA_mem hlk⟩) hfresh

/-! ### Preservation: mkdir and create -/

/-- Inserting a fresh empty node as a new child of a tree directory
preserves the invariant (common core of `mkdir` and `create_file`). -/
theorem inv_insert_child {s : FS} (hInv : Inv s) {pid : Nat} {cs : List (String × Nat)}
    {name : String} (hpid : InTree s.nodes pid)
    (hnd : (getN s.nodes pid).data = NodeData.dir cs)
    (hfresh : lookupA cs name = none) (newNode : Node)
    (hname : newNode.name = name)
    (hnode_keys : ∀ cs', newNode.data = NodeData.dir cs' → cs' = [])
    (hokfile : ∀ sz fb, newNode.data = NodeData.file sz fb → fb = -1) :
    Inv (setChildren {s with nodes := s.nodes ++ [newNode]} pid
          (dictSet cs name s.nodes.length)) := by
  have hNpos : 0 < s.nodes.length := List.length_pos.mpr hInv.nodes_ne
  have hpidlt : pid < s.nodes.length := inTree_lt hInv hpid
  set s' : FS := setChildren {s with nodes := s.nodes ++ [newNode]} pid
    (dictSet cs name s.nodes.length) with hs'
  have hpname : (getN (s.nodes ++ [newNode]) pid).name = (getN s.nodes pid).name := by
    rw [getN_append_old _ hpidlt]
  have hnodes' : s'.nodes =
      (s.nodes ++ [newNode]).set pid ⟨(getN (s.nodes ++ [newNode]) pid).name,
        NodeData.dir (dictSet cs name s.nodes.length)⟩ := rfl
  have hlen' : s'.nodes.length = s.nodes.length + 1 := by
    rw [hnodes', List.length_set, List.length_append, List.length_singleton]
  have hget_pid : getN s'.nodes pid =
      ⟨(getN s.nodes pid).name, NodeData.dir (dictSet cs name s.nodes.length)⟩ := by
    rw [hnodes', ← hpname]
    exact getN_set_same _ (by rw [List.length_append, List.length_singleton]; omega)
  have hget_new : getN s'.nodes s.nodes.length = newNode := by
    rw [hnodes', getN_set_other _ (by omega : s.nodes.length ≠ pid)]
    exact getN_append_new newNode
  have hget_other : ∀ x, x ≠ pid → x ≠ s.nodes.length → getN s'.nodes x = getN s.nodes x := by
    intro x hx1 hx2
    rw [hnodes', getN_set_other _ hx1]
    rcases Nat.lt_or_ge x s.nodes.length with hlt | hge
    · exact getN_append_old _ hlt
    · rw [getN_beyond (by rw [List.length_append, List.length_singleton]; omega),
        getN_beyond (by omega)]
  have hdict : dictSet cs name s.nodes.length = cs ++ [(name, s.nodes.length)] :=
    dictSet_of_absent s.nodes.length hfresh
  have hrefN : ∀ p k, ¬ Ref s.nodes p k s.nodes.length := by
    intro p k href
    exact absurd (hInv.ref_lt href) (lt_irrefl _)
  have href_fwd : ∀ {p k c}, Ref s'.nodes p k c →
      (p = pid ∧ ((k, c) ∈ cs ∨ (k = name ∧ c = s.nodes.length))) ∨
        (p ≠ pid ∧ Ref s.nodes p k c) := by
    intro p k c ⟨cs0, hd0, hm0⟩
    by_cases hp : p = pid
    · subst hp
      rw [hget_pid] at hd0
      cases hd0
      rw [hdict] at hm0
      rcases List.mem_append.mp hm0 with hm | hm
      · exact Or.inl ⟨rfl, Or.inl hm⟩
      · rcases List.mem_singleton.mp hm with hm
        rw [Prod.mk.injEq] at hm
        exact Or.inl ⟨rfl, Or.inr ⟨hm.1, hm.2⟩⟩
    · by_cases hpN : p = s.nodes.length
      · subst hpN
        rw [hget_new] at hd0
        rw [hnode_keys cs0 hd0] at hm0
        cases hm0
      · rw [hget_other p hp hpN] at hd0
        exact Or.inr ⟨hp, ⟨cs0, hd0, hm0⟩⟩
  have hname_pres : ∀ c, c ≠ s.nodes.length → (getN s'.nodes c).name = (getN s.nodes c).name := by
    intro c hc
    by_cases hcp : c = pid
    · subst hcp
      rw [hget_pid]
    · rw [hget_other c hcp hc]
  have hintree_fwd : ∀ {x}, InTree s'.nodes x → InTree s.nodes x ∨ x = s.nodes.length := by
    intro x hx
    induction hx with
    | root => exact Or.inl InTree.root
    | child hp href ih =>
      rcases href_fwd href with ⟨hppid, hm | ⟨_, hcN⟩⟩ | ⟨hppe, hrefn⟩
      · rcases ih with hpt | hpN
        · subst hppid
          exact Or.inl (InTree.child hpt ⟨cs, hnd, hm⟩)
        · exact absurd (hppid ▸ hpN : pid = s.nodes.length) (by omega)
      · exact Or.inr hcN
      · rcases ih with hpt | hpN
        · exact Or.inl (InTree.child hpt hrefn)
        · subst hpN
          obtain ⟨cs0, hd0, hm0⟩ := hrefn
          rw [getN_beyond (le_refl _)] at hd0
          cases hd0
          cases hm0
  have hlive_fwd : ∀ {x}, Live s'.nodes s'.oft x → Live s.nodes s.oft x ∨ x = s.nodes.length := by
    intro x hx
    rcases hx with hx | ⟨k, hk⟩
    · rcases hintree_fwd hx with h | h
      · exact Or.inl (Or.inl h)
      · exact Or.inr h
    · exact Or.inl (Or.inr ⟨k, hk⟩)
  have hfileN : ∀ {sz fb}, (getN s'.nodes s.nodes.length).data = NodeData.file sz fb →
      fb = -1 := by
    intro sz fb hd
    rw [hget_new] at hd
    exact hokfile sz fb hd
  have hdata_old : ∀ {x}, x ≠ s.nodes.length → x ≠ pid →
      (getN s'.nodes x).data = (getN s.nodes x).data := by
    intro x hxN hxp
    rw [hget_other x hxp hxN]
  refine ⟨?_, ?_, ?_, ?_, ?_, ?_, ?_, ?_, ?_, ?_, ?_, ?_, ?_, ?_⟩
  · -- nodes_ne
    intro hnil
    rw [hnil] at hlen'
    simp at hlen'
  · -- root_dir
    by_cases h0 : 0 = pid
    · rw [← h0] at hget_pid
      exact ⟨dictSet cs name s.nodes.length, by rw [hget_pid]⟩
    · obtain ⟨cs0, hcs0⟩ := hInv.root_dir
      exact ⟨cs0, by rw [hget_other 0 (fun hh => h0 hh) (by omega)]; exact hcs0⟩
  · -- ref_lt
    intro p k c href
    rw [hlen']
    rcases href_fwd href with ⟨_, hm | ⟨_, hcN⟩⟩ | ⟨_, hrefn⟩
    · have := hInv.ref_lt ⟨cs, hnd, hm⟩
      omega
    · omega
    · have := hInv.ref_lt hrefn
      omega
  · -- ref_unique
    intro p k c p' k' href href'
    by_cases hc : c = s.nodes.length
    · subst hc
      have h1 : p = pid ∧ k = name := by
        rcases href_fwd href with ⟨hp, hm | ⟨hk, _⟩⟩ | ⟨_, hrefn⟩
        · exact absurd ⟨cs, hnd, hm⟩ (hrefN _ _)
        · exact ⟨hp, hk⟩
        · exact absurd hrefn (hrefN _ _)
      have h2 : p' = pid ∧ k' = name := by
        rcases href_fwd href' with ⟨hp, hm | ⟨hk, _⟩⟩ | ⟨_, hrefn⟩
        · exact absurd ⟨cs, hnd, hm⟩ (hrefN _ _)
        · exact ⟨hp, hk⟩
        · exact absurd hrefn (hrefN _ _)
      rw [h1.1, h1.2, h2.1, h2.2]
      exact ⟨rfl, rfl⟩
    · have h1 : Ref s.nodes p k c := by
        rcases href_fwd href with ⟨hp, hm | ⟨_, hcN⟩⟩ | ⟨_, hrefn⟩
        · rw [hp]
          exact ⟨cs, hnd, hm⟩
        · exact absurd hcN hc
        · exact hrefn
      have h2 : Ref s.nodes p' k' c := by
        rcases href_fwd href' with ⟨hp, hm | ⟨_, hcN⟩⟩ | ⟨_, hrefn⟩
        · rw [hp]
          exact ⟨cs, hnd, hm⟩
        · exact absurd hcN hc
        · exact hrefn
      exact hInv.ref_unique h1 h2
  · -- root_unref
    intro p k href
    rcases href_fwd href with ⟨hp, hm | ⟨_, h0N⟩⟩ | ⟨_, hrefn⟩
    · exact hInv.root_unref ⟨cs, hnd, hm⟩
    · omega
    · exact hInv.root_unref hrefn
  · -- keys_nodup
    intro p cs0 hd0
    by_cases hp : p = pid
    · subst hp
      rw [hget_pid] at hd0
      cases hd0
      exact dictSet_nodup_of_absent _ (hInv.keys_nodup hnd) hfresh
    · by_cases hpN : p = s.nodes.length
      · subst hpN
        rw [hget_new] at hd0
        rw [hnode_keys cs0 hd0]
        exact List.nodup_nil
      · rw [hget_other p hp hpN] at hd0
        exact hInv.keys_nodup hd0
  · -- child_names
    intro p k c href
    rcases href_fwd href with ⟨hp, hm | ⟨hk, hcN⟩⟩ | ⟨_, hrefn⟩
    · have hcN : c ≠ s.nodes.length := fun hh => hrefN pid k (hh ▸ ⟨cs, hnd, hm⟩)
      rw [hname_pres c hcN]
      exact hInv.child_names ⟨cs, hnd, hm⟩
    · subst hcN
      rw [hget_new, hname, hk]
    · have hcN : c ≠ s.nodes.length := fun hh => hrefN _ _ (hh ▸ hrefn)
      rw [hname_pres c hcN]
      exact hInv.child_names hrefn
  · -- oft_lt
    intro k id hk
    have := hInv.oft_lt hk
    rw [hlen']
    omega
  · -- oft_file
    intro k id hk
    obtain ⟨sz, fb, hd⟩ := hInv.oft_file hk
    have hidN : id ≠ s.nodes.length := by
      have := hInv.oft_lt hk
      omega
    have hidp : id ≠ pid := by
      intro hh
      rw [hh, hnd] at hd
      cases hd
    exact ⟨sz, fb, by rw [hdata_old hidN hidp]; exact hd⟩
  · -- oft_name
    intro k id hk
    have hidN : id ≠ s.nodes.length := by
      have := hInv.oft_lt hk
      omega
    rw [hname_pres id hidN]
    exact hInv.oft_name hk
  · -- oft_keys_nodup
    exact hInv.oft_keys_nodup
  · -- agree
    exact hInv.agree
  · -- chains
    intro id sz fb hl hd
    by_cases hidN : id = s.nodes.length
    · subst hidN
      have hfb := hfileN hd
      subst hfb
      exact ⟨[], Or.inl ⟨rfl, rfl⟩, List.nodup_nil, by simp, by simp⟩
    · have hidp : id ≠ pid := by
        intro hh
        rw [hh, hget_pid] at hd
        cases hd
      rw [hdata_old hidN hidp] at hd
      rcases hlive_fwd hl with hl' | hl'
      · exact hInv.chains hl' hd
      · exact absurd hl' hidN
  · -- disjointc
    intro id sz fb cn id' sz' fb' cn' hl hl' hne hd hd' hc hc'
    by_cases hidN : id = s.nodes.length
    · subst hidN
      have hfb := hfileN hd
      subst hfb
      have hcnil : cn = [] := by
        rcases hc.head_ok with ⟨_, hnil⟩ | ⟨a, A, hcn, hfb2, _⟩
        · exact hnil
        · omega
      rw [hcnil]
      intro b hb
      cases hb
    · by_cases hidN' : id' = s.nodes.length
      · subst hidN'
        have hfb' := hfileN hd'
        subst hfb'
        have hcnil : cn' = [] := by
          rcases hc'.head_ok with ⟨_, hnil⟩ | ⟨a, A, hcn', hfb2, _⟩
          · exact hnil
          · omega
        rw [hcnil]
        intro b _ hb
        cases hb
      · have hidp : id ≠ pid := by
          intro hh
          rw [hh, hget_pid] at hd
          cases hd
        have hidp' : id' ≠ pid := by
          intro hh
          rw [hh, hget_pid] at hd'
          cases hd'
        rw [hdata_old hidN hidp] at hd
        rw [hdata_old hidN' hidp'] at hd'
        rcases hlive_fwd hl with hl2 | hl2
        · rcases hlive_fwd hl' with hl2' | hl2'
          · exact hInv.disjointc hl2 hl2' hne hd hd' hc hc'
          · exact absurd hl2' hidN'
        · exact absurd hl2 hidN

theorem inv_mkdir {s s' : FS} {name : String} {r : Except Err Unit} (hInv : Inv s)
    (h : mkdir s name = some (s', r)) : Inv s' := by
  rw [mkdir] at h
  split at h
  · cases h
  · rename_i pid hcur
    split at h
    · cases h
    · rename_i cs hnd
      split at h
      · cases h
        exact hInv
      · rename_i hfresh
        cases h
        exact inv_insert_child hInv (getCurrentDirId_inTree hcur) hnd hfresh
          ⟨name, NodeData.dir []⟩ rfl (fun cs' h => by cases h; rfl) (fun sz fb h => by cases h)

/-! ### Preservation: delete -/

/-- Removing the child `name ↦ cid` of a tree directory, dropping the
open-file-table entry keyed `name`, and (for a file) freeing exactly the
blocks of `cid`'s chain, preserves the invariant. -/
theorem inv_delete_core {s : FS} (hInv : Inv s) {pid cid : Nat} {cs : List (String × Nat)}
    {name : String} (hpid : InTree s.nodes pid)
    (hnd : (getN s.nodes pid).data = NodeData.dir cs)
    (hlk : lookupA cs name = some cid)
    (cn : List Nat)
    (hcid_chain : cn = [] ∨ ∃ sz fb, (getN s.nodes cid).data = NodeData.file sz fb ∧
        FileChain s.free_map s.fat fb cn)
    (t : FS)
    (htn : t.nodes = s.nodes.set pid ⟨(getN s.nodes pid).name, NodeData.dir (removeA cs name)⟩)
    (hto : t.oft = removeA s.oft name)
    (htf : ∀ i, t.free_map i = if i ∈ cn then true else s.free_map i)
    (hta : ∀ i, t.fat i = if i ∈ cn then -2 else s.fat i) :
    Inv t := by
  have hpidlt : pid < s.nodes.length := inTree_lt hInv hpid
  have hrefc : Ref s.nodes pid name cid := ⟨cs, hnd, lookupA_mem hlk⟩
  have hcid_name : (getN s.nodes cid).name = name := hInv.child_names hrefc
  have hlen' : t.nodes.length = s.nodes.length := by rw [htn, List.length_set]
  have hget_pid : getN t.nodes pid =
      ⟨(getN s.nodes pid).name, NodeData.dir (removeA cs name)⟩ := by
    rw [htn]
    exact getN_set_same _ hpidlt
  have hget_other : ∀ x, x ≠ pid → getN t.nodes x = getN s.nodes x := by
    intro x hx
    rw [htn]
    exact getN_set_other _ hx
  have hname_pres : ∀ c, (getN t.nodes c).name = (getN s.nodes c).name := by
    intro c
    by_cases hcp : c = pid
    · subst hcp
      rw [hget_pid]
    · rw [hget_other c hcp]
  have href_fwd : ∀ {p k c}, Ref t.nodes p k c → Ref s.nodes p k c := by
    intro p k c ⟨cs0, hd0, hm0⟩
    by_cases hp : p = pid
    · subst hp
      rw [hget_pid] at hd0
      cases hd0
      exact ⟨cs, hnd, mem_removeA hm0⟩
    · rw [hget_other p hp] at hd0
      exact ⟨cs0, hd0, hm0⟩
  have hdata_pres : ∀ {x}, x ≠ pid → (getN t.nodes x).data = (getN s.nodes x).data := by
    intro x hx
    rw [hget_other x hx]
  have hintree_fwd : ∀ {x}, InTree t.nodes x → InTree s.nodes x := by
    intro x hx
    induction hx with
    | root => exact InTree.root
    | child hp href ih => exact InTree.child ih (href_fwd href)
  -- the deleted node is not live afterwards
  have hnotref_cid : ∀ {p k}, ¬ Ref t.nodes p k cid := by
    intro p k href
    obtain ⟨hp, hk⟩ := hInv.ref_unique (href_fwd href) hrefc
    subst hp
    subst hk
    obtain ⟨cs0, hd0, hm0⟩ := href
    rw [hget_pid] at hd0
    cases hd0
    exact absurd (lookupA_isSome_of_mem hm0)
      (by simp [lookupA_removeA_self (hInv.keys_nodup hnd)])
  have hcid_not_tree : ¬ InTree t.nodes cid := by
    intro hx
    cases hx with
    | root =>
      exact hInv.root_unref (show Ref s.nodes pid name 0 from hrefc)
    | child hp href => exact hnotref_cid href
  have hcid_not_oft : ∀ k, (k, cid) ∉ t.oft := by
    intro k hk
    rw [hto] at hk
    have hk_name : k = name := by
      have := hInv.oft_name (mem_removeA hk)
      rw [hcid_name] at this
      exact this.symm
    subst hk_name
    exact absurd (lookupA_isSome_of_mem hk)
      (by simp [lookupA_removeA_self hInv.oft_keys_nodup])
  have hlive_fwd : ∀ {x}, Live t.nodes t.oft x → Live s.nodes s.oft x ∧ x ≠ cid := by
    intro x hx
    constructor
    · rcases hx with hx | ⟨k, hk⟩
      · exact Or.inl (hintree_fwd hx)
      · rw [hto] at hk
        exact Or.inr ⟨k, mem_removeA hk⟩
    · intro hxc
      subst hxc
      rcases hx with hx | ⟨k, hk⟩
      · exact hcid_not_tree hx
      · exact hcid_not_oft k hk
  have hcid_live : Live s.nodes s.oft cid := Or.inl (InTree.child hpid hrefc)
  -- chains of other live files are untouched
  have hchain_pres : ∀ {id sz fb cnid}, Live s.nodes s.oft id → id ≠ cid →
      (getN s.nodes id).data = NodeData.file sz fb →
      FileChain s.free_map s.fat fb cnid → FileChain t.free_map t.fat fb cnid := by
    intro id sz fb cnid hl hne hd hfc
    have hdisj : ∀ b ∈ cnid, b ∉ cn := by
      rcases hcid_chain with hnil | ⟨szc, fbc, hdc, hfcc⟩
      · intro b _ hb
        rw [hnil] at hb
        cases hb
      · exact hInv.disjointc hl hcid_live hne hd hdc hfc hfcc
    refine ⟨?_, hfc.nodup, hfc.mem_lt, ?_⟩
    · rcases hfc.head_ok with h | ⟨a, A, hcn, hfb, hnc⟩
      · exact Or.inl h
      · refine Or.inr ⟨a, A, hcn, hfb, ?_⟩
        apply natChain_congr _ hnc
        intro x hx
        rw [hta x, if_neg (hdisj x hx)]
    · intro b hb
      rw [htf b, if_neg (hdisj b hb)]
      exact hfc.mem_alloc b hb
  refine ⟨?_, ?_, ?_, ?_, ?_, ?_, ?_, ?_, ?_, ?_, ?_, ?_, ?_, ?_⟩
  · -- nodes_ne
    intro hnil
    rw [hnil] at hlen'
    have := List.length_pos.mpr hInv.nodes_ne
    simp at hlen'
    omega
  · -- root_dir
    by_cases h0 : 0 = pid
    · rw [← h0] at hget_pid
      exact ⟨removeA cs name, by rw [hget_pid]⟩
    · obtain ⟨cs0, hcs0⟩ := hInv.root_dir
      exact ⟨cs0, by rw [hget_other 0 (fun hh => h0 hh)]; exact hcs0⟩
  · -- ref_lt
    intro p k c href
    rw [hlen']
    exact hInv.ref_lt (href_fwd href)
  · -- ref_unique
    intro p k c p' k' href href'
    exact hInv.ref_unique (href_fwd href) (href_fwd href')
  · -- root_unref
    intro p k href
    exact hInv.root_unref (href_fwd href)
  · -- keys_nodup
    intro p cs0 hd0
    by_cases hp : p = pid
    · subst hp
      rw [hget_pid] at hd0
      cases hd0
      exact removeA_nodup (hInv.keys_nodup hnd)
    · rw [hget_other p hp] at hd0
      exact hInv.keys_nodup hd0
  · -- child_names
    intro p k c href
    rw [hname_pres c]
    exact hInv.child_names (href_fwd href)
  · -- oft_lt
    intro k id hk
    rw [hto] at hk
    rw [hlen']
    exact hInv.oft_lt (mem_removeA hk)
  · -- oft_file
    intro k id hk
    rw [hto] at hk
    obtain ⟨sz, fb, hd⟩ := hInv.oft_file (mem_removeA hk)
    have hidp : id ≠ pid := by
      intro hh
      rw [hh, hnd] at hd
      cases hd
    exact ⟨sz, fb, by rw [hdata_pres hidp]; exact hd⟩
  · -- oft_name
    intro k id hk
    rw [hto] at hk
    rw [hname_pres id]
    exact hInv.oft_name (mem_removeA hk)
  · -- oft_keys_nodup
    rw [hto]
    exact removeA_nodup hInv.oft_keys_nodup
  · -- agree
    intro i hi
    obtain ⟨hiff, hrange⟩ := hInv.agree i hi
    by_cases hin : i ∈ cn
    · rw [htf i, hta i, if_pos hin, if_pos hin]
      exact ⟨by simp, Or.inl rfl⟩
    · rw [htf i, hta i, if_neg hin, if_neg hin]
      exact ⟨hiff, hrange⟩
  · -- chains
    intro id sz fb hl hd
    obtain ⟨hls, hne⟩ := hlive_fwd hl
    have hidp : id ≠ pid := by
      intro hh
      rw [hh, hget_pid] at hd
      cases hd
    rw [hdata_pres hidp] at hd
    obtain ⟨cnid, hfc⟩ := hInv.chains hls hd
    exact ⟨cnid, hchain_pres hls hne hd hfc⟩
  · -- disjointc
    intro id sz fb cnid id' sz' fb' cnid' hl hl' hne hd hd' hc hc'
    obtain ⟨hls, hnec⟩ := hlive_fwd hl
    obtain ⟨hls', hnec'⟩ := hlive_fwd hl'
    have hidp : id ≠ pid := by
      intro hh
      rw [hh, hget_pid] at hd
      cases hd
    have hidp' : id' ≠ pid := by
      intro hh
      rw [hh, hget_pid] at hd'
      cases hd'
    rw [hdata_pres hidp] at hd
    rw [hdata_pres hidp'] at hd'
    obtain ⟨cn0, hfc0⟩ := hInv.chains hls hd
    obtain ⟨cn0', hfc0'⟩ := hInv.chains hls' hd'
    have he0 : cnid = cn0 := fileChain_unique hc (hchain_pres hls hnec hd hfc0)
    have he0' : cnid' = cn0' := fileChain_unique hc' (hchain_pres hls' hnec' hd' hfc0')
    rw [he0, he0']
    exact hInv.disjointc hls hls' hne hd hd' hfc0 hfc0'

theorem inv_delete {s s' : FS} {name : String} {r : Except Err Unit} (hInv : Inv s)
    (h : delete_file s name = some (s', r)) : Inv s' := by
  rw [delete_file] at h
  split at h
  · cases h
  · rename_i pid hcur
    split at h
    · cases h
    · rename_i cs hnd
      split at h
      · cases h
        exact hInv
      · rename_i cid hlk
        split at h
        · -- directory child
          rename_i ccs hcd
          split at h
          · cases h
            exact hInv
          · cases h
            exact inv_delete_core hInv (getCurrentDirId_inTree hcur) hnd hlk []
              (Or.inl rfl) _ rfl rfl
              (fun i => by
                show s.free_map i = if i ∈ ([] : List Nat) then true else s.free_map i
                simp)
              (fun i => by
                show s.fat i = if i ∈ ([] : List Nat) then -2 else s.fat i
                simp)
        · -- file child
          rename_i sz fb hcd
          split at h
          · cases h
          · rename_i sf hfree
            cases h
            have hcid_live : Live s.nodes s.oft cid :=
              Or.inl (InTree.child (getCurrentDirId_inTree hcur) ⟨cs, hnd, lookupA_mem hlk⟩)
            obtain ⟨cn, hfc⟩ := hInv.chains hcid_live hcd
            by_cases hfb : fb ≠ -1
            · -- a chain is actually freed
              rw [if_pos hfb] at hfree
              have hcne : cn ≠ [] := by
                rcases hfc.head_ok with ⟨hfb1, _⟩ | ⟨a, A, hcn, _, _⟩
                · exact absurd hfb1 hfb
                · rw [hcn]
                  exact List.cons_ne_nil _ _
              obtain ⟨sf', hrun, hn, ho, hp, hf, ha, hdk⟩ := freeChain_spec hfc hcne
              rw [hrun] at hfree
              injection hfree with hsf
              subst hsf
              refine inv_delete_core hInv (getCurrentDirId_inTree hcur) hnd hlk cn
                (Or.inr ⟨sz, fb, hcd, hfc⟩) _ ?_ ?_ ?_ ?_
              · show sf'.nodes.set pid ⟨(getN sf'.nodes pid).name,
                  NodeData.dir (removeA cs name)⟩ = _
                rw [hn]
              · show removeA sf'.oft name = removeA s.oft name
                rw [ho]
              · intro i
                show sf'.free_map i = _
                exact hf i
              · intro i
                show sf'.fat i = _
                exact ha i
            · -- first_block = -1: nothing to free
              rw [if_neg hfb] at hfree
              cases hfree
              push_neg at hfb
              have hcn_nil : cn = [] := by
                rcases hfc.head_ok with ⟨_, hnil⟩ | ⟨a, A, hcn, hfb2, _⟩
                · exact hnil
                · rw [hfb] at hfb2
                  omega
              exact inv_delete_core hInv (getCurrentDirId_inTree hcur) hnd hlk []
                (Or.inl rfl) _ rfl rfl
                (fun i => by
                  show s.free_map i = if i ∈ ([] : List Nat) then true else s.free_map i
                  simp)
                (fun i => by
                  show s.fat i = if i ∈ ([] : List Nat) then -2 else s.fat i
                  simp)

/-! ### Preservation: write -/

/-- Core of `write_file` preservation: the written file keeps its name, its
chain grows by freshly allocated blocks `A`, the FAT changes only inside the
file's own old chain and `A`, and the free map only marks `A` used. -/
theorem inv_write_core {s : FS} (hInv : Inv s) {fid : Nat} {sz L : Nat} {fb fb2 : Int}
    (hlive : Live s.nodes s.oft fid)
    (hd : (getN s.nodes fid).data = NodeData.file sz fb)
    (cn A : List Nat)
    (hfc : FileChain s.free_map s.fat fb cn)
    (hAfree : ∀ a ∈ A, s.free_map a = true)
    (t : FS)
    (htn : t.nodes = s.nodes.set fid ⟨(getN s.nodes fid).name, NodeData.file L fb2⟩)
    (hto : t.oft = s.oft)
    (htf : ∀ i, t.free_map i = if i ∈ A then false else s.free_map i)
    (hta : ∀ i, i ∉ A → i ∉ cn → t.fat i = s.fat i)
    (hfc2 : FileChain t.free_map t.fat fb2 (cn ++ A)) :
    Inv t := by
  have hfidlt : fid < s.nodes.length := by
    rcases hlive with h | ⟨k, hk⟩
    · exact inTree_lt hInv h
    · exact hInv.oft_lt hk
  have hlen' : t.nodes.length = s.nodes.length := by rw [htn, List.length_set]
  have hget_fid : getN t.nodes fid =
      ⟨(getN s.nodes fid).name, NodeData.file L fb2⟩ := by
    rw [htn]
    exact getN_set_same _ hfidlt
  have hget_other : ∀ x, x ≠ fid → getN t.nodes x = getN s.nodes x := by
    intro x hx
    rw [htn]
    exact getN_set_other _ hx
  have hname_pres : ∀ c, (getN t.nodes c).name = (getN s.nodes c).name := by
    intro c
    by_cases hcp : c = fid
    · subst hcp
      rw [hget_fid]
    · rw [hget_other c hcp]
  have href_iff : ∀ {p k c}, Ref t.nodes p k c ↔ Ref s.nodes p k c := by
    intro p k c
    constructor
    · intro ⟨cs0, hd0, hm0⟩
      by_cases hp : p = fid
      · subst hp
        rw [hget_fid] at hd0
        cases hd0
      · rw [hget_other p hp] at hd0
        exact ⟨cs0, hd0, hm0⟩
    · intro ⟨cs0, hd0, hm0⟩
      by_cases hp : p = fid
      · subst hp
        rw [hd] at hd0
        cases hd0
      · exact ⟨cs0, by rw [hget_other p hp]; exact hd0, hm0⟩
  have hintree_iff : ∀ {x}, InTree t.nodes x ↔ InTree s.nodes x := by
    intro x
    constructor
    · intro hx
      induction hx with
      | root => exact InTree.root
      | child hp href ih => exact InTree.child ih (href_iff.mp href)
    · intro hx
      induction hx with
      | root => exact InTree.root
      | child hp href ih => exact InTree.child ih (href_iff.mpr href)
  have hlive_iff : ∀ {x}, Live t.nodes t.oft x ↔ Live s.nodes s.oft x := by
    intro x
    rw [hto]
    constructor
    · intro hx
      rcases hx with hx | hk
      · exact Or.inl (hintree_iff.mp hx)
      · exact Or.inr hk
    · intro hx
      rcases hx with hx | hk
      · exact Or.inl (hintree_iff.mpr hx)
      · exact Or.inr hk
  have hAdisj : ∀ {id' sz' fb' cn'}, Live s.nodes s.oft id' →
      (getN s.nodes id').data = NodeData.file sz' fb' →
      FileChain s.free_map s.fat fb' cn' → ∀ b ∈ cn', b ∉ A := by
    intro id' sz' fb' cn' _ _ hfc' b hb hbA
    have h1 := hfc'.mem_alloc b hb
    have h2 := hAfree b hbA
    rw [h1] at h2
    cases h2
  have hchain_pres : ∀ {id' sz' fb' cn'}, Live s.nodes s.oft id' → id' ≠ fid →
      (getN s.nodes id').data = NodeData.file sz' fb' →
      FileChain s.free_map s.fat fb' cn' → FileChain t.free_map t.fat fb' cn' := by
    intro id' sz' fb' cn' hl' hne hd' hfc'
    have hdisj_cn : ∀ b ∈ cn', b ∉ cn :=
      hInv.disjointc hl' hlive hne hd' hd hfc' hfc
    have hdisj_A : ∀ b ∈ cn', b ∉ A := hAdisj hl' hd' hfc'
    refine ⟨?_, hfc'.nodup, hfc'.mem_lt, ?_⟩
    · rcases hfc'.head_ok with h | ⟨a, A', hcn', hfb', hnc⟩
      · exact Or.inl h
      · refine Or.inr ⟨a, A', hcn', hfb', ?_⟩
        apply natChain_congr _ hnc
        intro x hx
        exact hta x (hdisj_A x hx) (hdisj_cn x hx)
    · intro b hb
      rw [htf b, if_neg (hdisj_A b hb)]
      exact hfc'.mem_alloc b hb
  refine ⟨?_, ?_, ?_, ?_, ?_, ?_, ?_, ?_, ?_, ?_, ?_, ?_, ?_, ?_⟩
  · -- nodes_ne
    intro hnil
    rw [hnil] at hlen'
    have := List.length_pos.mpr hInv.nodes_ne
    simp at hlen'
    omega
  · -- root_dir
    obtain ⟨cs0, hcs0⟩ := hInv.root_dir
    have h0 : (0 : Nat) ≠ fid := by
      intro hh
      rw [← hh] at hd
      rw [hd] at hcs0
      cases hcs0
    exact ⟨cs0, by rw [hget_other 0 h0]; exact hcs0⟩
  · -- ref_lt
    intro p k c href
    rw [hlen']
    exact hInv.ref_lt (href_iff.mp href)
  · -- ref_unique
    intro p k c p' k' href href'
    exact hInv.ref_unique (href_iff.mp href) (href_iff.mp href')
  · -- root_unref
    intro p k href
    exact hInv.root_unref (href_iff.mp href)
  · -- keys_nodup
    intro p cs0 hd0
    by_cases hp : p = fid
    · subst hp
      rw [hget_fid] at hd0
      cases hd0
    · rw [hget_other p hp] at hd0
      exact hInv.keys_nodup hd0
  · -- child_names
    intro p k c href
    rw [hname_pres c]
    exact hInv.child_names (href_iff.mp href)
  · -- oft_lt
    intro k id hk
    rw [hto] at hk
    rw [hlen']
    exact hInv.oft_lt hk
  · -- oft_file
    intro k id hk
    rw [hto] at hk
    by_cases hp : id = fid
    · subst hp
      exact ⟨L, fb2, by rw [hget_fid]⟩
    · obtain ⟨sz', fb', hd'⟩ := hInv.oft_file hk
      exact ⟨sz', fb', by rw [hget_other id hp]; exact hd'⟩
  · -- oft_name
    intro k id hk
    rw [hto] at hk
    rw [hname_pres id]
    exact hInv.oft_name hk
  · -- oft_keys_nodup
    rw [hto]
    exact hInv.oft_keys_nodup
  · -- agree
    intro i hi
    by_cases hin : i ∈ cn ++ A
    · have hfree_i : t.free_map i = false := hfc2.mem_alloc i hin
      have hfat_i := natChain_fat_mem (by
          rcases hfc2.head_ok with ⟨_, hnil⟩ | ⟨a, A', hcn2, _, hnc⟩
          · rw [hnil] at hin
            cases hin
          · exact hnc) i hin
      constructor
      · rw [hfree_i]
        constructor
        · intro hcon
          cases hcon
        · intro hcon
          rcases hfat_i with hf1 | ⟨y, _, hf1⟩
          · rw [hf1] at hcon
            cases hcon
          · rw [hf1] at hcon
            omega
      · rcases hfat_i with hf1 | ⟨y, hy, hf1⟩
        · exact Or.inr (Or.inl hf1)
        · exact Or.inr (Or.inr ⟨y, hf1, hfc2.mem_lt y hy⟩)
    · rw [List.mem_append] at hin
      push_neg at hin
      obtain ⟨hiff, hrange⟩ := hInv.agree i hi
      rw [htf i, if_neg hin.2, hta i hin.2 hin.1]
      exact ⟨hiff, hrange⟩
  · -- chains
    intro id sz' fb' hl hd'
    by_cases hp : id = fid
    · subst hp
      rw [hget_fid] at hd'
      cases hd'
      exact ⟨cn ++ A, hfc2⟩
    · rw [hget_other id hp] at hd'
      have hls := hlive_iff.mp hl
      obtain ⟨cnid, hfcid⟩ := hInv.chains hls hd'
      exact ⟨cnid, hchain_pres hls hp hd' hfcid⟩
  · -- disjointc
    intro id sz1 fb1 cn1 id' sz1' fb1' cn1' hl hl' hne hd1 hd1' hc hc'
    have hls := hlive_iff.mp hl
    have hls' := hlive_iff.mp hl'
    by_cases hp : id = fid
    · subst hp
      rw [hget_fid] at hd1
      cases hd1
      have he : cn1 = cn ++ A := fileChain_unique hc hfc2
      subst he
      have hp' : id' ≠ id := fun hh => hne hh.symm
      rw [hget_other id' hp'] at hd1'
      obtain ⟨cnid', hfcid'⟩ := hInv.chains hls' hd1'
      have he' : cn1' = cnid' := fileChain_unique hc' (hchain_pres hls' hp' hd1' hfcid')
      subst he'
      intro b hb hb'
      rcases List.mem_append.mp hb with hb | hb
      · exact hInv.disjointc hls' hlive hp' hd1' hd hfcid' hfc b hb' hb
      · exact hAdisj hls' hd1' hfcid' b hb' hb
    · rw [hget_other id hp] at hd1
      obtain ⟨cnid, hfcid⟩ := hInv.chains hls hd1
      have he : cn1 = cnid := fileChain_unique hc (hchain_pres hls hp hd1 hfcid)
      subst he
      by_cases hp' : id' = fid
      · subst hp'
        rw [hget_fid] at hd1'
        cases hd1'
        have he' : cn1' = cn ++ A := fileChain_unique hc' hfc2
        subst he'
        intro b hb hb'
        rcases List.mem_append.mp hb' with hb' | hb'
        · exact hInv.disjointc hls hlive hp hd1 hd hfcid hfc b hb hb'
        · exact hAdisj hls hd1 hfcid b hb hb'
      · rw [hget_other id' hp'] at hd1'
        obtain ⟨cnid', hfcid'⟩ := hInv.chains hls' hd1'
        have he' : cn1' = cnid' := fileChain_unique hc' (hchain_pres hls' hp' hd1' hfcid')
        subst he'
        exact hInv.disjointc hls hls' hne hd1 hd1' hfcid hfcid'

theorem setNodeData_nodes (s : FS) (id : Nat) (d : NodeData) :
    (setNodeData s id d).nodes = s.nodes.set id ⟨(getN s.nodes id).name, d⟩ := rfl

theorem setNodeData_oft (s : FS) (id : Nat) (d : NodeData) :
    (setNodeData s id d).oft = s.oft := rfl

theorem setNodeData_free (s : FS) (id : Nat) (d : NodeData) :
    (setNodeData s id d).free_map = s.free_map := rfl

theorem setNodeData_fat (s : FS) (id : Nat) (d : NodeData) :
    (setNodeData s id d).fat = s.fat := rfl

theorem allocateBlocks_nil_state {s s1 : FS} {n : Nat}
    (h : allocateBlocks s n = some (s1, [])) : s1 = s := by
  rw [allocateBlocks] at h
  split at h
  · cases h
  · have h1 := Option.some.inj h
    rw [Prod.mk.injEq] at h1
    obtain ⟨ha, hb⟩ := h1
    rw [hb] at ha
    rw [← ha]
    rfl

theorem extendChain_none_state {s s1 : FS} {fb : Int} {n : Nat}
    (h : extendChain s fb n = some (s1, none)) : s1 = s := by
  rw [extendChain] at h
  split at h
  · have h1 := Option.some.inj h
    rw [Prod.mk.injEq] at h1
    exact h1.1.symm
  · rename_i p heq
    split at h
    · have h1 := Option.some.inj h
      rw [Prod.mk.injEq] at h1
      rw [← h1.1]
      exact allocateBlocks_nil_state heq
    · rename_i nb0 rest hcons
      split at h
      · have h1 := Option.some.inj h
        rw [Prod.mk.injEq] at h1
        cases h1.2
      · split at h
        · cases h
        · have h1 := Option.some.inj h
          rw [Prod.mk.injEq] at h1
          cases h1.2

theorem inv_write {s s' : FS} {name : String} {data : Bytes} {r : Except Err Unit}
    (hInv : Inv s) (h : write_file s name data = some (s', r)) : Inv s' := by
  rw [write_file] at h
  split at h
  · cases h
    exact hInv
  · rename_i fid hlk
    split at h
    · cases h
    · rename_i sz fb hcd
      have hmem : (name, fid) ∈ s.oft := lookupA_mem hlk
      have hlive : Live s.nodes s.oft fid := Or.inr ⟨name, hmem⟩
      have hcd' : (getN s.nodes fid).data = NodeData.file sz fb := hcd
      obtain ⟨cn, hfc⟩ := hInv.chains hlive hcd'
      have hgbc : getBlockChain s fb = some (castChain cn) := fileChain_getBlockChain hfc
      split at h
      · cases h
      · rename_i current_chain hchain
        have hcc : current_chain = castChain cn := by
          rw [hgbc] at hchain
          exact (Option.some.inj hchain).symm
        subst hcc
        split at h
        · -- extension required
          rename_i hgt
          split at h
          · cases h
          · -- extension failed: state unchanged
            rename_i s1 hext
            cases h
            rw [extendChain_none_state hext]
            exact hInv
          · -- extension succeeded
            rename_i s1 new_start hext
            have hn_pos : 0 < blocksNeeded data.len - (castChain cn).length := by omega
            have hn_free :
                blocksNeeded data.len - (castChain cn).length ≤ freeCount s := by
              by_contra hcon
              push_neg at hcon
              rw [extendChain_fail hcon] at hext
              have h1 := Option.some.inj hext
              rw [Prod.mk.injEq] at h1
              cases h1.2
            have hfid_lt : fid < s.nodes.length := hInv.oft_lt hmem
            by_cases hfb : fb = -1
            · -- fresh chain
              subst hfb
              have hcn_nil : cn = [] := by
                rcases hfc.head_ok with ⟨_, hnil⟩ | ⟨a, A, _, hfb2, _⟩
                · exact hnil
                · omega
              obtain ⟨s1f, a, A, hAeq, hextf, hnodes1, hoft1, hpath1, hdisk1, hfree1,
                hfat1, hfc1⟩ := extendChain_fresh hn_pos hn_free
              rw [hextf] at hext
              have h1 := Option.some.inj hext
              rw [Prod.mk.injEq] at h1
              obtain ⟨hs1, hns⟩ := h1
              have hns' : ((a : Nat) : Int) = new_start := Option.some.inj hns
              subst hs1
              subst hns'
              split at h
              · -- `fb = -1` branch taken
                split at h
                · cases h
                · rename_i chain2 hchain2
                  have hfc1' : FileChain
                      (setNodeData s1f fid (NodeData.file sz ((a : Nat) : Int))).free_map
                      (setNodeData s1f fid (NodeData.file sz ((a : Nat) : Int))).fat
                      ((a : Nat) : Int) (a :: A) := hfc1
                  have hcc2 : chain2 = castChain (a :: A) := by
                    have hg := fileChain_getBlockChain hfc1'
                    rw [hg] at hchain2
                    exact (Option.some.inj hchain2).symm
                  subst hcc2
                  cases h
                  refine @inv_write_core s hInv fid sz data.len (-1) ((a : Nat) : Int)
                    hlive hcd' cn (a :: A) hfc ?_ _ ?_ ?_ ?_ ?_ ?_
                  · intro x hx
                    refine (mem_freeIndices.mp (List.take_subset
                      (blocksNeeded data.len - (castChain cn).length) (freeIndices s) ?_)).2
                    rw [hAeq]
                    exact hx
                  · rw [setNodeData_nodes, writeLoop_nodes, setNodeData_nodes, hnodes1,
                      getN_set_same _ hfid_lt, List.set_set]
                  · rw [setNodeData_oft, writeLoop_oft, setNodeData_oft, hoft1]
                  · intro i
                    rw [setNodeData_free, writeLoop_free, setNodeData_free, hfree1 i, hAeq]
                  · intro i hiA hicn
                    rw [setNodeData_fat, writeLoop_fat, setNodeData_fat]
                    refine hfat1 i ?_
                    rw [hAeq]
                    exact hiA
                  · rw [hcn_nil, List.nil_append]
                    rw [setNodeData_free, writeLoop_free, setNodeData_free,
                      setNodeData_fat, writeLoop_fat, setNodeData_fat]
                    exact hfc1
              · -- `fb = -1` branch not taken: impossible here
                rename_i hcontra
                exact absurd rfl hcontra
            · -- extension of an existing chain
              have hcne : cn ≠ [] := by
                intro hnil
                rcases hfc.head_ok with ⟨hm1, _⟩ | ⟨a0, cn0, hc, _, _⟩
                · exact hfb hm1
                · rw [hnil] at hc
                  cases hc
              obtain ⟨s2x, hext', hnodes1, hoft1, hpath1, hdisk1, hfree1, hfat1, hfc1⟩ :=
                extendChain_ext hfc hcne hn_pos hn_free
              rw [hext'] at hext
              have h1 := Option.some.inj hext
              rw [Prod.mk.injEq] at h1
              obtain ⟨hs1, hns⟩ := h1
              have hns' : fb = new_start := Option.some.inj hns
              subst hs1
              subst hns'
              split at h
              · -- `fb = -1` branch taken: impossible here
                rename_i hcontra
                exact absurd hcontra hfb
              · split at h
                · cases h
                · rename_i chain2 hchain2
                  have hcc2 : chain2 = castChain (cn ++ (freeIndices s).take
                      (blocksNeeded data.len - (castChain cn).length)) := by
                    have hg := fileChain_getBlockChain hfc1
                    rw [hg] at hchain2
                    exact (Option.some.inj hchain2).symm
                  subst hcc2
                  cases h
                  refine @inv_write_core s hInv fid sz data.len fb fb hlive hcd' cn
                    ((freeIndices s).take (blocksNeeded data.len - (castChain cn).length))
                    hfc ?_ _ ?_ ?_ ?_ ?_ ?_
                  · intro x hx
                    exact (mem_freeIndices.mp (List.take_subset _ _ hx)).2
                  · rw [setNodeData_nodes, writeLoop_nodes, hnodes1]
                  · rw [setNodeData_oft, writeLoop_oft, hoft1]
                  · intro i
                    rw [setNodeData_free, writeLoop_free, hfree1 i]
                  · intro i hiA hicn
                    rw [setNodeData_fat, writeLoop_fat]
                    refine hfat1 i hiA ?_
                    intro hlast
                    refine hicn ?_
                    rw [hlast]
                    exact List.getLast_mem hcne
                  · rw [setNodeData_free, writeLoop_free, setNodeData_fat, writeLoop_fat]
                    exact hfc1
        · -- payload fits in the existing chain
          cases h
          refine @inv_write_core s hInv fid sz data.len fb fb hlive hcd' cn [] hfc
            ?_ _ ?_ ?_ ?_ ?_ ?_
          · intro x hx
            cases hx
          · rw [setNodeData_nodes, writeLoop_nodes]
          · rw [setNodeData_oft, writeLoop_oft]
          · intro i
            rw [setNodeData_free, writeLoop_free]
            simp
          · intro i hiA hicn
            rw [setNodeData_fat, writeLoop_fat]
          · rw [List.append_nil]
            rw [setNodeData_free, writeLoop_free, setNodeData_fat, writeLoop_fat]
            exact hfc

theorem inv_create {s s' : FS} {name : String} {r : Except Err Unit} (hInv : Inv s)
    (h : create_file s name = some (s', r)) : Inv s' := by
  rw [create_file] at h
  split at h
  · cases h
  · rename_i pid hcur
    split at h
    · cases h
    · rename_i cs hnd
      split at h
      · cases h
        exact hInv
      · rename_i hfresh
        cases h
        exact inv_insert_child hInv (getCurrentDirId_inTree hcur) hnd hfresh
          ⟨name, NodeData.file 0 (-1)⟩ rfl (fun cs' h => by cases h) (fun sz fb h => by cases h; rfl)

/-! ### Preservation: mv -/

theorem mvAttach_nodes (s : FS) (spid : Nat) (sname : String) (entryId tdir : Nat)
    (tname : String) :
    (mvAttach s spid sname entryId tdir tname).nodes =
      (mvRename (mvDetach s spid sname) entryId tname).nodes.set tdir
        ⟨(getN (mvRename (mvDetach s spid sname) entryId tname).nodes tdir).name,
          NodeData.dir (dictSet
            (childrenOfD (mvRename (mvDetach s spid sname) entryId tname) tdir)
            tname entryId)⟩ := rfl

theorem mvAttach_oft (s : FS) (spid : Nat) (sname : String) (entryId tdir : Nat)
    (tname : String) : (mvAttach s spid sname entryId tdir tname).oft = s.oft := rfl

theorem mvResult_nodes (s : FS) (spid : Nat) (sname : String) (entryId tdir : Nat)
    (tname : String) :
    (mvResult s spid sname entryId tdir tname).nodes =
      (mvAttach s spid sname entryId tdir tname).nodes := by
  rw [mvResult]
  by_cases hc : (lookupA (mvAttach s spid sname entryId tdir tname).oft sname).isSome
  · rw [if_pos hc]
  · rw [if_neg hc]

theorem mvResult_free (s : FS) (spid : Nat) (sname : String) (entryId tdir : Nat)
    (tname : String) : (mvResult s spid sname entryId tdir tname).free_map = s.free_map := by
  rw [mvResult]
  by_cases hc : (lookupA (mvAttach s spid sname entryId tdir tname).oft sname).isSome
  · rw [if_pos hc]
    rfl
  · rw [if_neg hc]
    rfl

theorem mvResult_fat (s : FS) (spid : Nat) (sname : String) (entryId tdir : Nat)
    (tname : String) : (mvResult s spid sname entryId tdir tname).fat = s.fat := by
  rw [mvResult]
  by_cases hc : (lookupA (mvAttach s spid sname entryId tdir tname).oft sname).isSome
  · rw [if_pos hc]
    rfl
  · rw [if_neg hc]
    rfl

theorem mvResult_oft (s : FS) (spid : Nat) (sname : String) (entryId tdir : Nat)
    (tname : String) :
    (mvResult s spid sname entryId tdir tname).oft =
      if (lookupA s.oft sname).isSome then removeA s.oft sname else s.oft := by
  rw [mvResult]
  by_cases hc : (lookupA (mvAttach s spid sname entryId tdir tname).oft sname).isSome
  · have hc' : (lookupA s.oft sname).isSome = true := hc
    rw [if_pos hc, if_pos hc']
    rfl
  · have hc' : ¬ (lookupA s.oft sname).isSome = true := hc
    rw [if_neg hc, if_neg hc']
    rfl

/-- No node of the directory tree is its own child (would contradict
reference uniqueness along the finite reachability derivation). -/
theorem intree_no_self_ref {s : FS} (hInv : Inv s) {x : Nat} (hx : InTree s.nodes x) :
    ∀ {k : String}, ¬ Ref s.nodes x k x := by
  induction hx with
  | root => exact fun hk => hInv.root_unref hk
  | child hp hr ih =>
    intro k hk
    obtain ⟨hpe, hke⟩ := hInv.ref_unique hr hk
    subst hpe
    exact ih hk

/-- The cross-aliasing surgery of a successful `mv` preserves the
invariant (covering the cases target-dir = source-dir and
target-dir = moved entry). -/
theorem inv_mv_core {s : FS} (hInv : Inv s) {spid entryId tdir : Nat}
    {sname tname : String} {scs tcs : List (String × Nat)}
    (hsp : InTree s.nodes spid) (htp : InTree s.nodes tdir)
    (hsd : (getN s.nodes spid).data = NodeData.dir scs)
    (htd : (getN s.nodes tdir).data = NodeData.dir tcs)
    (hlk : lookupA scs sname = some entryId)
    (htno : lookupA tcs tname = none) :
    Inv (mvResult s spid sname entryId tdir tname) := by
  have hspl : spid < s.nodes.length := inTree_lt hInv hsp
  have htpl : tdir < s.nodes.length := inTree_lt hInv htp
  have hrefe : Ref s.nodes spid sname entryId := ⟨scs, hsd, lookupA_mem hlk⟩
  have hel : entryId < s.nodes.length := hInv.ref_lt hrefe
  have he0 : entryId ≠ 0 := by
    intro hh
    rw [hh] at hrefe
    exact hInv.root_unref hrefe
  have hse : spid ≠ entryId := by
    intro hh
    subst hh
    exact intree_no_self_ref hInv hsp hrefe
  have hename : (getN s.nodes entryId).name = sname := hInv.child_names hrefe
  have hkeyss : (scs.map Prod.fst).Nodup := hInv.keys_nodup hsd
  have hkeyst : (tcs.map Prod.fst).Nodup := hInv.keys_nodup htd
  have hcsp : childrenOfD s spid = scs := by
    rw [childrenOfD, getNode, hsd]
  have hsname_tname : tdir = spid → ¬ sname = tname := by
    intro h2 he
    have h3 : NodeData.dir scs = NodeData.dir tcs := by
      rw [← hsd, ← htd, h2]
    injection h3 with h4
    rw [← h4, ← he, hlk] at htno
    cases htno
  -- the intermediate arena after detaching and renaming
  have hdetn : (mvDetach s spid sname).nodes =
      s.nodes.set spid ⟨(getN s.nodes spid).name, NodeData.dir (removeA scs sname)⟩ := by
    show s.nodes.set spid ⟨(getN s.nodes spid).name,
      NodeData.dir (removeA (childrenOfD s spid) sname)⟩ = _
    rw [hcsp]
  have hrenn : (mvRename (mvDetach s spid sname) entryId tname).nodes =
      (s.nodes.set spid ⟨(getN s.nodes spid).name, NodeData.dir (removeA scs sname)⟩).set
        entryId ⟨tname, (getN s.nodes entryId).data⟩ := by
    show (mvDetach s spid sname).nodes.set entryId
      ⟨tname, (getN (mvDetach s spid sname).nodes entryId).data⟩ = _
    rw [hdetn, getN_set_other _ (fun h => hse h.symm)]
  have hlen2 : (mvRename (mvDetach s spid sname) entryId tname).nodes.length =
      s.nodes.length := by
    rw [hrenn, List.length_set, List.length_set]
  have hg2 : ∀ x, getN (mvRename (mvDetach s spid sname) entryId tname).nodes x =
      if x = entryId then ⟨tname, (getN s.nodes entryId).data⟩
      else if x = spid then ⟨(getN s.nodes spid).name, NodeData.dir (removeA scs sname)⟩
      else getN s.nodes x := by
    intro x
    rw [hrenn]
    by_cases h1 : x = entryId
    · subst h1
      rw [if_pos rfl, getN_set_same _ (by rw [List.length_set]; exact hel)]
    · rw [if_neg h1, getN_set_other _ h1]
      by_cases h2 : x = spid
      · subst h2
        rw [if_pos rfl, getN_set_same _ hspl]
      · rw [if_neg h2, getN_set_other _ h2]
  have hd2 : (getN (mvRename (mvDetach s spid sname) entryId tname).nodes tdir).data =
      NodeData.dir (if tdir = spid then removeA scs sname else tcs) := by
    rw [hg2]
    by_cases h1 : tdir = entryId
    · rw [if_pos h1]
      have h2 : ¬ tdir = spid := fun hh => hse (hh.symm.trans h1)
      rw [if_neg h2]
      show (getN s.nodes entryId).data = NodeData.dir tcs
      rw [← h1]
      exact htd
    · rw [if_neg h1]
      by_cases h2 : tdir = spid
      · rw [if_pos h2, if_pos h2]
      · rw [if_neg h2, if_neg h2]
        exact htd
  have hm2 : (getN (mvRename (mvDetach s spid sname) entryId tname).nodes tdir).name =
      (if tdir = entryId then tname else (getN s.nodes tdir).name) := by
    rw [hg2]
    by_cases h1 : tdir = entryId
    · rw [if_pos h1, if_pos h1]
    · rw [if_neg h1, if_neg h1]
      by_cases h2 : tdir = spid
      · rw [if_pos h2, h2]
      · rw [if_neg h2]
  have hXif : childrenOfD (mvRename (mvDetach s spid sname) entryId tname) tdir =
      (if tdir = spid then removeA scs sname else tcs) := by
    rw [childrenOfD, getNode, hd2]
  have hXlk : lookupA (if tdir = spid then removeA scs sname else tcs) tname = none := by
    by_cases h2 : tdir = spid
    · rw [if_pos h2, lookupA_removeA_other hkeyss (fun hh => hsname_tname h2 hh.symm)]
      have h3 : NodeData.dir scs = NodeData.dir tcs := by
        rw [← hsd, ← htd, h2]
      injection h3 with h4
      rw [h4]
      exact htno
    · rw [if_neg h2]
      exact htno
  have hXnodup : ((if tdir = spid then removeA scs sname else tcs).map Prod.fst).Nodup := by
    by_cases h2 : tdir = spid
    · rw [if_pos h2]
      exact removeA_nodup hkeyss
    · rw [if_neg h2]
      exact hkeyst
  have hXsub : ∀ p ∈ (if tdir = spid then removeA scs sname else tcs), p ∈ tcs := by
    by_cases h2 : tdir = spid
    · rw [if_pos h2]
      intro p hp
      have h3 : NodeData.dir scs = NodeData.dir tcs := by
        rw [← hsd, ← htd, h2]
      injection h3 with h4
      rw [← h4]
      exact mem_removeA hp
    · rw [if_neg h2]
      intro p hp
      exact hp
  -- the final arena, node by node
  have htn : ∀ x, getN (mvResult s spid sname entryId tdir tname).nodes x =
      if x = tdir then
        ⟨(if tdir = entryId then tname else (getN s.nodes tdir).name),
          NodeData.dir (dictSet (if tdir = spid then removeA scs sname else tcs)
            tname entryId)⟩
      else if x = entryId then ⟨tname, (getN s.nodes entryId).data⟩
      else if x = spid then ⟨(getN s.nodes spid).name, NodeData.dir (removeA scs sname)⟩
      else getN s.nodes x := by
    intro x
    rw [mvResult_nodes, mvAttach_nodes, hm2, hXif]
    by_cases h1 : x = tdir
    · subst h1
      rw [if_pos rfl, getN_set_same _ (by rw [hlen2]; exact htpl)]
    · rw [if_neg h1, getN_set_other _ h1, hg2]
  have hlen : (mvResult s spid sname entryId tdir tname).nodes.length = s.nodes.length := by
    rw [mvResult_nodes, mvAttach_nodes, List.length_set, hlen2]
  have hname : ∀ c, (getN (mvResult s spid sname entryId tdir tname).nodes c).name =
      if c = entryId then tname else (getN s.nodes c).name := by
    intro c
    rw [htn c]
    by_cases h1 : c = tdir
    · subst h1
      rw [if_pos rfl]
    · rw [if_neg h1]
      by_cases h2 : c = entryId
      · rw [if_pos h2, if_pos h2]
      · rw [if_neg h2, if_neg h2]
        by_cases h3 : c = spid
        · rw [if_pos h3, h3]
        · rw [if_neg h3]
  have href_cases : ∀ {p k c}, Ref (mvResult s spid sname entryId tdir tname).nodes p k c →
      Ref s.nodes p k c ∨ (p = tdir ∧ k = tname ∧ c = entryId) := by
    intro p k c href
    obtain ⟨cs0, hd0, hm0⟩ := href
    rw [htn p] at hd0
    by_cases h1 : p = tdir
    · rw [if_pos h1] at hd0
      injection hd0 with hd0'
      subst hd0'
      rw [dictSet_of_absent _ hXlk] at hm0
      rcases List.mem_append.mp hm0 with hm | hm
      · left
        rw [h1]
        exact ⟨tcs, htd, hXsub _ hm⟩
      · right
        have h6 := List.mem_singleton.mp hm
        rw [Prod.mk.injEq] at h6
        exact ⟨h1, h6.1, h6.2⟩
    · rw [if_neg h1] at hd0
      by_cases h2 : p = entryId
      · rw [if_pos h2] at hd0
        left
        refine ⟨cs0, ?_, hm0⟩
        rw [h2]
        exact hd0
      · rw [if_neg h2] at hd0
        by_cases h3 : p = spid
        · rw [if_pos h3] at hd0
          injection hd0 with hd0'
          subst hd0'
          left
          refine ⟨scs, ?_, mem_removeA hm0⟩
          rw [h3]
          exact hsd
        · rw [if_neg h3] at hd0
          left
          exact ⟨cs0, hd0, hm0⟩
  have href_entry : ∀ {p k},
      Ref (mvResult s spid sname entryId tdir tname).nodes p k entryId →
      p = tdir ∧ k = tname := by
    intro p k href
    rcases href_cases href with hs | ⟨h1, h2, _⟩
    · obtain ⟨hpe, hke⟩ := hInv.ref_unique hs hrefe
      exfalso
      rw [hpe, hke] at href
      obtain ⟨cs0, hd0, hm0⟩ := href
      rw [htn spid] at hd0
      by_cases h1 : spid = tdir
      · rw [if_pos h1] at hd0
        injection hd0 with h4
        subst h4
        rw [dictSet_of_absent _ hXlk] at hm0
        rcases List.mem_append.mp hm0 with hm | hm
        · rw [if_pos h1.symm] at hm
          exact absurd (lookupA_isSome_of_mem hm)
            (by rw [lookupA_removeA_self hkeyss]; simp)
        · have h6 := List.mem_singleton.mp hm
          rw [Prod.mk.injEq] at h6
          exact hsname_tname h1.symm h6.1
      · rw [if_neg h1, if_neg hse, if_pos rfl] at hd0
        injection hd0 with h4
        subst h4
        exact absurd (lookupA_isSome_of_mem hm0)
          (by rw [lookupA_removeA_self hkeyss]; simp)
    · exact ⟨h1, h2⟩
  have hintree_fwd : ∀ {x}, InTree (mvResult s spid sname entryId tdir tname).nodes x →
      InTree s.nodes x := by
    intro x hx
    induction hx with
    | root => exact InTree.root
    | child hp href ih =>
      rcases href_cases href with hs | ⟨_, _, hc⟩
      · exact InTree.child ih hs
      · subst hc
        exact InTree.child hsp hrefe
  have hoft_sub : ∀ {p : String × Nat}, p ∈ (mvResult s spid sname entryId tdir tname).oft →
      p ∈ s.oft := by
    intro p hp
    rw [mvResult_oft] at hp
    by_cases hc : (lookupA s.oft sname).isSome
    · rw [if_pos hc] at hp
      exact mem_removeA hp
    · rw [if_neg hc] at hp
      exact hp
  have hoft_nodup : (((mvResult s spid sname entryId tdir tname).oft.map Prod.fst)).Nodup := by
    rw [mvResult_oft]
    by_cases hc : (lookupA s.oft sname).isSome
    · rw [if_pos hc]
      exact removeA_nodup hInv.oft_keys_nodup
    · rw [if_neg hc]
      exact hInv.oft_keys_nodup
  have hoft_no_entry : ∀ k, (k, entryId) ∉ (mvResult s spid sname entryId tdir tname).oft := by
    intro k hk
    have hks : (k, entryId) ∈ s.oft := hoft_sub hk
    have hkname : k = sname := by
      have h5 := hInv.oft_name hks
      rw [hename] at h5
      exact h5.symm
    rw [hkname] at hk
    rw [mvResult_oft] at hk
    by_cases hc : (lookupA s.oft sname).isSome
    · rw [if_pos hc] at hk
      exact absurd (lookupA_isSome_of_mem hk)
        (by rw [lookupA_removeA_self hInv.oft_keys_nodup]; simp)
    · rw [if_neg hc] at hk
      exact hc (lookupA_isSome_of_mem hk)
  have hlive_fwd : ∀ {x}, Live (mvResult s spid sname entryId tdir tname).nodes
      (mvResult s spid sname entryId tdir tname).oft x → Live s.nodes s.oft x := by
    intro x hx
    rcases hx with hx | ⟨k, hk⟩
    · exact Or.inl (hintree_fwd hx)
    · exact Or.inr ⟨k, hoft_sub hk⟩
  have hdata_file : ∀ {x sz fb},
      (getN (mvResult s spid sname entryId tdir tname).nodes x).data = NodeData.file sz fb →
      (getN s.nodes x).data = NodeData.file sz fb := by
    intro x sz fb hd
    rw [htn x] at hd
    by_cases h1 : x = tdir
    · rw [if_pos h1] at hd
      cases hd
    · rw [if_neg h1] at hd
      by_cases h2 : x = entryId
      · rw [if_pos h2] at hd
        rw [h2]
        exact hd
      · rw [if_neg h2] at hd
        by_cases h3 : x = spid
        · rw [if_pos h3] at hd
          cases hd
        · rw [if_neg h3] at hd
          exact hd
  refine ⟨?_, ?_, ?_, ?_, ?_, ?_, ?_, ?_, ?_, ?_, ?_, ?_, ?_, ?_⟩
  · -- nodes_ne
    intro hnil
    rw [hnil] at hlen
    have := List.length_pos.mpr hInv.nodes_ne
    simp at hlen
    omega
  · -- root_dir
    by_cases h1 : (0 : Nat) = tdir
    · exact ⟨dictSet (if tdir = spid then removeA scs sname else tcs) tname entryId,
        by rw [htn 0, if_pos h1]⟩
    · by_cases h3 : (0 : Nat) = spid
      · refine ⟨removeA scs sname, ?_⟩
        rw [htn 0, if_neg h1, if_neg (fun hh => he0 hh.symm), if_pos h3]
      · obtain ⟨cs0, h0⟩ := hInv.root_dir
        exact ⟨cs0, by
          rw [htn 0, if_neg h1, if_neg (fun hh => he0 hh.symm), if_neg h3]
          exact h0⟩
  · -- ref_lt
    intro p k c href
    rw [hlen]
    rcases href_cases href with hs | ⟨_, _, hc⟩
    · exact hInv.ref_lt hs
    · rw [hc]
      exact hel
  · -- ref_unique
    intro p k c p' k' href href'
    by_cases hc : c = entryId
    · subst hc
      obtain ⟨hp1, hk1⟩ := href_entry href
      obtain ⟨hp2, hk2⟩ := href_entry href'
      exact ⟨hp1.trans hp2.symm, hk1.trans hk2.symm⟩
    · rcases href_cases href with hs | ⟨_, _, hce⟩
      · rcases href_cases href' with hs' | ⟨_, _, hce'⟩
        · exact hInv.ref_unique hs hs'
        · exact absurd hce' hc
      · exact absurd hce hc
  · -- root_unref
    intro p k href
    rcases href_cases href with hs | ⟨_, _, h0⟩
    · exact hInv.root_unref hs
    · exact he0 h0.symm
  · -- keys_nodup
    intro p cs0 hd0
    rw [htn p] at hd0
    by_cases h1 : p = tdir
    · rw [if_pos h1] at hd0
      injection hd0 with h4
      rw [← h4]
      exact dictSet_nodup_of_absent _ hXnodup hXlk
    · rw [if_neg h1] at hd0
      by_cases h2 : p = entryId
      · rw [if_pos h2] at hd0
        exact hInv.keys_nodup (show (getN s.nodes entryId).data = NodeData.dir cs0 from hd0)
      · rw [if_neg h2] at hd0
        by_cases h3 : p = spid
        · rw [if_pos h3] at hd0
          injection hd0 with h4
          rw [← h4]
          exact removeA_nodup hkeyss
        · rw [if_neg h3] at hd0
          exact hInv.keys_nodup hd0
  · -- child_names
    intro p k c href
    rw [hname c]
    by_cases hc : c = entryId
    · rw [if_pos hc]
      rw [hc] at href
      exact ((href_entry href).2).symm
    · rw [if_neg hc]
      rcases href_cases href with hs | ⟨_, _, hce⟩
      · exact hInv.child_names hs
      · exact absurd hce hc
  · -- oft_lt
    intro k id hk
    rw [hlen]
    exact hInv.oft_lt (hoft_sub hk)
  · -- oft_file
    intro k id hk
    obtain ⟨sz, fb, hd⟩ := hInv.oft_file (hoft_sub hk)
    refine ⟨sz, fb, ?_⟩
    rw [htn id]
    have h1 : id ≠ tdir := by
      intro hh
      rw [hh, htd] at hd
      cases hd
    have h2 : id ≠ entryId := by
      intro hh
      rw [hh] at hk
      exact hoft_no_entry k hk
    have h3 : id ≠ spid := by
      intro hh
      rw [hh, hsd] at hd
      cases hd
    rw [if_neg h1, if_neg h2, if_neg h3]
    exact hd
  · -- oft_name
    intro k id hk
    have h2 : ¬ id = entryId := by
      intro hh
      rw [hh] at hk
      exact hoft_no_entry k hk
    rw [hname id, if_neg h2]
    exact hInv.oft_name (hoft_sub hk)
  · -- oft_keys_nodup
    exact hoft_nodup
  · -- agree
    intro i hi
    rw [mvResult_free, mvResult_fat]
    exact hInv.agree i hi
  · -- chains
    intro id sz fb hl hd
    obtain ⟨cn, hfc⟩ := hInv.chains (hlive_fwd hl) (hdata_file hd)
    refine ⟨cn, ?_⟩
    rw [mvResult_free, mvResult_fat]
    exact hfc
  · -- disjointc
    intro id sz fb cn id' sz' fb' cn' hl hl' hne hd hd' hc hc'
    rw [mvResult_free, mvResult_fat] at hc hc'
    exact hInv.disjointc (hlive_fwd hl) (hlive_fwd hl') hne
      (hdata_file hd) (hdata_file hd') hc hc'

theorem inv_mvFinish {s s' : FS} {spid entryId tdir : Nat} {sname tname : String}
    {scs : List (String × Nat)} {r : Except Err Unit} (hInv : Inv s)
    (hsp : InTree s.nodes spid) (htp : InTree s.nodes tdir)
    (hsd : (getN s.nodes spid).data = NodeData.dir scs)
    (hlk : lookupA scs sname = some entryId)
    (h : mvFinish s spid sname entryId tdir tname = some (s', r)) : Inv s' := by
  rw [mvFinish] at h
  split at h
  · cases h
  · rename_i tcs htd
    split at h
    · cases h
      exact hInv
    · rename_i hns
      cases h
      have htno : lookupA tcs tname = none := by
        cases hx : lookupA tcs tname with
        | none => rfl
        | some v =>
          rw [hx] at hns
          simp at hns
      exact inv_mv_core hInv hsp htp hsd htd hlk htno

theorem inv_mv {s s' : FS} {src dst : String} {r : Except Err Unit} (hInv : Inv s)
    (h : mv s src dst = some (s', r)) : Inv s' := by
  rw [mv] at h
  split at h
  · cases h
  · cases h
    exact hInv
  · cases h
    exact hInv
  · cases h
    exact hInv
  · rename_i spid sname hres
    split at h
    · cases h
    · rename_i scs hsd
      split at h
      · cases h
        exact hInv
      · rename_i entryId hlk
        have hsp : InTree s.nodes spid := resolvePath_found_inTree hres
        split at h
        · cases h
        · exact inv_mvFinish hInv hsp InTree.root hsd hlk h
        · rename_i hcurm
          split at h
          · cases h
          · rename_i cur hcur
            exact inv_mvFinish hInv hsp (getCurrentDirId_inTree hcur) hsd hlk h
        · cases h
          exact hInv
        · rename_i dpid dname hres2
          split at h
          · cases h
          · rename_i dcs hdd
            have hdp : InTree s.nodes dpid := resolvePath_found_inTree hres2
            split at h
            · rename_i exId hlk2
              split at h
              · rename_i ecs hed
                have hexp : InTree s.nodes exId :=
                  InTree.child hdp ⟨dcs, hdd, lookupA_mem hlk2⟩
                exact inv_mvFinish hInv hsp hexp hsd hlk h
              · cases h
                exact hInv
            · exact inv_mvFinish hInv hsp hdp hsd hlk h

/-! ### The invariant holds in every reachable state -/

theorem inv_init : Inv initFS := by
  refine ⟨?_, ?_, ?_, ?_, ?_, ?_, ?_, ?_, ?_, ?_, ?_, ?_, ?_, ?_⟩
  · intro h
    cases h
  · exact ⟨[], rfl⟩
  · intro p k id ⟨cs, hd, hm⟩
    by_cases hp : p = 0
    · subst hp
      have : cs = [] := by
        have : (getN initFS.nodes 0).data = NodeData.dir [] := rfl
        rw [this] at hd
        injection hd with h4
        exact h4.symm
      rw [this] at hm
      cases hm
    · have : getN initFS.nodes p = dummyNode := getN_beyond (by
        show 1 ≤ p
        omega)
      rw [this] at hd
      cases hd
      cases hm
  · intro p k id p' k' href href'
    obtain ⟨cs, hd, hm⟩ := href
    by_cases hp : p = 0
    · subst hp
      have h0 : (getN initFS.nodes 0).data = NodeData.dir [] := rfl
      rw [h0] at hd
      injection hd with h4
      rw [← h4] at hm
      cases hm
    · have : getN initFS.nodes p = dummyNode := getN_beyond (by
        show 1 ≤ p
        omega)
      rw [this] at hd
      cases hd
      cases hm
  · intro p k ⟨cs, hd, hm⟩
    by_cases hp : p = 0
    · subst hp
      have h0 : (getN initFS.nodes 0).data = NodeData.dir [] := rfl
      rw [h0] at hd
      injection hd with h4
      rw [← h4] at hm
      cases hm
    · have : getN initFS.nodes p = dummyNode := getN_beyond (by
        show 1 ≤ p
        omega)
      rw [this] at hd
      cases hd
      cases hm
  · intro pid cs hd
    by_cases hp : pid = 0
    · subst hp
      have h0 : (getN initFS.nodes 0).data = NodeData.dir [] := rfl
      rw [h0] at hd
      injection hd with h4
      rw [← h4]
      exact List.nodup_nil
    · have : getN initFS.nodes pid = dummyNode := getN_beyond (by
        show 1 ≤ pid
        omega)
      rw [this] at hd
      cases hd
      exact List.nodup_nil
  · intro p k c ⟨cs, hd, hm⟩
    by_cases hp : p = 0
    · subst hp
      have h0 : (getN initFS.nodes 0).data = NodeData.dir [] := rfl
      rw [h0] at hd
      injection hd with h4
      rw [← h4] at hm
      cases hm
    · have : getN initFS.nodes p = dummyNode := getN_beyond (by
        show 1 ≤ p
        omega)
      rw [this] at hd
      cases hd
      cases hm
  · intro k id hk
    cases hk
  · intro k id hk
    cases hk
  · intro k id hk
    cases hk
  · exact List.nodup_nil
  · intro i hi
    exact ⟨⟨fun _ => rfl, fun _ => rfl⟩, Or.inl rfl⟩
  · intro id sz fb hl hd
    exfalso
    by_cases hp : id = 0
    · subst hp
      have h0 : (getN initFS.nodes 0).data = NodeData.dir [] := rfl
      rw [h0] at hd
      cases hd
    · have : getN initFS.nodes id = dummyNode := getN_beyond (by
        show 1 ≤ id
        omega)
      rw [this] at hd
      cases hd
  · intro id sz fb cn id' sz' fb' cn' hl hl' hne hd hd' hc hc'
    exfalso
    by_cases hp : id = 0
    · subst hp
      have h0 : (getN initFS.nodes 0).data = NodeData.dir [] := rfl
      rw [h0] at hd
      cases hd
    · have : getN initFS.nodes id = dummyNode := getN_beyond (by
        show 1 ≤ id
        omega)
      rw [this] at hd
      cases hd

theorem inv_step {s s' : FS} (hInv : Inv s) (h : Step s s') : Inv s' := by
  cases h with
  | mkdir a b c d => exact inv_mkdir hInv d
  | cd a b c d => exact inv_cd hInv d
  | create a b c d => exact inv_create hInv d
  | openf a b c d => exact inv_open hInv d
  | closef a b c d => exact inv_close hInv d
  | write a b c d e => exact inv_write hInv e
  | delete a b c d => exact inv_delete hInv d
  | move a b c d e => exact inv_mv hInv e
  | readonly => exact hInv

theorem inv_reachable {s : FS} (h : Reachable s) : Inv s := by
  induction h with
  | init => exact inv_init
  | step hr hs ih => exact inv_step ih hs

/-! ### Functional characterization of write and read -/

theorem setNodeData_disk (s : FS) (id : Nat) (d : NodeData) :
    (setNodeData s id d).disk = s.disk := rfl

theorem castChain_inj {cn cn' : List Nat} (h : castChain cn = castChain cn') : cn = cn' := by
  rw [castChain, castChain] at h
  exact List.map_injective_iff.mpr (fun x y hxy => by exact_mod_cast hxy) h

theorem blocksNeeded_pos (L : Nat) : 0 < blocksNeeded L := by
  rw [blocksNeeded]
  by_cases h0 : (L + BLOCK_SIZE - 1) / BLOCK_SIZE = 0
  · rw [if_pos h0]
    exact Nat.one_pos
  · rw [if_neg h0]
    exact Nat.pos_of_ne_zero h0

theorem blocksNeeded_mul (L : Nat) : L ≤ blocksNeeded L * BLOCK_SIZE := by
  rw [blocksNeeded]
  have h1 := Nat.div_add_mod (L + BLOCK_SIZE - 1) BLOCK_SIZE
  have h2 : (L + BLOCK_SIZE - 1) % BLOCK_SIZE < BLOCK_SIZE := Nat.mod_lt _ (by decide)
  have hB : BLOCK_SIZE = 512 := rfl
  rw [hB] at h1 h2 ⊢
  by_cases h0 : (L + 512 - 1) / 512 = 0
  · rw [if_pos h0]
    rw [h0] at h1
    omega
  · rw [if_neg h0]
    omega

theorem write_file_eq_fits {s : FS} {name : String} {fid : Nat} {sz : Nat} {fb : Int}
    {cn : List Int} (data : Bytes) (hlk : lookupA s.oft name = some fid)
    (hd : (getNode s fid).data = NodeData.file sz fb)
    (hgbc : getBlockChain s fb = some cn)
    (hle : ¬ blocksNeeded data.len > cn.length) :
    write_file s name data =
      some (setNodeData (writeLoop data s cn 0 data.len) fid
        (NodeData.file data.len fb), .ok ()) := by
  simp only [write_file, hlk, hd, hgbc, if_neg hle]

theorem write_file_eq_fresh {s s1 : FS} {name : String} {fid : Nat} {sz : Nat}
    {ns : Int} {cn chain2 : List Int} (data : Bytes)
    (hlk : lookupA s.oft name = some fid)
    (hd : (getNode s fid).data = NodeData.file sz (-1))
    (hgbc : getBlockChain s (-1) = some cn)
    (hgt : blocksNeeded data.len > cn.length)
    (hext : extendChain s (-1) (blocksNeeded data.len - cn.length) = some (s1, some ns))
    (hgbc2 : getBlockChain (setNodeData s1 fid (NodeData.file sz ns)) ns = some chain2) :
    write_file s name data =
      some (setNodeData
        (writeLoop data (setNodeData s1 fid (NodeData.file sz ns)) chain2 0 data.len)
        fid (NodeData.file data.len ns), .ok ()) := by
  simp only [write_file, hlk, hd, hgbc, if_pos hgt, hext,
    if_pos (show ((-1 : Int) = -1) from rfl), if_true, hgbc2]

theorem write_file_eq_ext {s s1 : FS} {name : String} {fid : Nat} {sz : Nat}
    {fb ns : Int} {cn chain2 : List Int} (data : Bytes)
    (hlk : lookupA s.oft name = some fid)
    (hd : (getNode s fid).data = NodeData.file sz fb)
    (hfbne : ¬ fb = -1)
    (hgbc : getBlockChain s fb = some cn)
    (hgt : blocksNeeded data.len > cn.length)
    (hext : extendChain s fb (blocksNeeded data.len - cn.length) = some (s1, some ns))
    (hgbc2 : getBlockChain s1 fb = some chain2) :
    write_file s name data =
      some (setNodeData (writeLoop data s1 chain2 0 data.len)
        fid (NodeData.file data.len fb), .ok ()) := by
  simp only [write_file, hlk, hd, hgbc, if_pos hgt, hext, if_neg hfbne, hgbc2]

/-- Full characterization of a successful `write_file` call: the payload
fits (given enough free blocks), the open-file table and all other nodes
are untouched, the file's node records the new size, its chain extends
the old one, the chain's blocks hold the payload (zero-padded), and the
rest of the disk is unchanged. -/
theorem write_file_spec {s : FS} (hInv : Inv s) {name : String} {fid : Nat} (data : Bytes)
    {sz : Nat} {fb : Int} {cn : List Nat}
    (hlk : lookupA s.oft name = some fid)
    (hd : (getNode s fid).data = NodeData.file sz fb)
    (hfc : FileChain s.free_map s.fat fb cn)
    (hfree : blocksNeeded data.len - cn.length ≤ freeCount s) :
    ∃ (s' : FS) (cc : List Nat) (fb2 : Int),
      write_file s name data = some (s', .ok ()) ∧
      cn.length ≤ cc.length ∧
      blocksNeeded data.len ≤ cc.length ∧
      cc.length ≤ max (blocksNeeded data.len) cn.length ∧
      s'.oft = s.oft ∧
      getN s'.nodes fid = ⟨(getN s.nodes fid).name, NodeData.file data.len fb2⟩ ∧
      (∀ x, x ≠ fid → getN s'.nodes x = getN s.nodes x) ∧
      FileChain s'.free_map s'.fat fb2 cc ∧
      (∀ (i : Nat) (hi : i < cc.length) (t : Nat), t < BLOCK_SIZE →
        s'.disk (cc.get ⟨i, hi⟩ * BLOCK_SIZE + t) =
          if i * BLOCK_SIZE + t < data.len then data.byteAt (i * BLOCK_SIZE + t) else 0) ∧
      (∀ j, (∀ b ∈ cc, ¬ (b * BLOCK_SIZE ≤ j ∧ j < b * BLOCK_SIZE + BLOCK_SIZE)) →
        s'.disk j = s.disk j) ∧
      (blocksNeeded data.len ≤ cn.length →
        cc = cn ∧ fb2 = fb ∧ s'.free_map = s.free_map ∧ s'.fat = s.fat) := by
  have hfid_lt : fid < s.nodes.length := hInv.oft_lt (lookupA_mem hlk)
  have hgbc : getBlockChain s fb = some (castChain cn) := fileChain_getBlockChain hfc
  by_cases hgt : blocksNeeded data.len > cn.length
  · -- the chain must be extended
    have hn_pos : 0 < blocksNeeded data.len - cn.length := by omega
    by_cases hfb : fb = -1
    · -- fresh chain
      subst hfb
      have hcn_nil : cn = [] := by
        rcases hfc.head_ok with ⟨_, hnil⟩ | ⟨a, A, _, hfb2, _⟩
        · exact hnil
        · omega
      have hc0 : cn.length = 0 := by rw [hcn_nil]; rfl
      obtain ⟨s1f, a, A, hAeq, hextf, hnodes1, hoft1, hpath1, hdisk1, hfree1, hfat1, hfc1⟩ :=
        extendChain_fresh hn_pos hfree
      have hfc1' : FileChain
          (setNodeData s1f fid (NodeData.file sz ((a : Nat) : Int))).free_map
          (setNodeData s1f fid (NodeData.file sz ((a : Nat) : Int))).fat
          ((a : Nat) : Int) (a :: A) := hfc1
      have hgbc2 := fileChain_getBlockChain hfc1'
      have hlenA : (a :: A).length = blocksNeeded data.len - cn.length := by
        rw [← hAeq, List.length_take]
        exact min_eq_left hfree
      have heq := write_file_eq_fresh data hlk hd hgbc
        (by rw [castChain_length]; exact hgt)
        (by rw [castChain_length]; exact hextf)
        hgbc2
      refine ⟨_, a :: A, ((a : Nat) : Int), heq, ?_, ?_, ?_, ?_, ?_, ?_, ?_, ?_, ?_, ?_⟩
      · omega
      · omega
      · omega
      · rw [setNodeData_oft, writeLoop_oft, setNodeData_oft, hoft1]
      · rw [setNodeData_nodes, writeLoop_nodes, setNodeData_nodes, hnodes1,
          getN_set_same _ (by rw [List.length_set]; exact hfid_lt), getN_set_same _ hfid_lt]
      · intro x hx
        rw [setNodeData_nodes, writeLoop_nodes, setNodeData_nodes, hnodes1,
          getN_set_other _ hx, getN_set_other _ hx]
      · rw [setNodeData_free, writeLoop_free, setNodeData_free,
          setNodeData_fat, writeLoop_fat, setNodeData_fat]
        exact hfc1
      · intro i hi t ht
        rw [setNodeData_disk]
        have hcall := writeLoop_disk_content data (a :: A) 0
          (setNodeData s1f fid (NodeData.file sz ((a : Nat) : Int))) 0 data.len
          hfc1.nodup hfc1.mem_lt (by simp) (fun _ => by simp) i hi t ht
        have h0 : 0 + i = i := Nat.zero_add i
        rw [h0] at hcall
        exact hcall
      · intro j hout
        rw [setNodeData_disk]
        rw [writeLoop_disk_frame data (a :: A)
          (setNodeData s1f fid (NodeData.file sz ((a : Nat) : Int))) 0 data.len j
          hfc1.mem_lt hout]
        rw [setNodeData_disk, hdisk1]
      · intro hcon
        exact absurd hcon (by omega)
    · -- extend an existing chain
      have hcne : cn ≠ [] := by
        intro hnil
        rcases hfc.head_ok with ⟨hm1, _⟩ | ⟨a0, cn0, hc, _, _⟩
        · exact hfb hm1
        · rw [hnil] at hc
          cases hc
      obtain ⟨s2x, hext', hnodes1, hoft1, hpath1, hdisk1, hfree1, hfat1, hfc1⟩ :=
        extendChain_ext hfc hcne hn_pos hfree
      have hgbc2 := fileChain_getBlockChain hfc1
      have hlenA : (cn ++ (freeIndices s).take (blocksNeeded data.len - cn.length)).length =
          blocksNeeded data.len := by
        rw [List.length_append, List.length_take]
        have hfq : freeCount s = (freeIndices s).length := rfl
        omega
      have heq := write_file_eq_ext data hlk hd hfb hgbc
        (by rw [castChain_length]; exact hgt)
        (by rw [castChain_length]; exact hext')
        hgbc2
      refine ⟨_, cn ++ (freeIndices s).take (blocksNeeded data.len - cn.length), fb,
        heq, ?_, ?_, ?_, ?_, ?_, ?_, ?_, ?_, ?_, ?_⟩
      · omega
      · omega
      · omega
      · rw [setNodeData_oft, writeLoop_oft, hoft1]
      · rw [setNodeData_nodes, writeLoop_nodes, hnodes1, getN_set_same _ hfid_lt]
      · intro x hx
        rw [setNodeData_nodes, writeLoop_nodes, hnodes1, getN_set_other _ hx]
      · rw [setNodeData_free, writeLoop_free, setNodeData_fat, writeLoop_fat]
        exact hfc1
      · intro i hi t ht
        rw [setNodeData_disk]
        have hcall := writeLoop_disk_content data
          (cn ++ (freeIndices s).take (blocksNeeded data.len - cn.length)) 0
          s2x 0 data.len hfc1.nodup hfc1.mem_lt (by simp) (fun _ => by simp) i hi t ht
        have h0 : 0 + i = i := Nat.zero_add i
        rw [h0] at hcall
        exact hcall
      · intro j hout
        rw [setNodeData_disk]
        rw [writeLoop_disk_frame data
          (cn ++ (freeIndices s).take (blocksNeeded data.len - cn.length))
          s2x 0 data.len j hfc1.mem_lt hout]
        rw [hdisk1]
      · intro hcon
        exact absurd hcon (by omega)
  · -- the payload fits in the existing chain
    have heq := write_file_eq_fits data hlk hd hgbc
      (by rw [castChain_length]; exact hgt)
    refine ⟨_, cn, fb, heq, Nat.le_refl _, by omega, le_max_right _ _,
      ?_, ?_, ?_, ?_, ?_, ?_, ?_⟩
    · rw [setNodeData_oft, writeLoop_oft]
    · rw [setNodeData_nodes, writeLoop_nodes, getN_set_same _ hfid_lt]
    · intro x hx
      rw [setNodeData_nodes, writeLoop_nodes, getN_set_other _ hx]
    · rw [setNodeData_free, writeLoop_free, setNodeData_fat, writeLoop_fat]
      exact hfc
    · intro i hi t ht
      rw [setNodeData_disk]
      have hcall := writeLoop_disk_content data cn 0 s 0 data.len
        hfc.nodup hfc.mem_lt (by simp) (fun _ => by simp) i hi t ht
      have h0 : 0 + i = i := Nat.zero_add i
      rw [h0] at hcall
      exact hcall
    · intro j hout
      rw [setNodeData_disk]
      rw [writeLoop_disk_frame data cn s 0 data.len j hfc.mem_lt hout]
    · intro hcon
      exact ⟨rfl, rfl, by rw [setNodeData_free, writeLoop_free],
        by rw [setNodeData_fat, writeLoop_fat]⟩

/-- `read_file` on a well-formed file whose chain blocks hold the image of
`g` returns the first `size` values of `g`. -/
theorem read_file_spec {s : FS} {name : String} {fid : Nat} {L : Nat} {fb2 : Int}
    {cc : List Nat} (hlk : lookupA s.oft name = some fid)
    (hd : (getNode s fid).data = NodeData.file L fb2)
    (hfc : FileChain s.free_map s.fat fb2 cc)
    (hlen : L ≤ cc.length * BLOCK_SIZE) (g : Nat → Nat)
    (hdisk : ∀ (i : Nat) (hi : i < cc.length) (t : Nat), t < BLOCK_SIZE →
      s.disk (cc.get ⟨i, hi⟩ * BLOCK_SIZE + t) = g (i * BLOCK_SIZE + t)) :
    read_file s name = some (.ok ((List.range L).map g)) := by
  by_cases hz : fb2 = -1 ∨ L = 0
  · have hL0 : L = 0 := by
      rcases hz with hz | hz
      · rcases hfc.head_ok with ⟨_, hnil⟩ | ⟨a, A, hcn, hfb, _⟩
        · rw [hnil] at hlen
          simpa using hlen
        · rw [hz] at hfb
          omega
      · exact hz
    subst hL0
    simp only [read_file, hlk, hd, if_pos hz]
    simp
  · have hgbc := fileChain_getBlockChain hfc
    have hrl := readLoop_spec g cc 0 L hfc.mem_lt
      (fun i hi t ht => by
        have := hdisk i hi t ht
        simpa using this)
      (by simpa using hlen)
    simp only [Nat.zero_mul, Nat.sub_zero] at hrl
    simp only [read_file, hlk, hd, if_neg hz, hgbc]
    rw [hrl, List.range_eq_range']

/-! ### Concrete reachable states used as witnesses -/

theorem freeIndices_all_true {s : FS} (h : ∀ i, s.free_map i = true) :
    freeIndices s = List.range NUM_BLOCKS := by
  rw [freeIndices]
  apply List.filter_eq_self.mpr
  intro a _
  rw [h a]

theorem freeCount_all_true {s : FS} (h : ∀ i, s.free_map i = true) :
    freeCount s = NUM_BLOCKS := by
  rw [freeCount, freeIndices_all_true h, List.length_range]

theorem nodup_full_range {cn : List Nat} {n : Nat} (hnd : cn.Nodup) (hlen : cn.length = n)
    (hlt : ∀ b ∈ cn, b < n) : ∀ i, i < n → i ∈ cn := by
  have h1 : cn.toFinset ⊆ Finset.range n := fun x hx =>
    Finset.mem_range.mpr (hlt x (List.mem_toFinset.mp hx))
  have h2 : (Finset.range n).card ≤ cn.toFinset.card := by
    rw [List.toFinset_card_of_nodup hnd, hlen, Finset.card_range]
  have h3 : cn.toFinset = Finset.range n := Finset.eq_of_subset_of_card_le h1 h2
  intro i hi
  have h4 : i ∈ cn.toFinset := by
    rw [h3]
    exact Finset.mem_range.mpr hi
  exact List.mem_toFinset.mp h4

/-- After `create f` on the fresh filesystem. -/
def fsF1 : FS :=
  ⟨[⟨"/", .dir [("f", 1)]⟩, ⟨"f", .file 0 (-1)⟩], [], fun _ => true, fun _ => -2, [],
    fun _ => 0⟩

/-- After `create f; open f`. -/
def fsF2 : FS := {fsF1 with oft := [("f", 1)]}

theorem fsF1_reachable : Reachable fsF1 :=
  Reachable.step Reachable.init (Step.create initFS "f" fsF1 (.ok ()) rfl)

theorem fsF2_reachable : Reachable fsF2 :=
  Reachable.step fsF1_reachable (Step.openf fsF1 "f" fsF2 (.ok ()) rfl)

/-- After `create f; create g`. -/
def fsG2 : FS :=
  ⟨[⟨"/", .dir [("f", 1), ("g", 2)]⟩, ⟨"f", .file 0 (-1)⟩, ⟨"g", .file 0 (-1)⟩], [],
    fun _ => true, fun _ => -2, [], fun _ => 0⟩

/-- After `create f; create g; open f`. -/
def fsG3 : FS := {fsG2 with oft := [("f", 1)]}

/-- After `create f; create g; open f; open g`. -/
def fsG4 : FS := {fsG2 with oft := [("f", 1), ("g", 2)]}

theorem fsG4_reachable : Reachable fsG4 :=
  Reachable.step
    (Reachable.step
      (Reachable.step fsF1_reachable (Step.create fsF1 "g" fsG2 (.ok ()) rfl))
      (Step.openf fsG2 "f" fsG3 (.ok ()) rfl))
    (Step.openf fsG3 "g" fsG4 (.ok ()) rfl)

/-- After `mkdir d`. -/
def fsD1 : FS :=
  ⟨[⟨"/", .dir [("d", 1)]⟩, ⟨"d", .dir []⟩], [], fun _ => true, fun _ => -2, [], fun _ => 0⟩

/-- After `mkdir d; cd d`. -/
def fsD2 : FS := {fsD1 with current_path := ["d"]}

/-- After `mkdir d; cd d; create n`. -/
def fsD3 : FS :=
  ⟨[⟨"/", .dir [("d", 1)]⟩, ⟨"d", .dir [("n", 2)]⟩, ⟨"n", .file 0 (-1)⟩], ["d"],
    fun _ => true, fun _ => -2, [], fun _ => 0⟩

/-- After `mkdir d; cd d; create n; open n`. -/
def fsD4 : FS := {fsD3 with oft := [("n", 2)]}

/-- After `mkdir d; cd d; create n; open n; cd /`. -/
def fsD5 : FS := {fsD4 with current_path := []}

/-- After `mkdir d; cd d; create n; open n; cd /; mkdir n`: an empty
directory named `n` in the current directory while a file of basename `n`
(inside `d`) is open. -/
def fsD6 : FS :=
  ⟨[⟨"/", .dir [("d", 1), ("n", 3)]⟩, ⟨"d", .dir [("n", 2)]⟩, ⟨"n", .file 0 (-1)⟩,
    ⟨"n", .dir []⟩], [], fun _ => true, fun _ => -2, [("n", 2)], fun _ => 0⟩

/-- After additionally `delete n`. -/
def fsD7 : FS :=
  ⟨[⟨"/", .dir [("d", 1)]⟩, ⟨"d", .dir [("n", 2)]⟩, ⟨"n", .file 0 (-1)⟩,
    ⟨"n", .dir []⟩], [], fun _ => true, fun _ => -2, [], fun _ => 0⟩

theorem fsD6_reachable : Reachable fsD6 :=
  Reachable.step
    (Reachable.step
      (Reachable.step
        (Reachable.step
          (Reachable.step Reachable.init (Step.mkdir initFS "d" fsD1 (.ok ()) rfl))
          (Step.cd fsD1 "d" fsD2 (.ok ()) rfl))
        (Step.create fsD2 "n" fsD3 (.ok ()) rfl))
      (Step.openf fsD3 "n" fsD4 (.ok ()) rfl))
    (Step.cd fsD4 "/" fsD5 (.ok ()) rfl)
  |>.step (Step.mkdir fsD5 "n" fsD6 (.ok ()) rfl)

/-- After `mkdir a`. -/
def fsM1 : FS :=
  ⟨[⟨"/", .dir [("a", 1)]⟩, ⟨"a", .dir []⟩], [], fun _ => true, fun _ => -2, [], fun _ => 0⟩

/-- After `mkdir a; mkdir c`. -/
def fsM2 : FS :=
  ⟨[⟨"/", .dir [("a", 1), ("c", 2)]⟩, ⟨"a", .dir []⟩, ⟨"c", .dir []⟩], [],
    fun _ => true, fun _ => -2, [], fun _ => 0⟩

/-- After `mkdir a; mkdir c; cd a`. -/
def fsM3 : FS := {fsM2 with current_path := ["a"]}

/-- After `mkdir a; mkdir c; cd a; mv /a /c`: the current working directory
`a` now lives under `/c`, but `current_path` still reads `["a"]`. -/
def fsM4 : FS :=
  ⟨[⟨"/", .dir [("c", 2)]⟩, ⟨"a", .dir []⟩, ⟨"c", .dir [("a", 1)]⟩], ["a"],
    fun _ => true, fun _ => -2, [], fun _ => 0⟩

theorem fsM4_reachable : Reachable fsM4 :=
  Reachable.step
    (Reachable.step
      (Reachable.step
        (Reachable.step Reachable.init (Step.mkdir initFS "a" fsM1 (.ok ()) rfl))
        (Step.mkdir fsM1 "c" fsM2 (.ok ()) rfl))
      (Step.cd fsM2 "a" fsM3 (.ok ()) rfl))
    (Step.move fsM3 "/a" "/c" fsM4 (.ok ()) rfl)

/-- After `mkdir "a/b"`: the argument is stored verbatim as a child name. -/
def fsS1 : FS :=
  ⟨[⟨"/", .dir [("a/b", 1)]⟩, ⟨"a/b", .dir []⟩], [], fun _ => true, fun _ => -2, [],
    fun _ => 0⟩

theorem fsS1_reachable : Reachable fsS1 :=
  Reachable.step Reachable.init (Step.mkdir initFS "a/b" fsS1 (.ok ()) rfl)

/-! ### The claims -/

/-- C1: on a reachable state, writing any payload to an open file for which
at least `blocksNeeded − current chain length` blocks are free succeeds, and
an immediate read of the same name returns exactly the payload bytes. -/
theorem C1_write_read_roundtrip {s : FS} (hs : Reachable s) {name : String} {fid : Nat}
    (data : Bytes) {sz : Nat} {fb : Int} {cn : List Nat}
    (hlk : lookupA s.oft name = some fid)
    (hd : (getNode s fid).data = NodeData.file sz fb)
    (hchain : getBlockChain s fb = some (castChain cn))
    (hfree : blocksNeeded data.len - cn.length ≤ freeCount s) :
    ∃ s' : FS, write_file s name data = some (s', .ok ()) ∧
      read_file s' name = some (.ok data.toList) := by
  have hInv := inv_reachable hs
  have hlive : Live s.nodes s.oft fid := Or.inr ⟨name, lookupA_mem hlk⟩
  obtain ⟨cn0, hfc0⟩ := hInv.chains hlive hd
  have hcn : cn = cn0 := by
    have h1 := fileChain_getBlockChain hfc0
    rw [hchain] at h1
    exact castChain_inj (Option.some.inj h1)
  rw [← hcn] at hfc0
  obtain ⟨s', cc, fb2, heq, hlen1, hlen2, hlen3, hoft, hnode, hother, hfc2, hcontent,
    hframe, hfits⟩ := write_file_spec hInv data hlk hd hfc0 hfree
  refine ⟨s', heq, ?_⟩
  have hlk2 : lookupA s'.oft name = some fid := by
    rw [hoft]
    exact hlk
  have hd2 : (getNode s' fid).data = NodeData.file data.len fb2 := by
    show (getN s'.nodes fid).data = _
    rw [hnode]
  have hLle : data.len ≤ cc.length * BLOCK_SIZE := by
    have h1 := blocksNeeded_mul data.len
    have h2 : blocksNeeded data.len * BLOCK_SIZE ≤ cc.length * BLOCK_SIZE :=
      Nat.mul_le_mul_right _ hlen2
    omega
  have hread := read_file_spec hlk2 hd2 hfc2 hLle
    (fun j => if j < data.len then data.byteAt j else 0)
    (fun i hi t ht => hcontent i hi t ht)
  have hmap : (List.range data.len).map (fun j => if j < data.len then data.byteAt j else 0) =
      (List.range data.len).map data.byteAt := by
    apply List.map_congr_left
    intro a ha
    rw [if_pos (List.mem_range.mp ha)]
  rw [hmap] at hread
  exact hread

theorem C1_write_read_roundtrip_witness :
    ∃ s' : FS, write_file fsF2 "f" ⟨3, fun _ => 65⟩ = some (s', .ok ()) ∧
      read_file s' "f" = some (.ok (Bytes.toList ⟨3, fun _ => 65⟩)) :=
  C1_write_read_roundtrip fsF2_reachable ⟨3, fun _ => 65⟩ rfl rfl
    (show getBlockChain fsF2 (-1) = some (castChain []) by
      rw [getBlockChain_neg_one]
      rfl)
    (by rw [freeCount_all_true (fun i => rfl)]; decide)

/-- C2: in every reachable state, `free_map[i] = true` iff `fat[i] = -2`,
and `free_map[i] = false` iff `fat[i]` is `-1` or a valid block index. -/
theorem C2_fat_free_agreement {s : FS} (hs : Reachable s) :
    ∀ i, i < NUM_BLOCKS →
      ((s.free_map i = true ↔ s.fat i = -2) ∧
       (s.free_map i = false ↔
         (s.fat i = -1 ∨ ∃ j : Nat, s.fat i = (j : Int) ∧ j < NUM_BLOCKS))) := by
  intro i hi
  obtain ⟨hiff, hrange⟩ := (inv_reachable hs).agree i hi
  refine ⟨hiff, ⟨?_, ?_⟩⟩
  · intro hfalse
    rcases hrange with h2 | h2 | h2
    · have h3 := hiff.mpr h2
      rw [hfalse] at h3
      cases h3
    · exact Or.inl h2
    · exact Or.inr h2
  · intro h2
    by_contra hne
    have htrue : s.free_map i = true := by
      cases hb : s.free_map i
      · exact absurd hb hne
      · rfl
    have hm2 := hiff.mp htrue
    rcases h2 with h2 | ⟨j, hj, _⟩
    · rw [hm2] at h2
      omega
    · rw [hm2] at hj
      omega

theorem C2_fat_free_agreement_witness :
    (initFS.free_map 0 = true ↔ initFS.fat 0 = -2) ∧
    (initFS.free_map 0 = false ↔
      (initFS.fat 0 = -1 ∨ ∃ j : Nat, initFS.fat 0 = (j : Int) ∧ j < NUM_BLOCKS)) :=
  C2_fat_free_agreement Reachable.init 0 (by decide)

/-- C5: in every reachable state the chain of every live file node is
acyclic (no block repeats), and the chains of two distinct live file nodes
share no block. -/
theorem C5_chains_acyclic_disjoint {s : FS} (hs : Reachable s) {id : Nat} {sz : Nat}
    {fb : Int} (hl : Live s.nodes s.oft id)
    (hd : (getNode s id).data = NodeData.file sz fb) :
    ∃ cn, getBlockChain s fb = some (castChain cn) ∧ cn.Nodup ∧
      (∀ {id' : Nat} {sz' : Nat} {fb' : Int} {cn' : List Nat},
        Live s.nodes s.oft id' → id ≠ id' →
        (getNode s id').data = NodeData.file sz' fb' →
        getBlockChain s fb' = some (castChain cn') →
        ∀ b ∈ cn, b ∉ cn') := by
  have hInv := inv_reachable hs
  obtain ⟨cn, hfc⟩ := hInv.chains hl hd
  refine ⟨cn, fileChain_getBlockChain hfc, hfc.nodup, ?_⟩
  intro id' sz' fb' cn' hl' hne hd' hg'
  obtain ⟨cn2, hfc2⟩ := hInv.chains hl' hd'
  have hcc : cn' = cn2 := by
    have h1 := fileChain_getBlockChain hfc2
    rw [hg'] at h1
    exact castChain_inj (Option.some.inj h1)
  rw [hcc]
  exact hInv.disjointc hl hl' hne hd hd' hfc hfc2

theorem C5_chains_acyclic_disjoint_witness :
    ∃ cn, getBlockChain fsF2 (-1) = some (castChain cn) ∧ cn.Nodup ∧
      (∀ {id' : Nat} {sz' : Nat} {fb' : Int} {cn' : List Nat},
        Live fsF2.nodes fsF2.oft id' → 1 ≠ id' →
        (getNode fsF2 id').data = NodeData.file sz' fb' →
        getBlockChain fsF2 fb' = some (castChain cn') →
        ∀ b ∈ cn, b ∉ cn') :=
  C5_chains_acyclic_disjoint fsF2_reachable
    (Or.inr ⟨"f", List.mem_singleton.mpr rfl⟩) rfl

/-- C7: a write whose payload needs no more blocks than the file's current
chain keeps `first_block`, the chain, the free map and the FAT unchanged,
stores the payload across the chain's blocks in order, and zero-fills every
byte of the chain past the payload. -/
theorem C7_overwrite_within_chain {s : FS} (hs : Reachable s) {name : String} {fid : Nat}
    (data : Bytes) {sz : Nat} {fb : Int} {cn : List Nat}
    (hlk : lookupA s.oft name = some fid)
    (hd : (getNode s fid).data = NodeData.file sz fb)
    (hchain : getBlockChain s fb = some (castChain cn))
    (hle : blocksNeeded data.len ≤ cn.length) :
    ∃ s', write_file s name data = some (s', .ok ()) ∧
      (getNode s' fid).data = NodeData.file data.len fb ∧
      getBlockChain s' fb = some (castChain cn) ∧
      s'.free_map = s.free_map ∧ s'.fat = s.fat ∧
      (∀ (i : Nat) (hi : i < cn.length) (t : Nat), t < BLOCK_SIZE →
        s'.disk (cn.get ⟨i, hi⟩ * BLOCK_SIZE + t) =
          if i * BLOCK_SIZE + t < data.len then data.byteAt (i * BLOCK_SIZE + t) else 0) := by
  have hInv := inv_reachable hs
  have hlive : Live s.nodes s.oft fid := Or.inr ⟨name, lookupA_mem hlk⟩
  obtain ⟨cn0, hfc0⟩ := hInv.chains hlive hd
  have hcn : cn = cn0 := by
    have h1 := fileChain_getBlockChain hfc0
    rw [hchain] at h1
    exact castChain_inj (Option.some.inj h1)
  rw [← hcn] at hfc0
  obtain ⟨s', cc, fb2, heq, hlen1, hlen2, hlen3, hoft, hnode, hother, hfc2, hcontent,
    hframe, hfits⟩ := write_file_spec hInv data hlk hd hfc0 (by omega)
  obtain ⟨hcc, hfb2, hfm, hft⟩ := hfits hle
  subst hcc
  rw [hfb2] at hnode hfc2
  refine ⟨s', heq, ?_, ?_, hfm, hft, hcontent⟩
  · show (getN s'.nodes fid).data = _
    rw [hnode]
  · have hg : getBlockChain s' fb = getBlockChain s fb := by
      rw [getBlockChain, getBlockChain, hft]
    rw [hg, hchain]

theorem C7_overwrite_within_chain_witness :
    ∃ (s s' : FS), Reachable s ∧
      write_file s "f" ⟨1, fun _ => 7⟩ = some (s', .ok ()) ∧
      s'.free_map = s.free_map ∧ s'.fat = s.fat := by
  have hInv := inv_reachable fsF2_reachable
  have hfc0 : FileChain fsF2.free_map fsF2.fat (-1) [] :=
    ⟨Or.inl ⟨rfl, rfl⟩, List.nodup_nil, by simp, by simp⟩
  obtain ⟨s3, cc, fb2, heq, hlen1, hlen2, hlen3, hoft, hnode, hother, hfc2, hcontent,
    hframe, hfits⟩ := write_file_spec hInv ⟨0, fun _ => 0⟩
    (show lookupA fsF2.oft "f" = some 1 from rfl)
    (show (getNode fsF2 1).data = NodeData.file 0 (-1) from rfl) hfc0
    (by rw [freeCount_all_true (fun i => rfl)]; decide)
  have hreach3 : Reachable s3 :=
    Reachable.step fsF2_reachable (Step.write fsF2 "f" ⟨0, fun _ => 0⟩ s3 (.ok ()) heq)
  have hlk3 : lookupA s3.oft "f" = some 1 := by
    rw [hoft]
    rfl
  have hd3 : (getNode s3 1).data = NodeData.file 0 fb2 := by
    show (getN s3.nodes 1).data = _
    rw [hnode]
  have hcc1 : cc.length = 1 := by
    have h1 : blocksNeeded (⟨0, fun _ => 0⟩ : Bytes).len = 1 := by decide
    have h3 : cc.length ≤ blocksNeeded (⟨0, fun _ => 0⟩ : Bytes).len := by
      simpa using hlen3
    omega
  obtain ⟨s4, heq4, _, _, hfm, hft, _⟩ :=
    C7_overwrite_within_chain hreach3 ⟨1, fun _ => 7⟩ hlk3 hd3
      (fileChain_getBlockChain hfc2)
      (by rw [hcc1]; decide)
  exact ⟨s3, s4, hreach3, heq4, hfm, hft⟩

theorem write_file_eq_full {s s1 : FS} {name : String} {fid : Nat} {sz : Nat} {fb : Int}
    {cn : List Int} (data : Bytes) (hlk : lookupA s.oft name = some fid)
    (hd : (getNode s fid).data = NodeData.file sz fb)
    (hgbc : getBlockChain s fb = some cn)
    (hgt : blocksNeeded data.len > cn.length)
    (hext : extendChain s fb (blocksNeeded data.len - cn.length) = some (s1, none)) :
    write_file s name data = some (s1, .error .diskFull) := by
  simp only [write_file, hlk, hd, hgbc, if_pos hgt, hext]

/-- C3 (amended): a write that needs more new blocks than are free fails
with the disk-full error and leaves the state — free map, FAT, disk bytes,
file size and `first_block` — completely unchanged. -/
theorem C3_no_space_error {s : FS} (hs : Reachable s) {name : String} {fid : Nat}
    (data : Bytes) {sz : Nat} {fb : Int} {cn : List Nat}
    (hlk : lookupA s.oft name = some fid)
    (hd : (getNode s fid).data = NodeData.file sz fb)
    (hchain : getBlockChain s fb = some (castChain cn))
    (hfree : freeCount s < blocksNeeded data.len - cn.length) :
    write_file s name data = some (s, .error .diskFull) := by
  have hgt : blocksNeeded data.len > (castChain cn).length := by
    rw [castChain_length]
    omega
  exact write_file_eq_full data hlk hd hchain hgt
    (by rw [castChain_length]; exact extendChain_fail hfree)

theorem C3_no_space_error_witness :
    write_file fsF2 "f" ⟨DISK_SIZE + 1, fun _ => 0⟩ = some (fsF2, .error .diskFull) ∧
    (getNode fsF2 1).data = NodeData.file 0 (-1) :=
  ⟨C3_no_space_error fsF2_reachable ⟨DISK_SIZE + 1, fun _ => 0⟩ rfl rfl
    (show getBlockChain fsF2 (-1) = some (castChain []) by
      rw [getBlockChain_neg_one]
      rfl)
    (by rw [freeCount_all_true (fun i => rfl)]; decide),
   rfl⟩

/-- A reachable state in which the open file `f` owns every disk block and
a second open file `g` still has no blocks. -/
theorem full_disk_state : ∃ (s3 : FS) (cc : List Nat) (fb2 : Int),
    Reachable s3 ∧ lookupA s3.oft "f" = some 1 ∧ lookupA s3.oft "g" = some 2 ∧
    (getNode s3 1).data = NodeData.file DISK_SIZE fb2 ∧
    (getNode s3 2).data = NodeData.file 0 (-1) ∧
    FileChain s3.free_map s3.fat fb2 cc ∧ cc.length = NUM_BLOCKS ∧
    freeCount s3 = 0 := by
  have hInv := inv_reachable fsG4_reachable
  have hfc0 : FileChain fsG4.free_map fsG4.fat (-1) [] :=
    ⟨Or.inl ⟨rfl, rfl⟩, List.nodup_nil, by simp, by simp⟩
  obtain ⟨s3, cc, fb2, heq, hlen1, hlen2, hlen3, hoft, hnode, hother, hfc2, hcontent,
    hframe, hfits⟩ := write_file_spec hInv ⟨DISK_SIZE, fun _ => 0⟩
    (show lookupA fsG4.oft "f" = some 1 from rfl)
    (show (getNode fsG4 1).data = NodeData.file 0 (-1) from rfl) hfc0
    (by rw [freeCount_all_true (fun i => rfl)]; decide)
  have hreach3 : Reachable s3 :=
    Reachable.step fsG4_reachable
      (Step.write fsG4 "f" ⟨DISK_SIZE, fun _ => 0⟩ s3 (.ok ()) heq)
  have hccL : cc.length = NUM_BLOCKS := by
    have h1 : blocksNeeded (⟨DISK_SIZE, fun _ => 0⟩ : Bytes).len = NUM_BLOCKS := by decide
    have h3 : cc.length ≤ blocksNeeded (⟨DISK_SIZE, fun _ => 0⟩ : Bytes).len := by
      simpa using hlen3
    omega
  have hcover := nodup_full_range hfc2.nodup hccL hfc2.mem_lt
  have hfree0 : freeCount s3 = 0 := by
    have hnil : freeIndices s3 = [] := by
      rw [freeIndices]
      apply List.filter_eq_nil_iff.mpr
      intro a ha
      have hin := hcover a (List.mem_range.mp ha)
      rw [hfc2.mem_alloc a hin]
      simp
    rw [freeCount, hnil]
    rfl
  refine ⟨s3, cc, fb2, hreach3, ?_, ?_, ?_, ?_, hfc2, hccL, hfree0⟩
  · rw [hoft]
    rfl
  · rw [hoft]
    rfl
  · show (getN s3.nodes 1).data = _
    rw [hnode]
  · show (getN s3.nodes 2).data = _
    rw [hother 2 (by decide)]
    rfl

/-- C3 is false as stated: a reachable state with zero free blocks on
which a write whose payload needs one block (more than the zero free
blocks) nevertheless succeeds, because the file's existing chain is
reused without any allocation. -/
theorem C3_counterexample : ∃ (s s' : FS) (data : Bytes),
    Reachable s ∧ freeCount s < blocksNeeded data.len ∧
    write_file s "f" data = some (s', .ok ()) := by
  obtain ⟨s3, cc, fb2, hreach3, hlkf, hlkg, hdf, hdg, hfc2, hccL, hfree0⟩ := full_disk_state
  have hbn : blocksNeeded (⟨0, fun _ => 0⟩ : Bytes).len = 1 := by decide
  have hnb : NUM_BLOCKS = 2048 := by decide
  obtain ⟨s4, cc4, fb4, heq4, -, -, -, -, -, -, -, -, -, -⟩ :=
    write_file_spec (inv_reachable hreach3) ⟨0, fun _ => 0⟩ hlkf hdf hfc2 (by omega)
  refine ⟨s3, s4, ⟨0, fun _ => 0⟩, hreach3, ?_, heq4⟩
  rw [hfree0, hbn]
  decide

/-- C9 (amended): writing an empty payload to an open file with no blocks
allocates exactly one block — provided at least one block is free:
afterwards `first_block` is a valid block index, the chain is exactly that
one block, and the recorded size is 0. -/
theorem C9_empty_write_allocates {s : FS} (hs : Reachable s) {name : String} {fid : Nat}
    (data : Bytes) {sz : Nat}
    (hlk : lookupA s.oft name = some fid)
    (hd : (getNode s fid).data = NodeData.file sz (-1))
    (hlen : data.len = 0) (hfree : 1 ≤ freeCount s) :
    ∃ (s' : FS) (b : Nat), write_file s name data = some (s', .ok ()) ∧
      b < NUM_BLOCKS ∧
      (getNode s' fid).data = NodeData.file 0 ((b : Nat) : Int) ∧
      getBlockChain s' ((b : Nat) : Int) = some [((b : Nat) : Int)] := by
  have hInv := inv_reachable hs
  have hlive : Live s.nodes s.oft fid := Or.inr ⟨name, lookupA_mem hlk⟩
  obtain ⟨cn0, hfc0⟩ := hInv.chains hlive hd
  have hcn : cn0 = [] := by
    rcases hfc0.head_ok with ⟨_, hnil⟩ | ⟨a, A, _, hfb2, _⟩
    · exact hnil
    · omega
  subst hcn
  obtain ⟨s', cc, fb2, heq, hlen1, hlen2, hlen3, hoft, hnode, hother, hfc2, hcontent,
    hframe, hfits⟩ := write_file_spec hInv data hlk hd hfc0
    (by
      rw [hlen]
      have h1 : blocksNeeded 0 = 1 := by decide
      rw [h1]
      simpa using hfree)
  have hcc1 : cc.length = 1 := by
    have h1 : blocksNeeded data.len = 1 := by
      rw [hlen]
      decide
    have h3 : cc.length ≤ blocksNeeded data.len := by
      simpa using hlen3
    omega
  obtain ⟨b, hb⟩ : ∃ b, cc = [b] := by
    cases cc with
    | nil => exact absurd hcc1 (by decide)
    | cons x t =>
      cases t with
      | nil => exact ⟨x, rfl⟩
      | cons y u => simp at hcc1
  subst hb
  have hfb2b : fb2 = ((b : Nat) : Int) := by
    rcases hfc2.head_ok with ⟨_, hnil⟩ | ⟨a, A, hcn2, hfb, _⟩
    · cases hnil
    · injection hcn2 with h1 h2
      rw [hfb, h1]
  refine ⟨s', b, heq, hfc2.mem_lt b (List.mem_singleton.mpr rfl), ?_, ?_⟩
  · show (getN s'.nodes fid).data = _
    rw [hnode, hlen, hfb2b]
  · have hg := fileChain_getBlockChain hfc2
    rw [hfb2b] at hg
    rw [hg]
    rfl

theorem C9_empty_write_allocates_witness :
    ∃ (s' : FS) (b : Nat), write_file fsF2 "f" ⟨0, fun _ => 0⟩ = some (s', .ok ()) ∧
      b < NUM_BLOCKS ∧
      (getNode s' 1).data = NodeData.file 0 ((b : Nat) : Int) ∧
      getBlockChain s' ((b : Nat) : Int) = some [((b : Nat) : Int)] :=
  C9_empty_write_allocates fsF2_reachable ⟨0, fun _ => 0⟩ rfl rfl rfl
    (by rw [freeCount_all_true (fun i => rfl)]; decide)

/-- C9 is false as stated: with no free blocks, the empty write to an open
chainless file allocates nothing — it fails with the disk-full error and
leaves the state unchanged, `first_block` still `-1`. -/
theorem C9_counterexample : ∃ (s : FS) (data : Bytes),
    Reachable s ∧ lookupA s.oft "g" = some 2 ∧
    (getNode s 2).data = NodeData.file 0 (-1) ∧ data.len = 0 ∧
    write_file s "g" data = some (s, .error .diskFull) := by
  obtain ⟨s3, cc, fb2, hreach3, hlkf, hlkg, hdf, hdg, hfc2, hccL, hfree0⟩ := full_disk_state
  refine ⟨s3, ⟨0, fun _ => 0⟩, hreach3, hlkg, hdg, rfl, ?_⟩
  have hgbc : getBlockChain s3 (-1) = some (castChain []) := by
    rw [getBlockChain_neg_one]
    rfl
  have hext : extendChain s3 (-1)
      (blocksNeeded (⟨0, fun _ => 0⟩ : Bytes).len - (castChain []).length) =
      some (s3, none) := by
    apply extendChain_fail
    rw [hfree0]
    decide
  exact write_file_eq_full ⟨0, fun _ => 0⟩ hlkg hdg hgbc (by decide) hext

theorem freeChainAux_oft : ∀ (fuel : Nat) (s : FS) (b : Int) {sf : FS},
    freeChainAux fuel s b = some sf → sf.oft = s.oft := by
  intro fuel
  induction fuel with
  | zero =>
    intro s b sf h
    rw [freeChainAux] at h
    split at h
    · cases h
      rfl
    · cases h
  | succ n ih =>
    intro s b sf h
    rw [freeChainAux] at h
    split at h
    · cases h
      rfl
    · have h2 : freeChainAux n
          (writeBlock {s with free_map := upd s.free_map (intIdx b) true, fat := upd s.fat (intIdx b) (-2)} b emptyBytes)
          (fatGet s.fat b) = some sf := h
      have h3 := ih
        (writeBlock {s with free_map := upd s.free_map (intIdx b) true, fat := upd s.fat (intIdx b) (-2)} b emptyBytes)
        (fatGet s.fat b) h2
      exact h3

/-- C10: a successful delete removes the open-file-table entry keyed by
the deleted name — even when the deleted child is an empty directory while
the open handle refers to a like-named file elsewhere. -/
theorem C10_delete_pops_open_handle {s s' : FS} {name : String} (hs : Reachable s)
    (h : delete_file s name = some (s', .ok ())) : lookupA s'.oft name = none := by
  have hInv := inv_reachable hs
  rw [delete_file] at h
  split at h
  · cases h
  · rename_i pid hcur
    split at h
    · cases h
    · rename_i cs hnd
      split at h
      · cases h
      · rename_i cid hlk
        split at h
        · -- empty-directory child
          rename_i ccs hcd
          split at h
          · cases h
          · cases h
            exact lookupA_removeA_self hInv.oft_keys_nodup
        · -- file child
          rename_i sz fb hcd
          split at h
          · cases h
          · rename_i sf hfree
            cases h
            have hsfo : sf.oft = s.oft := by
              by_cases hfb : fb ≠ -1
              · rw [if_pos hfb] at hfree
                exact freeChainAux_oft _ _ _ hfree
              · rw [if_neg hfb] at hfree
                rw [← Option.some.inj hfree]
            show lookupA (removeA sf.oft name) name = none
            rw [hsfo]
            exact lookupA_removeA_self hInv.oft_keys_nodup

theorem C10_delete_pops_open_handle_witness :
    Reachable fsD6 ∧ (getNode fsD6 3).data = NodeData.dir [] ∧
    lookupA fsD6.oft "n" = some 2 ∧ (getNode fsD6 2).data = NodeData.file 0 (-1) ∧
    lookupA fsD7.oft "n" = none :=
  ⟨fsD6_reachable, rfl, rfl, rfl,
    C10_delete_pops_open_handle fsD6_reachable
      (show delete_file fsD6 "n" = some (fsD7, .ok ()) from rfl)⟩

/-- C4 is refuted — a genuine bug: after the reachable command sequence
`mkdir a; mkdir c; cd a; mv /a /c`, the next `ls` dereferences the
dangling `current_path` and raises an uncaught `KeyError` (modelled by
`none`), so not every command surfaces its errors and returns normally. -/
theorem C4_command_crash : Reachable fsM4 ∧ ls fsM4 = none :=
  ⟨fsM4_reachable, rfl⟩

/-- C8 is false as stated: `mkdir "a/b"` stores the argument verbatim, so a
reachable state contains a child name with a `/` in it. -/
theorem C8_counterexample : ∃ (s : FS) (cs : List (String × Nat)) (p : String × Nat),
    Reachable s ∧ (getNode s 0).data = NodeData.dir cs ∧ p ∈ cs ∧ '/' ∈ p.1.data :=
  ⟨fsS1, [("a/b", 1)], ("a/b", 1), fsS1_reachable, rfl, List.mem_singleton.mpr rfl,
    by decide⟩

/-- C8 (amended): the true half of the naming discipline — within any
directory of a reachable state the child names are unique.  (The other
half fails: names are stored unvalidated, so they may be empty or contain
`/`.) -/
theorem C8_child_names_unique {s : FS} (hs : Reachable s) {pid : Nat}
    {cs : List (String × Nat)} (hd : (getNode s pid).data = NodeData.dir cs) :
    (cs.map Prod.fst).Nodup :=
  (inv_reachable hs).keys_nodup hd

theorem C8_child_names_unique_witness :
    (([("a/b", 1)] : List (String × Nat)).map Prod.fst).Nodup :=
  C8_child_names_unique fsS1_reachable
    (show (getNode fsS1 0).data = NodeData.dir [("a/b", 1)] from rfl)

/-! ### Persistence model (`_save_metadata` / `_load_metadata` /
`_save_disk_image` / `_load_disk_image_if_exists`)

`json.dump` writes the nested node dicts as a JSON document and
`json.load` reads it back into fresh dicts; `JTree`/`JKids` is that
document (children in insertion order, which `json` preserves).  The file
store and the JSON text encoding are outside this repository's code and
are modelled as faithful. -/

mutual
inductive JTree where
  | jfile (name : String) (size : Nat) (first_block : Int)
  | jdir (name : String) (children : JKids)
inductive JKids where
  | nil
  | cons (key : String) (t : JTree) (rest : JKids)
end

mutual
/-- The document `json.dump` produces for the node at `id` (fuel bounds
the recursion depth). -/
def serN (ns : List Node) : Nat → Nat → Option JTree
  | 0, _ => none
  | fuel + 1, id =>
    match (getN ns id).data with
    | .file sz fb => some (.jfile (getN ns id).name sz fb)
    | .dir cs =>
      match serKids ns fuel cs with
      | none => none
      | some l => some (.jdir (getN ns id).name l)

/-- Serialize a children mapping in insertion order. -/
def serKids (ns : List Node) : Nat → List (String × Nat) → Option JKids
  | _, [] => some .nil
  | fuel, (k, cid) :: rest =>
    match serN ns fuel cid, serKids ns fuel rest with
    | some t, some l => some (.cons k t l)
    | _, _ => none
end

mutual
/-- `json.load` allocating fresh node dicts for a saved tree: append the
new nodes to an arena, returning the rebuilt node's index. -/
def deserNode : JTree → List Node → List Node × Nat
  | .jfile n sz fb, ns => (ns ++ [⟨n, .file sz fb⟩], ns.length)
  | .jdir n kids, ns =>
    match deserKids kids ns with
    | (ns1, cs) => (ns1 ++ [⟨n, .dir cs⟩], ns1.length)

/-- Rebuild a children mapping, allocating each child in order. -/
def deserKids : JKids → List Node → List Node × List (String × Nat)
  | .nil, ns => (ns, [])
  | .cons k t rest, ns =>
    match deserNode t ns with
    | (ns1, id) =>
      match deserKids rest ns1 with
      | (ns2, cs) => (ns2, (k, id) :: cs)
end

mutual
/-- Nesting depth of a saved tree. -/
def jheight : JTree → Nat
  | .jfile _ _ _ => 0
  | .jdir _ kids => jheightK kids

def jheightK : JKids → Nat
  | .nil => 0
  | .cons _ t rest => max (jheight t + 1) (jheightK rest)
end

mutual
/-- Node count of a saved tree (the induction measure below). -/
def jsize : JTree → Nat
  | .jfile _ _ _ => 1
  | .jdir _ kids => jsizeK kids + 1

def jsizeK : JKids → Nat
  | .nil => 0
  | .cons _ t rest => jsize t + jsizeK rest
end

/-- The `free_map` list written to the metadata document. -/
def saveFreeList (s : FS) : List Bool := (List.range NUM_BLOCKS).map s.free_map

/-- The `fat` list written to the metadata document. -/
def saveFatList (s : FS) : List Int := (List.range NUM_BLOCKS).map s.fat

/-- The bytes written to the disk image. -/
def saveDiskBytes (s : FS) : List Nat := (List.range DISK_SIZE).map s.disk

/-- `_load_disk_image_if_exists`: pad with zero bytes or truncate to
`DISK_SIZE`. -/
def loadDiskBytes (data : List Nat) : List Nat :=
  if data.length < DISK_SIZE then data ++ List.replicate (DISK_SIZE - data.length) 0
  else data.take DISK_SIZE

theorem getN_append_mid (ns rest : List Node) (nd : Node) :
    getN (ns ++ nd :: rest) ns.length = nd := by
  rw [getN, List.getD_eq_getElem?_getD, List.getElem?_append_right (Nat.le_refl _)]
  simp

theorem getD_map_range {α : Type} (f : Nat → α) (d : α) {n i : Nat} (h : i < n) :
    ((List.range n).map f).getD i d = f i := by
  rw [List.getD_eq_getElem?_getD, List.getElem?_map]
  simp [List.getElem?_range h]

theorem jsize_pos (t : JTree) : 1 ≤ jsize t := by
  cases t with
  | jfile nm sz fb => simp [jsize]
  | jdir nm kids =>
    simp [jsize]

/-- Serialization succeeds with any larger fuel, with the same result. -/
theorem ser_mono (ns : List Node) : ∀ fuel : Nat,
    (∀ (id : Nat) (t : JTree) (fuel2 : Nat), fuel ≤ fuel2 →
      serN ns fuel id = some t → serN ns fuel2 id = some t) ∧
    (∀ (cs : List (String × Nat)) (l : JKids) (fuel2 : Nat), fuel ≤ fuel2 →
      serKids ns fuel cs = some l → serKids ns fuel2 cs = some l) := by
  intro fuel
  induction fuel with
  | zero =>
    constructor
    · intro id t fuel2 _ h
      simp [serN] at h
    · intro cs l fuel2 hle h
      cases cs with
      | nil =>
        simp [serKids] at h
        rw [← h]
        simp [serKids]
      | cons hd tl =>
        obtain ⟨k, cid⟩ := hd
        simp [serKids, serN] at h
  | succ n ih =>
    have hN : ∀ (id : Nat) (t : JTree) (fuel2 : Nat), n + 1 ≤ fuel2 →
        serN ns (n + 1) id = some t → serN ns fuel2 id = some t := by
      intro id t fuel2 hle h
      obtain ⟨m, rfl⟩ : ∃ m, fuel2 = m + 1 := ⟨fuel2 - 1, by omega⟩
      have hmn : n ≤ m := by omega
      simp only [serN] at h ⊢
      cases hd : (getN ns id).data with
      | file sz fb =>
        rw [hd] at h
        exact h
      | dir cs =>
        rw [hd] at h
        have h2 : (match serKids ns n cs with
          | none => none
          | some l => some (JTree.jdir (getN ns id).name l)) = some t := h
        show (match serKids ns m cs with
          | none => none
          | some l => some (JTree.jdir (getN ns id).name l)) = some t
        cases hk : serKids ns n cs with
        | none =>
          rw [hk] at h2
          simp at h2
        | some l =>
          rw [hk] at h2
          have hl := ih.2 cs l m hmn hk
          rw [hl]
          exact h2
    refine ⟨hN, ?_⟩
    intro cs l fuel2 hle h
    induction cs generalizing l with
    | nil =>
      simp [serKids] at h
      rw [← h]
      simp [serKids]
    | cons hd tl ihl =>
      obtain ⟨k, cid⟩ := hd
      simp only [serKids] at h ⊢
      cases h1 : serN ns (n + 1) cid with
      | none =>
        rw [h1] at h
        simp at h
      | some t1 =>
        cases h2 : serKids ns (n + 1) tl with
        | none =>
          rw [h1, h2] at h
          simp at h
        | some l2 =>
          rw [h1, h2] at h
          have ht1 := hN cid t1 fuel2 hle h1
          have hl2 := ihl l2 h2
          rw [ht1, hl2]
          exact h

/-- `deserNode`/`deserKids` only append to the arena they are given. -/
theorem deser_arena (n : Nat) :
    (∀ t : JTree, jsize t ≤ n → ∀ ns, ∃ d, (deserNode t ns).1 = ns ++ d) ∧
    (∀ ks : JKids, jsizeK ks ≤ n → ∀ ns, ∃ d, (deserKids ks ns).1 = ns ++ d) := by
  induction n with
  | zero =>
    constructor
    · intro t ht
      exfalso
      have := jsize_pos t
      omega
    · intro ks hk ns
      cases ks with
      | nil => exact ⟨[], by simp [deserKids]⟩
      | cons k t rest =>
        exfalso
        have h1 := jsize_pos t
        simp [jsizeK] at hk
        omega
  | succ n ih =>
    have hA : ∀ t : JTree, jsize t ≤ n + 1 → ∀ ns, ∃ d, (deserNode t ns).1 = ns ++ d := by
      intro t ht ns
      cases t with
      | jfile nm sz fb => exact ⟨[⟨nm, .file sz fb⟩], rfl⟩
      | jdir nm kids =>
        have hk : jsizeK kids ≤ n := by
          have h2 : jsize (JTree.jdir nm kids) = jsizeK kids + 1 := by simp [jsize]
          omega
        obtain ⟨d, hd⟩ := ih.2 kids hk ns
        refine ⟨d ++ [⟨nm, NodeData.dir (deserKids kids ns).2⟩], ?_⟩
        show (deserKids kids ns).1 ++ [⟨nm, NodeData.dir (deserKids kids ns).2⟩] = _
        rw [hd, List.append_assoc]
    refine ⟨hA, ?_⟩
    intro ks hk ns
    cases ks with
    | nil => exact ⟨[], by simp [deserKids]⟩
    | cons k t rest =>
      have hsz : jsize t ≤ n + 1 ∧ jsizeK rest ≤ n := by
        have h1 := jsize_pos t
        simp [jsizeK] at hk
        omega
      obtain ⟨d1, hd1⟩ := hA t hsz.1 ns
      obtain ⟨d2, hd2⟩ := ih.2 rest hsz.2 (deserNode t ns).1
      refine ⟨d1 ++ d2, ?_⟩
      show (deserKids rest (deserNode t ns).1).1 = _
      rw [hd2, hd1, List.append_assoc]

/-- Re-serializing a freshly rebuilt tree gives back the saved document,
whatever else sits in the arena after it. -/
theorem deser_ser (n : Nat) :
    (∀ t : JTree, jsize t ≤ n → ∀ ns ext,
      serN ((deserNode t ns).1 ++ ext) (jheight t + 1) (deserNode t ns).2 = some t) ∧
    (∀ ks : JKids, jsizeK ks ≤ n → ∀ ns ext,
      serKids ((deserKids ks ns).1 ++ ext) (jheightK ks) (deserKids ks ns).2 = some ks) := by
  induction n with
  | zero =>
    constructor
    · intro t ht
      exfalso
      have := jsize_pos t
      omega
    · intro ks hk ns ext
      cases ks with
      | nil => simp [deserKids, serKids]
      | cons k t rest =>
        exfalso
        have := jsize_pos t
        simp [jsizeK] at hk
        omega
  | succ n ih =>
    have hA : ∀ t : JTree, jsize t ≤ n + 1 → ∀ ns ext,
        serN ((deserNode t ns).1 ++ ext) (jheight t + 1) (deserNode t ns).2 = some t := by
      intro t ht ns ext
      cases t with
      | jfile nm sz fb =>
        show serN ((ns ++ [⟨nm, NodeData.file sz fb⟩]) ++ ext)
          (jheight (JTree.jfile nm sz fb) + 1) ns.length = some (JTree.jfile nm sz fb)
        simp only [serN]
        have hg : getN ((ns ++ [⟨nm, NodeData.file sz fb⟩]) ++ ext) ns.length =
            ⟨nm, NodeData.file sz fb⟩ := by
          rw [List.append_assoc]
          exact getN_append_mid _ _ _
        rw [hg]
      | jdir nm kids =>
        have hk : jsizeK kids ≤ n := by
          have h2 : jsize (JTree.jdir nm kids) = jsizeK kids + 1 := by simp [jsize]
          omega
        show serN (((deserKids kids ns).1 ++ [⟨nm, NodeData.dir (deserKids kids ns).2⟩]) ++ ext)
          (jheight (JTree.jdir nm kids) + 1) (deserKids kids ns).1.length =
          some (JTree.jdir nm kids)
        simp only [serN]
        have hg : getN
            (((deserKids kids ns).1 ++ [⟨nm, NodeData.dir (deserKids kids ns).2⟩]) ++ ext)
            (deserKids kids ns).1.length = ⟨nm, NodeData.dir (deserKids kids ns).2⟩ := by
          rw [List.append_assoc]
          exact getN_append_mid _ _ _
        rw [hg]
        show (match serKids
            (((deserKids kids ns).1 ++ [⟨nm, NodeData.dir (deserKids kids ns).2⟩]) ++ ext)
            (jheight (JTree.jdir nm kids)) (deserKids kids ns).2 with
          | none => none
          | some l => some (JTree.jdir nm l)) = some (JTree.jdir nm kids)
        have hkids := ih.2 kids hk ns ([⟨nm, NodeData.dir (deserKids kids ns).2⟩] ++ ext)
        rw [← List.append_assoc] at hkids
        have hh : jheight (JTree.jdir nm kids) = jheightK kids := by simp [jheight]
        rw [hh, hkids]
    refine ⟨hA, ?_⟩
    intro ks hk ns ext
    cases ks with
    | nil => simp [deserKids, serKids]
    | cons k t rest =>
      have hsz : jsize t ≤ n + 1 ∧ jsizeK rest ≤ n := by
        have h1 := jsize_pos t
        simp [jsizeK] at hk
        omega
      show serKids ((deserKids rest (deserNode t ns).1).1 ++ ext)
          (jheightK (JKids.cons k t rest))
          ((k, (deserNode t ns).2) :: (deserKids rest (deserNode t ns).1).2) =
        some (JKids.cons k t rest)
      simp only [serKids]
      obtain ⟨d, hdarena⟩ :=
        (deser_arena (jsizeK rest)).2 rest (Nat.le_refl _) (deserNode t ns).1
      have ht1 : serN ((deserKids rest (deserNode t ns).1).1 ++ ext) (jheight t + 1)
          (deserNode t ns).2 = some t := by
        rw [hdarena, List.append_assoc]
        exact hA t hsz.1 ns (d ++ ext)
      have ht1' := (ser_mono _ (jheight t + 1)).1 _ _
        (jheightK (JKids.cons k t rest)) (le_max_left _ _) ht1
      have ht2 := ih.2 rest hsz.2 (deserNode t ns).1 ext
      have ht2' := (ser_mono _ (jheightK rest)).2 _ _
        (jheightK (JKids.cons k t rest)) (le_max_right _ _) ht2
      rw [ht1', ht2']

/-- C6: for every reachable state, saving the metadata document (the serialized
root tree, the free list and the FAT list) together with the disk image, and
loading them back through the startup path, reconstructs the root tree, the
free map, the FAT and all `DISK_SIZE` block-device bytes identical to the
originals. -/
theorem C6_persistence_roundtrip {s : FS} (hs : Reachable s) {t : JTree} {fuel : Nat}
    (hser : serN s.nodes fuel 0 = some t) :
    serN (deserNode t []).1 (jheight t + 1) (deserNode t []).2 = some t ∧
    (∀ i, i < NUM_BLOCKS → (saveFreeList s).getD i true = s.free_map i) ∧
    (∀ i, i < NUM_BLOCKS → (saveFatList s).getD i (-2) = s.fat i) ∧
    (∀ j, j < DISK_SIZE → (loadDiskBytes (saveDiskBytes s)).getD j 0 = s.disk j) := by
  refine ⟨?_, ?_, ?_, ?_⟩
  · have h := (deser_ser (jsize t)).1 t (Nat.le_refl _) [] []
    rw [List.append_nil] at h
    exact h
  · intro i hi
    exact getD_map_range s.free_map true hi
  · intro i hi
    exact getD_map_range s.fat (-2) hi
  · intro j hj
    have hlen : (saveDiskBytes s).length = DISK_SIZE := by simp [saveDiskBytes]
    simp only [loadDiskBytes]
    rw [if_neg (by omega), List.take_of_length_le (by omega)]
    exact getD_map_range s.disk 0 hj

/-- Witness for C6 at the freshly initialized state, whose root serializes to
an empty directory document within fuel 2. -/
theorem C6_persistence_roundtrip_witness :
    serN (deserNode (JTree.jdir "/" JKids.nil) []).1
        (jheight (JTree.jdir "/" JKids.nil) + 1)
        (deserNode (JTree.jdir "/" JKids.nil) []).2 = some (JTree.jdir "/" JKids.nil) ∧
    (∀ i, i < NUM_BLOCKS → (saveFreeList initFS).getD i true = initFS.free_map i) ∧
    (∀ i, i < NUM_BLOCKS → (saveFatList initFS).getD i (-2) = initFS.fat i) ∧
    (∀ j, j < DISK_SIZE → (loadDiskBytes (saveDiskBytes initFS)).getD j 0 = initFS.disk j) := by
  have hser : serN initFS.nodes (0 + 1 + 1) 0 = some (JTree.jdir "/" JKids.nil) := by
    have hk : serKids initFS.nodes (0 + 1) [] = some JKids.nil := by simp [serKids]
    simp only [serN]
    have hd : (getN initFS.nodes 0).data = NodeData.dir [] := rfl
    rw [hd]
    show (match serKids initFS.nodes (0 + 1) [] with
      | none => none
      | some l => some (JTree.jdir (getN initFS.nodes 0).name l)) =
      some (JTree.jdir "/" JKids.nil)
    rw [hk]
    rfl
  exact C6_persistence_roundtrip Reachable.init hser

end VFS
